import Mathlib

/-!
Ghost routing helper `fetch-data.js`: a shallow embedding.

Source: `core/server/services/routing/helpers/fetch-data.js`.

The module builds one primary "posts" query and the auxiliary queries named by
`routerOptions.data`, hands them to the content API and merges the results.

Conventions of the embedding

* JavaScript values are the data values `undefined`, `null`, booleans, numbers
  (integers only, written in decimal), strings, arrays and plain objects.
  Functions are not values of the embedding; the content API and the
  configuration flag are parameters.
* The length and the indices of a string count UTF-16 code units (`jsLength`,
  `unitAt`): a character beyond U+FFFF takes two.  Half of a surrogate pair is
  not a value of the embedding; a walk over a string that would produce one
  stops with `Abort.unsupported` (`dataEntries`).
* An object is an association list.  The first binding of a key is the
  property; later bindings of the same key are never observed.  Keys are
  enumerated in insertion order.
* Prototypes.  The property names the module reads by a fixed name are own
  properties or absent, with two exceptions that are modelled:
  `pathOptions.hasOwnProperty` is looked up and called, so an own property of
  that name shadows the method of `Object.prototype` and the call is a
  `TypeError` (`callHasOwnProperty`); `routerOptions.filter` on an array is a
  method of `Array.prototype` (`readFilter`, `Abort.unsupported`).  A read by
  a computed name that finds no own property but a member of
  `Object.prototype` stops with `Abort.unsupported` (`readKey`).  An
  assignment to the name `__proto__` runs the setter of `Object.prototype` and
  creates no property (`dispatchAll`, `formatEntry`).
* The module is not in strict mode: an assignment to a property of a
  primitive is ignored, an assignment to a property of `undefined` or `null`
  is a `TypeError`.
* Values are immutable, so `_.cloneDeep` is the identity.
* A named property stored on an array cannot be represented; an evaluation
  that needs one stops with `Abort.unsupported`.
* An API method is a function of its options: it throws, or returns a promise
  that is fulfilled, rejected at some time, or never settles.
* lodash is modelled from its documented behaviour: `_.each` walks arrays,
  strings and objects with a numeric `length` by index and other objects by
  key; `_.defaultsDeep` fills in what is `undefined`, recursively.

Layout: the embedding of the module; the definitions used to state the
properties; lemmas; the properties.
-/

namespace FetchData

/-! ## Values -/

/-- JavaScript data values. -/
inductive JSValue where
  | undefined
  | null
  | bool (b : Bool)
  | number (n : Int)
  | string (s : String)
  | array (elems : List JSValue)
  | object (props : List (String × JSValue))
  deriving Inhabited, Repr

/-- The property list of an object. -/
abbrev Props := List (String × JSValue)

/-- Why an evaluation stops early. -/
inductive Abort where
  /-- A `TypeError` raised by the engine: a property of `undefined` or `null`
  is read or written, or something that is not a function is called. -/
  | typeError
  /-- A value thrown by an API method, or the reason an API promise rejects with. -/
  | raised (e : JSValue)
  /-- The evaluation leaves the fragment of JavaScript covered here. -/
  | unsupported
  deriving Inhabited, Repr

/-! ## Association lists -/

/-- First binding of `k`. -/
def assocGet? {α : Type} (k : String) : List (String × α) → Option α
  | [] => none
  | (k', v) :: rest => if k' = k then some v else assocGet? k rest

/-- Assignment `o[k] = v`: overwrite the binding of `k` in place, or append a new one. -/
def assocSet {α : Type} (k : String) (v : α) : List (String × α) → List (String × α)
  | [] => [(k, v)]
  | (k', v') :: rest => if k' = k then (k', v) :: rest else (k', v') :: assocSet k v rest

/-- Own keys in order of first appearance, each once. -/
def assocKeys {α : Type} : List (String × α) → List String
  | [] => []
  | (k, _) :: rest => k :: (assocKeys rest).filter (fun k' => decide (k' ≠ k))

/-- Read `o[k]` for an object with property list `p`; `undefined` when absent. -/
def propGet (p : Props) (k : String) : JSValue :=
  (assocGet? k p).getD JSValue.undefined

/-- Own enumerable entries of an object, `(key, value)` in key order. -/
def propEntries (p : Props) : List (String × JSValue) :=
  (assocKeys p).map (fun k => (k, propGet p k))

/-! ## Primitive operations of the language -/

/-- ToBoolean. -/
def toBoolean : JSValue → Bool
  | .undefined => false
  | .null => false
  | .bool b => b
  | .number n => decide (n ≠ 0)
  | .string s => decide (s ≠ "")
  | .array _ => true
  | .object _ => true

mutual
/-- ToString. An array is its elements joined by commas (`undefined` and
`null` elements give the empty string); a plain object is `[object Object]`. -/
def toStr : JSValue → String
  | .undefined => "undefined"
  | .null => "null"
  | .bool b => if b then "true" else "false"
  | .number n => toString n
  | .string s => s
  | .array xs => ",".intercalate (toStrElems xs)
  | .object _ => "[object Object]"
/-- The strings joined by `Array.prototype.join`. -/
def toStrElems : List JSValue → List String
  | [] => []
  | x :: xs =>
    (match x with
      | .undefined => ""
      | .null => ""
      | y => toStr y) :: toStrElems xs
end

/-- The length of a string: the number of its UTF-16 code units, two for a
character beyond U+FFFF. -/
def jsLength (s : String) : Nat :=
  (s.data.map (fun c => if c.toNat < 65536 then 1 else 2)).sum

/-- Whether every character of the string is one UTF-16 code unit. -/
def isBmp (s : String) : Bool :=
  s.data.all (fun c => decide (c.toNat < 65536))

/-- The code unit at a position, when it is a character by itself; `none`
past the end and for each half of a surrogate pair. -/
def unitAt : List Char → Nat → Option Char
  | [], _ => none
  | c :: _, 0 => if c.toNat < 65536 then some c else none
  | c :: rest, i + 1 =>
    if c.toNat < 65536 then unitAt rest i
    else match i with
      | 0 => none
      | j + 1 => unitAt rest j

/-- The array index a property key denotes, among the indices below `n`. -/
def indexOfKey (k : String) (n : Nat) : Option Nat :=
  (List.range n).find? (fun i => decide (toString i = k))

/-- Property read `v[k]` on a value that is neither `undefined` nor `null`
(on those two the caller raises the `TypeError`), for an own property and for
a name that no prototype defines.  A string is read by UTF-16 code unit; half
of a surrogate pair is not a value of the embedding (`undefined` stands in:
`dataEntries` and `replaceSlugs` see to it that it is never used). -/
def JSValue.get (v : JSValue) (k : String) : JSValue :=
  match v with
  | .object p => propGet p k
  | .array xs =>
    if k = "length" then .number xs.length
    else match indexOfKey k xs.length with
      | some i => xs.getD i .undefined
      | none => .undefined
  | .string s =>
    if k = "length" then .number (jsLength s)
    else match indexOfKey k (jsLength s) with
      | some i =>
        match unitAt s.data i with
        | some c => .string (String.mk [c])
        | none => .undefined
      | none => .undefined
  | _ => .undefined

/-- Property read `v[k]`, with the `TypeError` on `undefined` and `null`. -/
def getProp (v : JSValue) (k : String) : Except Abort JSValue :=
  match v with
  | .undefined => .error .typeError
  | .null => .error .typeError
  | w => .ok (w.get k)

/-- Assignment `v[k] = x`; the result is the value `v` denotes afterwards. -/
def setProp (v : JSValue) (k : String) (x : JSValue) : Except Abort JSValue :=
  match v with
  | .undefined => .error .typeError
  | .null => .error .typeError
  | .object p => .ok (.object (assocSet k x p))
  | .array xs =>
    match indexOfKey k xs.length with
    | some i => .ok (.array (xs.set i x))
    | none => .error .unsupported
  | w => .ok w

/-- The built-in `Object.prototype.hasOwnProperty` applied to a value that is
neither `undefined` nor `null`: whether `k` is an own property. -/
def hasOwnProperty (v : JSValue) (k : String) : Bool :=
  match v with
  | .object p => (assocGet? k p).isSome
  | .array xs => decide (k = "length") || (indexOfKey k xs.length).isSome
  | .string s => decide (k = "length") || (indexOfKey k (jsLength s)).isSome
  | _ => false

/-- The call `v.hasOwnProperty(k)` of lines 83 and 87.  The method is looked
up on `v` first: an own property named `hasOwnProperty` shadows the built-in
one, and since its value is not a function (functions are not values of the
embedding) the call is a `TypeError`.  Every other value of the embedding
inherits the built-in method. -/
def callHasOwnProperty (v : JSValue) (k : String) : Except Abort Bool :=
  match v with
  | .undefined => .error .typeError
  | .null => .error .typeError
  | .object p =>
    if (assocGet? "hasOwnProperty" p).isSome then .error .typeError
    else .ok (hasOwnProperty (.object p) k)
  | w => .ok (hasOwnProperty w k)

/-- The read `routerOptions.filter` of lines 75 and 76.  An array inherits
`filter` from `Array.prototype`; that value is a function, which the
embedding cannot hold, so the evaluation stops there.  No other name the
module reads is defined by a built-in prototype. -/
def readFilter (routerOptions : JSValue) : Except Abort JSValue :=
  match routerOptions with
  | .array _ => .error .unsupported
  | w => .ok (w.get "filter")

/-- The test `_.isString`. -/
def isString : JSValue → Bool
  | .string _ => true
  | _ => false

/-- The function `_.cloneDeep`: values are immutable, a deep copy is the value itself. -/
def cloneDeep (v : JSValue) : JSValue := v

/-! ## `String.prototype.replace` with the pattern `/%s/g` -/

/-- The character U+0060, second half of the replacement pattern for the text before the match. -/
def graveAccent : Char := Char.ofNat 96

/-- The character U+0027, second half of the replacement pattern for the text after the match. -/
def apostropheChar : Char := Char.ofNat 39

/-- GetSubstitution for a pattern without capture groups: in the replacement
text `$$` is a dollar sign, `$&` the matched text, `$` + U+0060 the text before
the match, `$` + U+0027 the text after it; every other character, a lone
dollar sign included, is copied. -/
def getSubstitution (matched before after : List Char) : List Char → List Char
  | [] => []
  | [c] => [c]
  | c :: d :: rest =>
    if c = '$' then
      if d = '$' then '$' :: getSubstitution matched before after rest
      else if d = '&' then matched ++ getSubstitution matched before after rest
      else if d = graveAccent then before ++ getSubstitution matched before after rest
      else if d = apostropheChar then after ++ getSubstitution matched before after rest
      else c :: getSubstitution matched before after (d :: rest)
    else c :: getSubstitution matched before after (d :: rest)

/-- Scan left to right; `before` is the text already passed. Every
non-overlapping occurrence of `%s` is replaced by its substitution. -/
def replaceScan (replacement : List Char) : List Char → List Char → List Char
  | _, [] => []
  | _, [c] => [c]
  | before, c :: d :: after =>
    if c = '%' ∧ d = 's' then
      getSubstitution ['%', 's'] before after replacement
        ++ replaceScan replacement (before ++ ['%', 's']) after
    else c :: replaceScan replacement (before ++ [c]) (d :: after)

/-- The call `option.replace(/%s/g, slugParam)`: the replacement value is converted with ToString. -/
def replaceSlug (option : String) (slugParam : JSValue) : String :=
  String.mk (replaceScan (toStr slugParam).data [] option.data)

/-! ## lodash -/

/-- The `isLength` test of lodash on `value.length`: a non-negative integer
up to `Number.MAX_SAFE_INTEGER`. -/
def arrayLikeLength : JSValue → Option Nat
  | .number n => if 0 ≤ n ∧ n ≤ 9007199254740991 then some n.toNat else none
  | _ => none

/-- The `(value, key)` pairs `_.each(collection, iteratee)` hands to an
iteratee that never returns `false` and leaves the entries not yet visited
alone.  Arrays and strings are walked by index; so is every object whose
`length` property passes `isLength` ("objects with a length property are
iterated like arrays"); any other object is walked over its own keys;
`undefined`, `null`, numbers and booleans have no entries.  The pairs are
listed as `(key, value)`, an index as its decimal string.  A string is walked
by UTF-16 code unit. -/
def eachEntries : JSValue → List (String × JSValue)
  | .array xs => (List.range xs.length).map (fun i => (toString i, xs.getD i .undefined))
  | .string s =>
    (List.range (jsLength s)).map (fun i => (toString i, (JSValue.string s).get (toString i)))
  | .object p =>
    match arrayLikeLength (propGet p "length") with
    | some n => (List.range n).map (fun i => (toString i, propGet p (toString i)))
    | none => propEntries p
  | _ => []

/-- The entries `_.each(routerOptions.data, ...)` walks (lines 96 and 107).
The halves of a surrogate pair, which a string with a character beyond U+FFFF
hands to the iteratee, are not values of the embedding: the evaluation stops
there with `Abort.unsupported`. -/
def dataEntries (data : JSValue) : Except Abort (List (String × JSValue)) :=
  match data with
  | .string s => if isBmp s then .ok (eachEntries (.string s)) else .error .unsupported
  | v => .ok (eachEntries v)

mutual
/-- One step of `_.defaultsDeep`: what is assigned to `object[key]`, if
anything, given its current value `objValue`, whether the key is `present` in
`object`, and the source value:

* a source object is copied when `object[key]` is `undefined`, merged
  recursively into `object[key]` when that is an object, and ignored when
  `object[key]` is any other value (`null` included);
* a source array is copied when `object[key]` is `undefined` and ignored when
  `object[key]` is a primitive or `null`;
* a source `undefined` is assigned only when the key is absent;
* any other source value is assigned when `object[key]` is `undefined`.

Merging entries into an array, or an array into an object, is not covered. -/
def mergeValue (objValue : JSValue) (present : Bool) :
    (srcValue : JSValue) → Except Abort (Option JSValue)
  | .object sp =>
    match objValue with
    | .undefined => .ok (some (.object sp))
    | .object op =>
      match mergeDefaults op sp with
      | .ok merged => .ok (some (.object merged))
      | .error e => .error e
    | .array _ =>
      match sp with
      | [] => .ok none
      | _ :: _ => .error .unsupported
    | _ => .ok none
  | .array sx =>
    match objValue with
    | .undefined => .ok (some (.array sx))
    | .object _ =>
      match sx with
      | [] => .ok none
      | _ :: _ => .error .unsupported
    | .array _ =>
      match sx with
      | [] => .ok none
      | _ :: _ => .error .unsupported
    | _ => .ok none
  | .undefined => if present then .ok none else .ok (some .undefined)
  | srcValue =>
    match objValue with
    | .undefined => .ok (some srcValue)
    | _ => .ok none
/-- The effect of `_.defaultsDeep(object, source)` on the properties `p` of
`object`, one source entry after the other. -/
def mergeDefaults (p : Props) : (source : List (String × JSValue)) → Except Abort Props
  | [] => .ok p
  | entry :: rest =>
    match mergeEntry p entry with
    | .ok p' => mergeDefaults p' rest
    | .error e => .error e
/-- The effect of one source entry on the properties `p`. -/
def mergeEntry (p : Props) : (entry : String × JSValue) → Except Abort Props
  | (key, srcValue) =>
    match mergeValue (propGet p key) (assocGet? key p).isSome srcValue with
    | .ok (some v) => .ok (assocSet key v p)
    | .ok none => .ok p
    | .error e => .error e
end

/-- The value the variable `object` holds after the statement
`_.defaultsDeep(object, source)`, whose return value is not used.  For a
primitive, `undefined` or `null` the defaults go to a temporary wrapper and
the variable keeps its value. -/
def defaultsDeep (object : JSValue) (source : Props) : Except Abort JSValue :=
  match object with
  | .object p => (mergeDefaults p source).map JSValue.object
  | .array xs =>
    match source with
    | [] => .ok (.array xs)
    | _ :: _ => .error .unsupported
  | v => .ok v

/-! ## The content API and promises -/

/-- A promise as the composer sees it: how it settles.  The time of a
rejection is kept because `Promise.props` rejects with the rejection that
comes first.  A value that is not a promise counts as fulfilled. -/
inductive Promise where
  | fulfilled (value : JSValue)
  | rejected (time : Nat) (reason : Abort)
  | pending
  deriving Inhabited, Repr

/-- What a call of an API method does: throw, or return a promise. -/
inductive CallOutcome where
  | threw (e : JSValue)
  | returned (promise : Promise)
  deriving Inhabited, Repr

/-- An API method, applied to the options object. -/
abbrev Method := JSValue → CallOutcome

/-- The registry `require('../../../api')[apiVersion][controller][type]`,
as a lookup by the three keys; `none` when the lookup does not end in a
function (the call is then a `TypeError`). -/
abbrev Api := JSValue → JSValue → JSValue → Option Method

/-- An invocation `api[controller][type](options)`. -/
structure Call where
  apiVersion : JSValue
  controller : JSValue
  type : JSValue
  options : JSValue
  deriving Inhabited, Repr

/-- How the promise returned by `fetchData` settles. -/
inductive Settlement where
  | fulfilled (value : JSValue)
  | rejected (reason : Abort)
  | pending
  deriving Inhabited, Repr

/-! ## The module -/

/-- The default settings for a default post query (lines 10-15). -/
def queryDefaults : Props :=
  [("type", .string "browse"), ("resource", .string "posts"),
   ("controller", .string "posts"), ("options", .object [])]

/-- The constant `defaultQueryOptions` (lines 20-25). -/
def defaultQueryOptions : Props :=
  [("options", .object [("include", .string "author,authors,tags"), ("formats", .string "html")])]

/-- The constant `defaultPostQuery` (lines 30-31): a copy of `queryDefaults`
whose `options` are those of `defaultQueryOptions`. -/
def defaultPostQuery : JSValue :=
  .object (assocSet "options" (propGet defaultQueryOptions "options")
    (match cloneDeep (.object queryDefaults) with
      | .object p => p
      | _ => []))

/-- The iteratee of line 52: `_.isString(option) ? option.replace(/%s/g, slugParam) : option`. -/
def substituteSlug (slugParam : JSValue) (option : JSValue) : JSValue :=
  match option with
  | .string s => .string (replaceSlug s slugParam)
  | v => v

/-- The loop of lines 51-53 on the object `query.options`: for every entry,
`query.options[name]` is assigned the substituted value.  When the options
are a string, every assignment goes to an index of a primitive and is
ignored. -/
def replaceSlugs (slugParam : JSValue) (options : JSValue) : Except Abort JSValue :=
  match options with
  | .string s => .ok (.string s)
  | _ =>
    (eachEntries options).foldlM
      (fun opts entry => setProp opts entry.1 (substituteSlug slugParam entry.2)) options

/-- Lines 44-57 of `processQuery`: the invocation line 59 is about to make.
`options` stands for the object `query.options`, which is the same object
from line 51 to line 59. -/
def buildCall (enableDeveloperExperiments : Bool) (query slugParam locals : JSValue) :
    Except Abort Call := do
  let apiVersion ← getProp locals "apiVersion"
  let query := cloneDeep query
  let query ← defaultsDeep query queryDefaults
  let options ← getProp query "options"
  let options ← replaceSlugs slugParam options
  let options ←
    if enableDeveloperExperiments then
      setProp options "context" (.object [("member", locals.get "member")])
    else pure options
  pure { apiVersion := apiVersion, controller := query.get "controller",
         type := query.get "type", options := options }

/-- What one run of `processQuery` does: the API invocation it makes, when
it gets that far, and what it returns or throws. -/
structure Dispatch where
  call : Option Call
  result : Except Abort Promise

/-- The function `processQuery` (lines 43-60). -/
def processQuery (enableDeveloperExperiments : Bool) (api : Api)
    (query slugParam locals : JSValue) : Dispatch :=
  match buildCall enableDeveloperExperiments query slugParam locals with
  | .error e => { call := none, result := .error e }
  | .ok call =>
    match api call.apiVersion call.controller call.type with
    | none => { call := none, result := .error .typeError }
    | some method =>
      { call := some call
        result :=
          match method call.options with
          | .threw e => .error (.raised e)
          | .returned promise => .ok promise }

/-- The assignment `postQuery.options[name] = value`. -/
def setOption (postQuery : JSValue) (name : String) (value : JSValue) : Except Abort JSValue := do
  let options ← getProp postQuery "options"
  let options ← setProp options name value
  setProp postQuery "options" options

/-- Lines 72-89 of `fetchData`: the primary query.  The calls of
`pathOptions.hasOwnProperty` on lines 83 and 87 can throw. -/
def buildPostQuery (pathOptions routerOptions : JSValue) : Except Abort JSValue := do
  let postQuery := cloneDeep defaultPostQuery
  let filter ← readFilter routerOptions
  let postQuery ←
    if toBoolean filter then
      setOption postQuery "filter" filter
    else pure postQuery
  let postQuery ←
    if toBoolean (routerOptions.get "order") then
      setOption postQuery "order" (routerOptions.get "order")
    else pure postQuery
  let ownsPage ← callHasOwnProperty pathOptions "page"
  let postQuery ←
    if ownsPage then
      setOption postQuery "page" (pathOptions.get "page")
    else pure postQuery
  let ownsLimit ← callHasOwnProperty pathOptions "limit"
  let postQuery ←
    if ownsLimit then
      setOption postQuery "limit" (pathOptions.get "limit")
    else pure postQuery
  pure postQuery

/-- Lines 93-98 of `fetchData`: the queries are handed to `processQuery` one
after the other and `props[name]` is assigned the promise each returns; an
exception ends the loop.  `calls` collects the API invocations made.

The assignment `props['__proto__'] = promise` creates no property: it runs the
setter of `Object.prototype` and makes the returned promise the prototype of
`props`.  The loop goes on, but what `Promise.props` does with such an object
depends on the promise library (bluebird takes an object that inherits from
one of its promises for a promise): when the loop ends without an exception,
the evaluation stops with `Abort.unsupported`. -/
def dispatchAll (enableDeveloperExperiments : Bool) (api : Api) (slugParam locals : JSValue) :
    List (String × JSValue) → List Call → List (String × Promise) →
      List Call × Except Abort (List (String × Promise))
  | [], calls, props => (calls, .ok props)
  | (name, query) :: rest, calls, props =>
    let d := processQuery enableDeveloperExperiments api query slugParam locals
    match d.result with
    | .error e => (calls ++ d.call.toList, .error e)
    | .ok promise =>
      if name = "__proto__" then
        let later := dispatchAll enableDeveloperExperiments api slugParam locals rest
          (calls ++ d.call.toList) props
        (later.1,
          match later.2 with
          | .error e => .error e
          | .ok _ => .error .unsupported)
      else
        dispatchAll enableDeveloperExperiments api slugParam locals rest
          (calls ++ d.call.toList) (assocSet name promise props)

/-- The rejection that comes first: the least time, and among equal times
the first in key order. -/
def firstRejection : List (String × Promise) → Option (Nat × Abort)
  | [] => none
  | (_, .rejected t r) :: rest =>
    match firstRejection rest with
    | some (t', r') => if t' < t then some (t', r') else some (t, r)
    | none => some (t, r)
  | _ :: rest => firstRejection rest

/-- The values of the fulfilled promises under their keys; `none` when one is not fulfilled. -/
def fulfilledValues : List (String × Promise) → Option Props
  | [] => some []
  | (name, .fulfilled v) :: rest => (fulfilledValues rest).map (fun r => (name, v) :: r)
  | _ :: _ => none

/-- The call `Promise.props(props)`: rejected with the first rejection,
fulfilled with the object of the values when every promise is fulfilled,
pending otherwise. -/
def promiseProps (props : List (String × Promise)) : Settlement :=
  match firstRejection props with
  | some (_, reason) => .rejected reason
  | none =>
    match fulfilledValues props with
    | some results => .fulfilled (.object results)
    | none => .pending

/-- The comparison `value === text` with a string literal. -/
def strictEqualsString (value : JSValue) (text : String) : Bool :=
  match value with
  | .string s => decide (s = text)
  | _ => false

/-- The names a plain object inherits from `Object.prototype`. -/
def objectPrototypeKeys : List String :=
  ["constructor", "__defineGetter__", "__defineSetter__", "hasOwnProperty",
   "__lookupGetter__", "__lookupSetter__", "isPrototypeOf", "propertyIsEnumerable",
   "toString", "valueOf", "__proto__", "toLocaleString"]

/-- Property read `v[k]` with a key computed at run time (lines 109 and 111).
An own property is read as it is.  A key that is not an own property is looked
up on the prototype: for a plain object it is `undefined` unless
`Object.prototype` defines it; what the prototypes of arrays, strings, numbers
and booleans define is a built-in method or varies with the engine. A value
that is not data stops the evaluation with `Abort.unsupported`. -/
def readKey (v : JSValue) (k : String) : Except Abort JSValue :=
  match v with
  | .undefined => .error .typeError
  | .null => .error .typeError
  | .object p =>
    match assocGet? k p with
    | some x => .ok x
    | none => if k ∈ objectPrototypeKeys then .error .unsupported else .ok .undefined
  | .array xs =>
    if k = "length" then .ok (.number xs.length)
    else match indexOfKey k xs.length with
      | some i => .ok (xs.getD i .undefined)
      | none => .error .unsupported
  | _ => .error .unsupported

/-- The right-hand side of lines 109 and 111 for one entry `(name, config)`
of `routerOptions.data`, given the value of `config.type`: `results[name]` for
a browse, else `results[name][config.resource]`. -/
def entryValue (results : JSValue) (entry : String × JSValue) : Except Abort JSValue := do
  let configType ← getProp entry.2 "type"
  let result ← readKey results entry.1
  if strictEqualsString configType "browse" then
    pure result
  else
    readKey result (toStr (entry.2.get "resource"))

/-- Lines 108-112 for an entry named `__proto__`.  When `results` has no own
property of that name, `results['__proto__']` is `Object.prototype`; the
assignment `response.data['__proto__'] = ...` runs the setter of
`Object.prototype` on `response.data`, which creates no property: it ignores
`undefined` (the value of a read of a `resource` that `Object.prototype` does
not define) and leaves an object without own `__proto__` with the prototype
it has when it is handed `Object.prototype`.  The other cases change a
prototype or hold a built-in value and stop with `Abort.unsupported`. -/
def formatProto (results data response : JSValue) (browse : Bool) (resource : String) :
    Except Abort JSValue :=
  match results, data with
  | .object rp, .object dp =>
    if (assocGet? "__proto__" rp).isSome || (assocGet? "__proto__" dp).isSome then
      .error .unsupported
    else if browse then .ok response
    else if resource ∈ objectPrototypeKeys then .error .unsupported
    else .ok response
  | _, _ => .error .unsupported

/-- The body of the loop of lines 107-113 for one entry of
`routerOptions.data`: the assignment `response.data[name] = ...`. -/
def formatEntry (results : JSValue) (response : JSValue) (entry : String × JSValue) :
    Except Abort JSValue := do
  let data ← getProp response "data"
  if entry.1 = "__proto__" then
    let configType ← getProp entry.2 "type"
    formatProto results data response (strictEqualsString configType "browse")
      (toStr (entry.2.get "resource"))
  else
    let value ← entryValue results entry
    let data ← setProp data entry.1 value
    setProp response "data" data

/-- The function `formatResponse` (lines 101-117). -/
def formatResponse (routerOptions results : JSValue) : Except Abort JSValue := do
  let posts ← getProp results "posts"
  let response := cloneDeep posts
  if toBoolean (routerOptions.get "data") then
    let response ← setProp response "data" (.object [])
    let entries ← dataEntries (routerOptions.get "data")
    entries.foldlM (formatEntry results) response
  else
    pure response

/-- The continuation `.then(formatResponse)`. -/
def thenFormat (routerOptions : JSValue) : Settlement → Settlement
  | .fulfilled results =>
    match formatResponse routerOptions results with
    | .ok response => .fulfilled response
    | .error e => .rejected e
  | .rejected reason => .rejected reason
  | .pending => .pending

/-- The expression `value || {}`. -/
def orEmptyObject (value : JSValue) : JSValue :=
  if toBoolean value then value else .object []

/-- What one run of `fetchData` does: the API invocations in order, and the
exception thrown or the settlement of the promise returned. -/
structure FetchRun where
  calls : List Call
  result : Except Abort Settlement

/-- The function `fetchData` (lines 68-118).  A run that leaves the embedding
has the result `Abort.unsupported`; when it does so at the walk of line 96,
the primary query of line 93 has been dispatched. -/
def fetchData (enableDeveloperExperiments : Bool) (api : Api)
    (pathOptions routerOptions locals : JSValue) : FetchRun :=
  let pathOptions := orEmptyObject pathOptions
  let routerOptions := orEmptyObject routerOptions
  match buildPostQuery pathOptions routerOptions with
  | .error e => { calls := [], result := .error e }
  | .ok postQuery =>
    match dataEntries (routerOptions.get "data") with
    | .error e =>
      let first :=
        dispatchAll enableDeveloperExperiments api (pathOptions.get "slug") locals
          [("posts", postQuery)] [] []
      match first.2 with
      | .error thrown => { calls := first.1, result := .error thrown }
      | .ok _ => { calls := first.1, result := .error e }
    | .ok entries =>
      let submitted :=
        dispatchAll enableDeveloperExperiments api (pathOptions.get "slug") locals
          (("posts", postQuery) :: entries) [] []
      match submitted.2 with
      | .error e => { calls := submitted.1, result := .error e }
      | .ok props =>
        { calls := submitted.1, result := .ok (thenFormat routerOptions (promiseProps props)) }

/-! ## The replacement the documentation describes -/

/-- The text the documentation of `processQuery` describes ("Replaces
occurrences of `%s` in options with slugParam"): the option split at every
`%s` and joined with the slug. -/
def joinWithSlug (slug : List Char) : List Char → List Char
  | [] => []
  | [c] => [c]
  | c :: d :: after =>
    if c = '%' ∧ d = 's' then slug ++ joinWithSlug slug after
    else c :: joinWithSlug slug (d :: after)

/-- The documented substitution on an option value: strings are split and joined, other values kept. -/
def substituteDocumented (slug : String) (option : JSValue) : JSValue :=
  match option with
  | .string s => .string (String.mk (joinWithSlug slug.data s.data))
  | v => v

/-- The value `v`, or the default `d` when `v` is `undefined`. -/
def orDefault (v d : JSValue) : JSValue :=
  match v with
  | .undefined => d
  | w => w

/-- Whether a value is `undefined`. -/
def isUndefined : JSValue → Bool
  | .undefined => true
  | _ => false

/-- The properties of `query.options` after the loop of lines 51-53, for an
object with properties `p`: one assignment per visited entry. -/
def substituteProps (slugParam : JSValue) (p : Props) : Props :=
  (eachEntries (.object p)).foldl
    (fun q entry => assocSet entry.1 (substituteSlug slugParam entry.2) q) p

/-- The options `processQuery` hands to the API, for the options of the
defaulted descriptor: an object after the loop of lines 51-53, with `context`
assigned when the flag is on; a primitive as it is (every assignment to a
property of a primitive is ignored). -/
def dispatchedOptions (flag : Bool) (slugParam member : JSValue) (options : JSValue) :
    JSValue :=
  match options with
  | .object op =>
    if flag then
      .object (assocSet "context" (.object [("member", member)]) (substituteProps slugParam op))
    else .object (substituteProps slugParam op)
  | v => v

/-- Defaulting of one property: `d` is assigned when `p[key]` is `undefined`. -/
def applyDefault (key : String) (d : JSValue) (p : Props) : Props :=
  match propGet p key with
  | .undefined => assocSet key d p
  | _ => p

/-- The properties of a descriptor after defaulting against `queryDefaults`. -/
def withDefaults (q : Props) : Props :=
  applyDefault "options" (.object [])
    (applyDefault "controller" (.string "posts")
      (applyDefault "resource" (.string "posts")
        (applyDefault "type" (.string "browse") q)))

/-- One overlaid option: the entry when the condition holds, nothing otherwise. -/
def overlay (present : Bool) (name : String) (value : JSValue) : Props :=
  if present then [(name, value)] else []

/-- The options of the primary query as the specification lists them: the
two defaults, then `filter` and `order` when the router supplies them, then
`page` and `limit` when the path options own them. -/
def primaryOptions (pathOptions routerOptions : JSValue) : Props :=
  [("include", .string "author,authors,tags"), ("formats", .string "html")]
    ++ overlay (toBoolean (routerOptions.get "filter")) "filter" (routerOptions.get "filter")
    ++ overlay (toBoolean (routerOptions.get "order")) "order" (routerOptions.get "order")
    ++ overlay (hasOwnProperty pathOptions "page") "page" (pathOptions.get "page")
    ++ overlay (hasOwnProperty pathOptions "limit") "limit" (pathOptions.get "limit")

/-- The promise a run of `processQuery` returned (`pending` stands in when it threw). -/
def Dispatch.promise (d : Dispatch) : Promise :=
  match d.result with
  | .ok p => p
  | .error _ => .pending

/-- The value a promise is fulfilled with (`undefined` stands in otherwise). -/
def Promise.value : Promise → JSValue
  | .fulfilled v => v
  | _ => .undefined

/-- The queries `fetchData` hands to `processQuery`, in order, under the keys
they are stored at: the primary query under `posts`, then the entries of
`routerOptions.data`. -/
def submittedQueries (postQuery routerOptions : JSValue) : List (String × JSValue) :=
  ("posts", postQuery) :: eachEntries (routerOptions.get "data")

/-- The value the query of an entry resolves to. -/
def queryValue (flag : Bool) (api : Api) (slugParam locals : JSValue)
    (entry : String × JSValue) : JSValue :=
  (processQuery flag api entry.2 slugParam locals).promise.value

/-- The object `Promise.props` resolves to when every query resolves: each
key holds the value of the last query stored under it. -/
def resultsOf (flag : Bool) (api : Api) (slugParam locals : JSValue)
    (queries : List (String × JSValue)) : Props :=
  queries.foldl (fun q e => assocSet e.1 (queryValue flag api slugParam locals e) q) []

/-- What the merge stores for an entry `(name, config)`: the whole result
for a browse, else the field of the result named by `config.resource`. -/
def mergedValue (results : JSValue) (entry : String × JSValue) : JSValue :=
  if strictEqualsString (entry.2.get "type") "browse" then results.get entry.1
  else (results.get entry.1).get (toStr (entry.2.get "resource"))

/-- The `data` object of the response: one assignment per entry. -/
def mergedData (results : JSValue) (entries : List (String × JSValue)) : Props :=
  entries.foldl (fun q e => assocSet e.1 (mergedValue results e) q) []

/-- The merged response for results whose `posts` is an object: that
object, with `data` assigned when `routerOptions.data` is truthy. -/
def mergedResponse (routerOptions results : JSValue) : JSValue :=
  match results.get "posts" with
  | .object base =>
    if toBoolean (routerOptions.get "data") then
      .object (assocSet "data"
        (.object (mergedData results (eachEntries (routerOptions.get "data")))) base)
    else .object base
  | v => v

/-- The primary query `fetchData` builds from its two arguments. -/
def primaryQuery (pathOptions routerOptions : JSValue) : JSValue :=
  .object [("type", .string "browse"), ("resource", .string "posts"),
    ("controller", .string "posts"),
    ("options", .object (primaryOptions (orEmptyObject pathOptions)
      (orEmptyObject routerOptions)))]

/-- The slug `fetchData` hands to every query: `pathOptions.slug`. -/
def slugOf (pathOptions : JSValue) : JSValue :=
  (orEmptyObject pathOptions).get "slug"

/-- The queries of a call of `fetchData`, under their keys. -/
def queriesOf (pathOptions routerOptions : JSValue) : List (String × JSValue) :=
  submittedQueries (primaryQuery pathOptions routerOptions) (orEmptyObject routerOptions)

/-- Lines 72-89 run to the end and the walk of `routerOptions.data` stays
inside the embedding:

* `pathOptions` has no own property named `hasOwnProperty` (with one, the call
  on line 83 is a `TypeError`);
* `routerOptions` is not an array (an array inherits a function as `filter`);
* `routerOptions.data` is not a string with a character beyond U+FFFF;
* no entry of `routerOptions.data` is named `__proto__`. -/
def Regular (pathOptions routerOptions : JSValue) : Prop :=
  (∀ p, orEmptyObject pathOptions = .object p → assocGet? "hasOwnProperty" p = none)
  ∧ (∀ xs, orEmptyObject routerOptions ≠ .array xs)
  ∧ (∀ s, (orEmptyObject routerOptions).get "data" = .string s → isBmp s = true)
  ∧ (∀ e ∈ eachEntries ((orEmptyObject routerOptions).get "data"), e.1 ≠ "__proto__")

/-- Lines 72-89 run to the end, with the primary query as their result, and
the entries of `routerOptions.data` are walked. -/
def Builds (pathOptions routerOptions : JSValue) : Prop :=
  buildPostQuery (orEmptyObject pathOptions) (orEmptyObject routerOptions)
      = .ok (primaryQuery pathOptions routerOptions)
    ∧ dataEntries ((orEmptyObject routerOptions).get "data")
      = .ok (eachEntries ((orEmptyObject routerOptions).get "data"))

/-- Every read query of `routerOptions.data` names a `resource` that
`Object.prototype` does not define: the merge step then reads data only (a
name like `constructor` reads a built-in function where the result has no own
property of that name). -/
def PlainResources (routerOptions : JSValue) : Prop :=
  ∀ e ∈ eachEntries ((orEmptyObject routerOptions).get "data"),
    strictEqualsString (e.2.get "type") "browse" = true
      ∨ toStr (e.2.get "resource") ∉ objectPrototypeKeys

/-- Every query of the call returns a promise that is fulfilled. -/
def AllResolve (flag : Bool) (api : Api) (pathOptions routerOptions locals : JSValue) : Prop :=
  ∀ e ∈ queriesOf pathOptions routerOptions,
    ∃ v, (processQuery flag api e.2 (slugOf pathOptions) locals).result = .ok (.fulfilled v)

/-- Every query of the call returns a promise that is fulfilled with an object. -/
def AllResolveToObjects (flag : Bool) (api : Api)
    (pathOptions routerOptions locals : JSValue) : Prop :=
  ∀ e ∈ queriesOf pathOptions routerOptions,
    ∃ o, (processQuery flag api e.2 (slugOf pathOptions) locals).result
      = .ok (.fulfilled (.object o))

/-! ## Fixtures for the concrete runs -/

/-- Request context with an API version and a member. -/
def sampleLocals : JSValue :=
  .object [("apiVersion", .string "v2"), ("member", .object [("id", .string "m1")])]

/-- An API every method of which fulfils with an envelope that records the
method and the options it was called with, next to some payload fields. -/
def echoMethod (controller type : JSValue) : Method := fun options =>
  .returned (.fulfilled (.object
    [("controller", controller), ("type", type), ("options", options),
     ("posts", .array []), ("tags", .string "tag record"),
     ("authors", .string "author list")]))

/-- The API all of whose methods are `echoMethod`. -/
def echoApi : Api := fun _ controller type => some (echoMethod controller type)

/-- An API every method of which fulfils with `null`. -/
def nullApi : Api := fun _ _ _ =>
  some (fun _ => .returned (.fulfilled .null))

/-- An API whose `posts` controller rejects with the error `posts failed`
and whose other controllers fulfil like `echoApi`. -/
def failingPostsApi : Api := fun apiVersion controller type =>
  if strictEqualsString controller "posts" then
    some (fun _ => .returned (.rejected 0 (.raised (.string "posts failed"))))
  else echoApi apiVersion controller type

/-- Path options of a taxonomy route for the slug `tech`. -/
def techPath : JSValue := .object [("slug", .string "tech")]

/-- Path options whose slug is the replacement pattern `$&`. -/
def dollarPath : JSValue := .object [("slug", .string "$&")]

/-- The descriptor `{type: 'read', resource: 'tags', controller: 'tags', options: {slug: '%s'}}`. -/
def tagQuery : JSValue :=
  .object [("type", .string "read"), ("resource", .string "tags"),
    ("controller", .string "tags"), ("options", .object [("slug", .string "%s")])]

/-- The descriptor `{type: 'browse', resource: 'authors', controller: 'users'}`. -/
def authorsQuery : JSValue :=
  .object [("type", .string "browse"), ("resource", .string "authors"),
    ("controller", .string "users")]

/-- The descriptor `{resource: 'authors', controller: 'users'}`, which leaves out the type. -/
def authorsQueryNoType : JSValue :=
  .object [("resource", .string "authors"), ("controller", .string "users")]

/-- Router options `{data: {tag: tagQuery, authors: authorsQuery}}`. -/
def taxonomyRouter : JSValue :=
  .object [("data", .object [("tag", tagQuery), ("authors", authorsQuery)])]

/-- Router options whose data map uses the name `posts`:
`{data: {posts: {type: 'read', resource: 'tags', controller: 'tags'}}}`. -/
def postsNamedRouter : JSValue :=
  .object [("data", .object [("posts",
    .object [("type", .string "read"), ("resource", .string "tags"),
      ("controller", .string "tags")])])]

/-- Whether the text contains the placeholder `%s`. -/
def containsPlaceholder : List Char → Bool
  | [] => false
  | [_] => false
  | c :: d :: rest => (decide (c = '%' ∧ d = 's')) || containsPlaceholder (d :: rest)

/-- An API that has the controller `posts` only: every other lookup ends in `undefined`. -/
def postsOnlyApi : Api := fun apiVersion controller type =>
  if strictEqualsString controller "posts" then echoApi apiVersion controller type else none

/-! ## The store: the module run on objects with identity

The definitions above treat JavaScript values as immutable data.  To state
what a call does to objects that exist before it, the module is run a second
time on a store: a value is a primitive or a reference to a cell of the store,
reading a property looks the cell up, an assignment replaces the cell, and
`_.cloneDeep`, an object literal and a result of the API allocate new cells.
An API method is given the options as data and returns data; it does not
modify the store. -/

/-- A value as a variable holds it: a primitive, or a reference to an object of the store. -/
inductive SValue where
  | undefined
  | null
  | bool (b : Bool)
  | number (n : Int)
  | string (s : String)
  | ref (address : Nat)
  deriving DecidableEq, Inhabited, Repr

/-- An object of the store: a plain object or an array. -/
inductive Cell where
  | object (props : List (String × SValue))
  | array (elems : List SValue)
  deriving DecidableEq, Inhabited, Repr

/-- The store: the objects allocated so far; the address of an object is its position. -/
abbrev Store := List Cell

/-- Allocation of a new object. -/
def allocCell (σ : Store) (c : Cell) : Store × SValue :=
  (σ ++ [c], .ref σ.length)

/-- ToBoolean on store values: a reference is an object, hence truthy. -/
def sToBoolean : SValue → Bool
  | .undefined => false
  | .null => false
  | .bool b => b
  | .number n => decide (n ≠ 0)
  | .string s => decide (s ≠ "")
  | .ref _ => true

/-- Property read `v[k]` on a value that is neither `undefined` nor `null`. -/
def sLookup (σ : Store) (v : SValue) (k : String) : SValue :=
  match v with
  | .ref a =>
    match σ[a]? with
    | some (.object props) => (assocGet? k props).getD .undefined
    | some (.array xs) =>
      if k = "length" then .number xs.length
      else match indexOfKey k xs.length with
        | some i => xs.getD i .undefined
        | none => .undefined
    | none => .undefined
  | .string s =>
    if k = "length" then .number (jsLength s)
    else match indexOfKey k (jsLength s) with
      | some i =>
        match unitAt s.data i with
        | some c => .string (String.mk [c])
        | none => .undefined
      | none => .undefined
  | _ => .undefined

/-- Property read `v[k]`, with the `TypeError` on `undefined` and `null`. -/
def sRead (σ : Store) (v : SValue) (k : String) : Except Abort SValue :=
  match v with
  | .undefined => .error .typeError
  | .null => .error .typeError
  | w => .ok (sLookup σ w k)

/-- Assignment `v[k] = x`: the cell `v` refers to is replaced; an assignment
to a property of a primitive is ignored. -/
def sWrite (σ : Store) (v : SValue) (k : String) (x : SValue) : Store × Except Abort Unit :=
  match v with
  | .undefined => (σ, .error .typeError)
  | .null => (σ, .error .typeError)
  | .ref a =>
    match σ[a]? with
    | some (.object props) => (σ.set a (.object (assocSet k x props)), .ok ())
    | some (.array xs) =>
      match indexOfKey k xs.length with
      | some i => (σ.set a (.array (xs.set i x)), .ok ())
      | none => (σ, .error .unsupported)
    | none => (σ, .error .unsupported)
  | _ => (σ, .ok ())

/-- The built-in `Object.prototype.hasOwnProperty` applied to a value that is
neither `undefined` nor `null`. -/
def sHasOwnProperty (σ : Store) (v : SValue) (k : String) : Bool :=
  match v with
  | .ref a =>
    match σ[a]? with
    | some (.object props) => (assocGet? k props).isSome
    | some (.array xs) => decide (k = "length") || (indexOfKey k xs.length).isSome
    | none => false
  | .string s => decide (k = "length") || (indexOfKey k (jsLength s)).isSome
  | _ => false

/-- The call `v.hasOwnProperty(k)` of lines 83 and 87 on the store: an own
property named `hasOwnProperty` shadows the built-in method and the call is a
`TypeError`. -/
def sCallHasOwnProperty (σ : Store) (v : SValue) (k : String) : Except Abort Bool :=
  match v with
  | .undefined => .error .typeError
  | .null => .error .typeError
  | .ref a =>
    match σ[a]? with
    | some (.object props) =>
      if (assocGet? "hasOwnProperty" props).isSome then .error .typeError
      else .ok (sHasOwnProperty σ (.ref a) k)
    | _ => .ok (sHasOwnProperty σ (.ref a) k)
  | w => .ok (sHasOwnProperty σ w k)

/-- The read `routerOptions.filter` of lines 75 and 76 on the store: an array
inherits a function, which the embedding cannot hold. -/
def sReadFilter (σ : Store) (routerOptions : SValue) : Except Abort SValue :=
  match routerOptions with
  | .ref a =>
    match σ[a]? with
    | some (.array _) => .error .unsupported
    | _ => .ok (sLookup σ (.ref a) "filter")
  | w => .ok (sLookup σ w "filter")

/-- The `isLength` test of lodash on a store value. -/
def sArrayLikeLength : SValue → Option Nat
  | .number n => if 0 ≤ n ∧ n ≤ 9007199254740991 then some n.toNat else none
  | _ => none

/-- The keys `_.each` visits, fixed when the walk starts: indices for arrays,
strings and objects with a numeric `length`, own keys for other objects. -/
def sEachKeys (σ : Store) (v : SValue) : List String :=
  match v with
  | .ref a =>
    match σ[a]? with
    | some (.object props) =>
      match sArrayLikeLength ((assocGet? "length" props).getD .undefined) with
      | some n => (List.range n).map (fun i => toString i)
      | none => assocKeys props
    | some (.array xs) => (List.range xs.length).map (fun i => toString i)
    | none => []
  | .string s => (List.range (jsLength s)).map (fun i => toString i)
  | _ => []

/-- The data a store value stands for, read off the store; `fuel` bounds the depth. -/
def reify : (fuel : Nat) → Store → SValue → JSValue
  | 0, _, v =>
    match v with
    | .undefined => .undefined
    | .null => .null
    | .bool b => .bool b
    | .number n => .number n
    | .string s => .string s
    | .ref _ => .undefined
  | fuel + 1, σ, v =>
    match v with
    | .undefined => .undefined
    | .null => .null
    | .bool b => .bool b
    | .number n => .number n
    | .string s => .string s
    | .ref a =>
      match σ[a]? with
      | some (.object props) => .object (props.map (fun e => (e.1, reify fuel σ e.2)))
      | some (.array xs) => .array (xs.map (fun x => reify fuel σ x))
      | none => .undefined

/-- The data a store value stands for; the size of the store bounds the depth of acyclic data. -/
def reifyValue (σ : Store) (v : SValue) : JSValue :=
  reify σ.length σ v

/-- Copies of the values of a list, one after the other. -/
def cloneList (clone : Store → SValue → Option (Store × SValue)) :
    Store → List SValue → Option (Store × List SValue)
  | σ, [] => some (σ, [])
  | σ, x :: xs =>
    match clone σ x with
    | none => none
    | some (σ₁, x') =>
      match cloneList clone σ₁ xs with
      | none => none
      | some (σ₂, xs') => some (σ₂, x' :: xs')

/-- The function `_.cloneDeep` on the store: a primitive is itself; an
object is copied into a new cell whose properties hold copies of the
properties.  `none` when `fuel` runs out (data deeper than `fuel`, or cyclic)
or a reference dangles. -/
def sCloneDeep : (fuel : Nat) → Store → SValue → Option (Store × SValue)
  | 0, σ, v =>
    match v with
    | .ref _ => none
    | w => some (σ, w)
  | fuel + 1, σ, v =>
    match v with
    | .ref a =>
      match σ[a]? with
      | some (.object props) =>
        match cloneList (sCloneDeep fuel) σ (props.map Prod.snd) with
        | some (σ', vals) => some (σ' ++ [.object ((props.map Prod.fst).zip vals)], .ref σ'.length)
        | none => none
      | some (.array xs) =>
        match cloneList (sCloneDeep fuel) σ xs with
        | some (σ', vals) => some (σ' ++ [.array vals], .ref σ'.length)
        | none => none
      | none => none
    | w => some (σ, w)

/-- The statement `x = _.cloneDeep(v)`; the size of the store bounds the depth of acyclic data. -/
def sClone (σ : Store) (v : SValue) : Store × Except Abort SValue :=
  match sCloneDeep σ.length σ v with
  | some (σ', copy) => (σ', .ok copy)
  | none => (σ, .error .unsupported)

mutual
/-- A value returned by the API enters the store as new cells. -/
def importValue : Store → JSValue → Store × SValue
  | σ, .undefined => (σ, .undefined)
  | σ, .null => (σ, .null)
  | σ, .bool b => (σ, .bool b)
  | σ, .number n => (σ, .number n)
  | σ, .string s => (σ, .string s)
  | σ, .array xs =>
    match importList σ xs with
    | (σ', vals) => (σ' ++ [.array vals], .ref σ'.length)
  | σ, .object props =>
    match importProps σ props with
    | (σ', ps) => (σ' ++ [.object ps], .ref σ'.length)
/-- The elements of an array enter the store. -/
def importList : Store → List JSValue → Store × List SValue
  | σ, [] => (σ, [])
  | σ, x :: xs =>
    match importValue σ x with
    | (σ₁, x') =>
      match importList σ₁ xs with
      | (σ₂, xs') => (σ₂, x' :: xs')
/-- The properties of an object enter the store. -/
def importProps : Store → List (String × JSValue) → Store × List (String × SValue)
  | σ, [] => (σ, [])
  | σ, e :: rest =>
    match importEntry σ e with
    | (σ₁, e') =>
      match importProps σ₁ rest with
      | (σ₂, rest') => (σ₂, e' :: rest')
/-- One property enters the store. -/
def importEntry : Store → String × JSValue → Store × (String × SValue)
  | σ, (k, v) =>
    match importValue σ v with
    | (σ', v') => (σ', (k, v'))
end

/-- A loop over keys whose body may throw: the exception ends the loop. -/
def forEachKey (step : Store → String → Store × Except Abort Unit) :
    Store → List String → Store × Except Abort Unit
  | σ, [] => (σ, .ok ())
  | σ, k :: ks =>
    match step σ k with
    | (σ', .ok _) => forEachKey step σ' ks
    | (σ', .error e) => (σ', .error e)

/-- The own keys of a source of defaults: property names of an object, indices of an array. -/
def sOwnKeys (σ : Store) (a : Nat) : List String :=
  match σ[a]? with
  | some (.object props) => assocKeys props
  | some (.array xs) => (List.range xs.length).map (fun i => toString i)
  | none => []

/-- One step of `_.defaultsDeep(object, source)` on the store, for the key
`key` of the source: the cases are those of `mergeValue`; a source object
assigned to an `undefined` property is copied first, and nothing is done when
the property and the source value are the same object.  `merge` is the
recursive call. -/
def sMergeStep (merge : Store → Nat → Nat → Store × Except Abort Unit)
    (object source : Nat) (σ : Store) (key : String) : Store × Except Abort Unit :=
  match sLookup σ (.ref source) key with
  | .ref s =>
    match sLookup σ (.ref object) key with
    | .undefined =>
      match sClone σ (.ref s) with
      | (σ', .ok copy) => sWrite σ' (.ref object) key copy
      | (σ', .error e) => (σ', .error e)
    | .ref o =>
      if o = s then (σ, .ok ())
      else
        match σ[s]?, σ[o]? with
        | some (.object _), some (.object _) => merge σ o s
        | some (.object []), some (.array _) => (σ, .ok ())
        | some (.array []), some _ => (σ, .ok ())
        | _, _ => (σ, .error .unsupported)
    | _ => (σ, .ok ())
  | .undefined =>
    if sHasOwnProperty σ (.ref object) key then (σ, .ok ())
    else sWrite σ (.ref object) key .undefined
  | srcValue =>
    match sLookup σ (.ref object) key with
    | .undefined => sWrite σ (.ref object) key srcValue
    | _ => (σ, .ok ())

/-- The effect of `_.defaultsDeep(object, source)` on the store, for two
objects; `fuel` bounds the depth of the source. -/
def sMergeDefaults : (fuel : Nat) → Store → Nat → Nat → Store × Except Abort Unit
  | 0, σ, _, _ => (σ, .error .unsupported)
  | fuel + 1, σ, object, source =>
    forEachKey (sMergeStep (sMergeDefaults fuel) object source) σ (sOwnKeys σ source)

/-- The statement `_.defaultsDeep(object, source)`: for a primitive,
`undefined` or `null` the defaults go to a temporary wrapper; defaults for an
array are not covered. -/
def sDefaultsDeep (σ : Store) (object source : SValue) : Store × Except Abort Unit :=
  match object, source with
  | .ref o, .ref s =>
    if o = s then (σ, .ok ())
    else
      match σ[o]? with
      | some (.object _) => sMergeDefaults σ.length σ o s
      | some (.array _) =>
        match sOwnKeys σ s with
        | [] => (σ, .ok ())
        | _ :: _ => (σ, .error .unsupported)
      | none => (σ, .error .unsupported)
  | _, _ => (σ, .ok ())

/-- The addresses of the module-level constants. -/
structure Module where
  queryDefaults : Nat
  defaultPostQuery : Nat

/-- The store after the module is loaded (lines 10-31): `queryDefaults` and
its `options`, `defaultQueryOptions` and its `options`, the copy of
`queryDefaults.options` made by `_.cloneDeep` on line 30, and
`defaultPostQuery`, whose `options` are the object of
`defaultQueryOptions.options` itself (line 31). -/
def moduleStore : Store :=
  [ .object [],
    .object [("type", .string "browse"), ("resource", .string "posts"),
      ("controller", .string "posts"), ("options", .ref 0)],
    .object [("include", .string "author,authors,tags"), ("formats", .string "html")],
    .object [("options", .ref 2)],
    .object [],
    .object [("type", .string "browse"), ("resource", .string "posts"),
      ("controller", .string "posts"), ("options", .ref 2)] ]

/-- Where the constants of the module are in `moduleStore`. -/
def moduleRefs : Module :=
  { queryDefaults := 1, defaultPostQuery := 5 }

/-- The iteratee of line 52 on a store value. -/
def sSubstituteSlug (slugParam : JSValue) (option : SValue) : SValue :=
  match option with
  | .string s => .string (replaceSlug s slugParam)
  | v => v

/-- The loop of lines 51-53 on the store: `query.options[name]` is assigned
the substituted value of the entry, for every key of the walk. -/
def sReplaceSlugs (σ : Store) (slugParam options : SValue) : Store × Except Abort Unit :=
  forEachKey
    (fun σ name =>
      sWrite σ options name (sSubstituteSlug (reifyValue σ slugParam) (sLookup σ options name)))
    σ (sEachKeys σ options)

/-- Lines 44-57 of `processQuery` on the store. The call is described by the
data its parts stand for when line 59 is reached. -/
def sBuildCall (enableDeveloperExperiments : Bool) (mod : Module) (σ : Store)
    (query slugParam locals : SValue) : Store × Except Abort Call :=
  match sRead σ locals "apiVersion" with
  | .error e => (σ, .error e)
  | .ok apiVersion =>
    match sClone σ query with
    | (σ₁, .error e) => (σ₁, .error e)
    | (σ₁, .ok query) =>
      match sDefaultsDeep σ₁ query (.ref mod.queryDefaults) with
      | (σ₂, .error e) => (σ₂, .error e)
      | (σ₂, .ok _) =>
        match sRead σ₂ query "options" with
        | .error e => (σ₂, .error e)
        | .ok options =>
          match sReplaceSlugs σ₂ slugParam options with
          | (σ₃, .error e) => (σ₃, .error e)
          | (σ₃, .ok _) =>
            let withContext : Store × Except Abort Unit :=
              if enableDeveloperExperiments then
                match allocCell σ₃ (.object [("member", sLookup σ₃ locals "member")]) with
                | (σ₄, context) => sWrite σ₄ options "context" context
              else (σ₃, .ok ())
            match withContext with
            | (σ₅, .error e) => (σ₅, .error e)
            | (σ₅, .ok _) =>
              (σ₅, .ok
                { apiVersion := reifyValue σ₅ apiVersion
                  controller := reifyValue σ₅ (sLookup σ₅ query "controller")
                  type := reifyValue σ₅ (sLookup σ₅ query "type")
                  options := reifyValue σ₅ (sLookup σ₅ query "options") })

/-- The function `processQuery` (lines 43-60) on the store. -/
def sProcessQuery (enableDeveloperExperiments : Bool) (api : Api) (mod : Module) (σ : Store)
    (query slugParam locals : SValue) : Store × Dispatch :=
  match sBuildCall enableDeveloperExperiments mod σ query slugParam locals with
  | (σ', .error e) => (σ', { call := none, result := .error e })
  | (σ', .ok call) =>
    match api call.apiVersion call.controller call.type with
    | none => (σ', { call := none, result := .error .typeError })
    | some method =>
      (σ', { call := some call
             result :=
               match method call.options with
               | .threw e => .error (.raised e)
               | .returned promise => .ok promise })

/-- The assignment `postQuery.options[name] = value` on the store. -/
def sSetOption (σ : Store) (postQuery : SValue) (name : String) (value : SValue) :
    Store × Except Abort Unit :=
  match sRead σ postQuery "options" with
  | .error e => (σ, .error e)
  | .ok options => sWrite σ options name value

/-- An assignment made under a condition. -/
def sSetOptionIf (condition : Bool) (σ : Store) (postQuery : SValue) (name : String)
    (value : SValue) : Store × Except Abort Unit :=
  if condition then sSetOption σ postQuery name value else (σ, .ok ())

/-- The expression `value || {}` on the store: the literal is a new object. -/
def sOrEmptyObject (σ : Store) (value : SValue) : Store × SValue :=
  if sToBoolean value then (σ, value) else allocCell σ (.object [])

/-- An assignment made under a condition whose evaluation can throw. -/
def sSetOptionWhen (condition : Except Abort Bool) (σ : Store) (postQuery : SValue)
    (name : String) (value : SValue) : Store × Except Abort Unit :=
  match condition with
  | .error e => (σ, .error e)
  | .ok c => sSetOptionIf c σ postQuery name value

/-- Lines 72-89 of `fetchData` on the store. -/
def sBuildPostQuery (mod : Module) (σ : Store) (pathOptions routerOptions : SValue) :
    Store × Except Abort SValue :=
  match sClone σ (.ref mod.defaultPostQuery) with
  | (σ₁, .error e) => (σ₁, .error e)
  | (σ₁, .ok postQuery) =>
    match sSetOptionWhen ((sReadFilter σ₁ routerOptions).map sToBoolean) σ₁ postQuery "filter"
        (sLookup σ₁ routerOptions "filter") with
    | (σ₂, .error e) => (σ₂, .error e)
    | (σ₂, .ok _) =>
      match sSetOptionIf (sToBoolean (sLookup σ₂ routerOptions "order")) σ₂ postQuery "order"
          (sLookup σ₂ routerOptions "order") with
      | (σ₃, .error e) => (σ₃, .error e)
      | (σ₃, .ok _) =>
        match sSetOptionWhen (sCallHasOwnProperty σ₃ pathOptions "page") σ₃ postQuery "page"
            (sLookup σ₃ pathOptions "page") with
        | (σ₄, .error e) => (σ₄, .error e)
        | (σ₄, .ok _) =>
          match sSetOptionWhen (sCallHasOwnProperty σ₄ pathOptions "limit") σ₄ postQuery "limit"
              (sLookup σ₄ pathOptions "limit") with
          | (σ₅, .error e) => (σ₅, .error e)
          | (σ₅, .ok _) => (σ₅, .ok postQuery)

/-- Whether `_.each` hands the iteratee values of the embedding only: not so
for a string with a character beyond U+FFFF, which is walked by the halves of
its surrogate pairs. -/
def sWalkable : SValue → Bool
  | .string s => isBmp s
  | _ => true

/-- The loop of lines 96-98 on the store: for every key of the walk of
`routerOptions.data`, the descriptor is read and handed to `processQuery`.
As in `dispatchAll`, the assignment `props['__proto__'] = promise` creates no
property, the loop goes on, and the evaluation stops with `Abort.unsupported`
when the loop ends without an exception. -/
def sDispatchAll (enableDeveloperExperiments : Bool) (api : Api) (mod : Module)
    (data pathOptions locals : SValue) :
    Store → List String → List Call → List (String × Promise) →
      Store × List Call × Except Abort (List (String × Promise))
  | σ, [], calls, props => (σ, calls, .ok props)
  | σ, name :: rest, calls, props =>
    match sProcessQuery enableDeveloperExperiments api mod σ (sLookup σ data name)
        (sLookup σ pathOptions "slug") locals with
    | (σ', d) =>
      match d.result with
      | .error e => (σ', calls ++ d.call.toList, .error e)
      | .ok promise =>
        if name = "__proto__" then
          match sDispatchAll enableDeveloperExperiments api mod data pathOptions locals σ' rest
              (calls ++ d.call.toList) props with
          | (σ'', calls', .error e) => (σ'', calls', .error e)
          | (σ'', calls', .ok _) => (σ'', calls', .error .unsupported)
        else
          sDispatchAll enableDeveloperExperiments api mod data pathOptions locals σ' rest
            (calls ++ d.call.toList) (assocSet name promise props)

/-- Lines 108-112 on the store for the key `__proto__`, as in `formatProto`:
nothing is stored when `results` and `response.data` are objects without an
own property `__proto__` and the entry is a browse or names a `resource` that
`Object.prototype` does not define. -/
def sFormatProto (σ : Store) (results : JSValue) (target : SValue) (browse : Bool)
    (resource : String) : Except Abort Unit :=
  match results, target with
  | .object rp, .ref a =>
    match σ[a]? with
    | some (.object dp) =>
      if (assocGet? "__proto__" rp).isSome || (assocGet? "__proto__" dp).isSome then
        .error .unsupported
      else if browse then .ok ()
      else if resource ∈ objectPrototypeKeys then .error .unsupported
      else .ok ()
    | _ => .error .unsupported
  | _, _ => .error .unsupported

/-- The body of the loop of lines 107-113 on the store, for the key `name`:
`response.data[name]` is assigned the result of the query, or its field named
by `config.resource`.  The results are the data the API returned; what is
stored enters the store as new cells. -/
def sFormatEntry (results : JSValue) (data response : SValue) (σ : Store) (name : String) :
    Store × Except Abort Unit :=
  match sRead σ response "data" with
  | .error e => (σ, .error e)
  | .ok target =>
    match sRead σ (sLookup σ data name) "type" with
    | .error e => (σ, .error e)
    | .ok configType =>
      if name = "__proto__" then
        (σ, sFormatProto σ results target (decide (configType = .string "browse"))
          (toStr (reifyValue σ (sLookup σ (sLookup σ data name) "resource"))))
      else
        let value : Except Abort JSValue :=
          match readKey results name with
          | .error e => .error e
          | .ok result =>
            if decide (configType = .string "browse") then .ok result
            else readKey result
              (toStr (reifyValue σ (sLookup σ (sLookup σ data name) "resource")))
        match value with
        | .error e => (σ, .error e)
        | .ok v =>
          match importValue σ v with
          | (σ', stored) => sWrite σ' target name stored

/-- The function `formatResponse` (lines 101-117) on the store: the response
is a copy of `results.posts`, a new object. -/
def sFormatResponse (σ : Store) (routerOptions : SValue) (results : JSValue) :
    Store × Except Abort SValue :=
  match getProp results "posts" with
  | .error e => (σ, .error e)
  | .ok posts =>
    match importValue σ (cloneDeep posts) with
    | (σ₁, response) =>
      if sToBoolean (sLookup σ₁ routerOptions "data") then
        match allocCell σ₁ (.object []) with
        | (σ₂, fresh) =>
          match sWrite σ₂ response "data" fresh with
          | (σ₃, .error e) => (σ₃, .error e)
          | (σ₃, .ok _) =>
            if sWalkable (sLookup σ₃ routerOptions "data") then
              match forEachKey (sFormatEntry results (sLookup σ₃ routerOptions "data") response)
                  σ₃ (sEachKeys σ₃ (sLookup σ₃ routerOptions "data")) with
              | (σ₄, .error e) => (σ₄, .error e)
              | (σ₄, .ok _) => (σ₄, .ok response)
            else (σ₃, .error .unsupported)
      else (σ₁, .ok response)

/-- How the promise returned by `fetchData` settles, the response being a value of the store. -/
inductive SSettlement where
  | fulfilled (response : SValue)
  | rejected (reason : Abort)
  | pending
  deriving Inhabited, Repr

/-- What one run of `fetchData` on the store does. -/
structure SFetchRun where
  calls : List Call
  result : Except Abort SSettlement

/-- The continuation `.then(formatResponse)` on the store. -/
def sThenFormat (σ : Store) (routerOptions : SValue) : Settlement → Store × SSettlement
  | .fulfilled results =>
    match sFormatResponse σ routerOptions results with
    | (σ', .ok response) => (σ', .fulfilled response)
    | (σ', .error e) => (σ', .rejected e)
  | .rejected reason => (σ, .rejected reason)
  | .pending => (σ, .pending)

/-- The function `fetchData` (lines 68-118) on the store. -/
def sFetchData (enableDeveloperExperiments : Bool) (api : Api) (mod : Module) (σ : Store)
    (pathOptions routerOptions locals : SValue) : Store × SFetchRun :=
  match sOrEmptyObject σ pathOptions with
  | (σ₁, pathOptions) =>
    match sOrEmptyObject σ₁ routerOptions with
    | (σ₂, routerOptions) =>
      match sBuildPostQuery mod σ₂ pathOptions routerOptions with
      | (σ₃, .error e) => (σ₃, { calls := [], result := .error e })
      | (σ₃, .ok postQuery) =>
        if sWalkable (sLookup σ₃ routerOptions "data") then
          match sProcessQuery enableDeveloperExperiments api mod σ₃ postQuery
              (sLookup σ₃ pathOptions "slug") locals with
          | (σ₄, d) =>
            match d.result with
            | .error e => (σ₄, { calls := d.call.toList, result := .error e })
            | .ok promise =>
              match sDispatchAll enableDeveloperExperiments api mod
                  (sLookup σ₄ routerOptions "data") pathOptions locals σ₄
                  (sEachKeys σ₄ (sLookup σ₄ routerOptions "data")) d.call.toList
                  [("posts", promise)] with
              | (σ₅, calls, .error e) => (σ₅, { calls := calls, result := .error e })
              | (σ₅, calls, .ok props) =>
                match sThenFormat σ₅ routerOptions (promiseProps props) with
                | (σ₆, settlement) => (σ₆, { calls := calls, result := .ok settlement })
        else
          match sProcessQuery enableDeveloperExperiments api mod σ₃ postQuery
              (sLookup σ₃ pathOptions "slug") locals with
          | (σ₄, d) =>
            match d.result with
            | .error e => (σ₄, { calls := d.call.toList, result := .error e })
            | .ok _ => (σ₄, { calls := d.call.toList, result := .error .unsupported })

/-- The cells below `n` are the same in `σ'` as in `σ`, and no cell was dropped. -/
def Keeps (n : Nat) (σ σ' : Store) : Prop :=
  σ.length ≤ σ'.length ∧ ∀ a, a < n → σ'[a]? = σ[a]?

/-- A value that is not a reference to a cell below `n`. -/
def ValFresh (n : Nat) (v : SValue) : Prop :=
  ∀ a, v = .ref a → n ≤ a

/-- The values a cell holds. -/
def cellValues : Cell → List SValue
  | .object props => props.map Prod.snd
  | .array xs => xs

/-- A cell that holds no reference to a cell below `n`. -/
def CellFresh (n : Nat) (c : Cell) : Prop :=
  ∀ v ∈ cellValues c, ValFresh n v

/-- From `n` on, the cells refer to cells from `n` on only. -/
def Closed (n : Nat) (σ : Store) : Prop :=
  ∀ a c, n ≤ a → σ[a]? = some c → CellFresh n c

/-- What a copy or an imported value is: the store grows by cells that refer
to new cells only, and the value refers to a new cell or is a primitive. -/
def Grows (σ σ' : Store) (v' : SValue) : Prop :=
  ∃ extra, σ' = σ ++ extra ∧ (∀ c ∈ extra, CellFresh σ.length c)
    ∧ ValFresh σ.length v' ∧ (∀ a, v' = .ref a → a < σ'.length)


/-- The object `{include: 'author,authors,tags', formats: 'html'}` (lines 22-25). -/
def defaultOptionsCell : Cell :=
  .object [("include", .string "author,authors,tags"), ("formats", .string "html")]

/-- A post query object whose `options` are the object at the address `options`. -/
def postQueryCell (options : Nat) : Cell :=
  .object [("type", .string "browse"), ("resource", .string "posts"),
    ("controller", .string "posts"), ("options", .ref options)]

/-- The constants of the module are in the store as they were when the module was loaded. -/
def ModuleIntact (σ : Store) : Prop :=
  ∀ a, a < moduleStore.length → σ[a]? = moduleStore[a]?

/-- An empty argument of `fetchData`: `undefined`, or an object without properties. -/
def EmptyArg (σ : Store) (v : SValue) : Prop :=
  v = .undefined ∨ ∃ a, v = .ref a ∧ σ[a]? = some (.object [])

/-- An earlier call of `fetchData`: the objects the caller has created for
it, the setting of the flag, the API, and the arguments. -/
structure Request where
  allocated : List Cell
  enableDeveloperExperiments : Bool
  api : Api
  pathOptions : SValue
  routerOptions : SValue
  locals : SValue

/-- The store after a request is served. -/
def serve (σ : Store) (r : Request) : Store :=
  (sFetchData r.enableDeveloperExperiments r.api moduleRefs (σ ++ r.allocated)
    r.pathOptions r.routerOptions r.locals).1

/-- The store after a sequence of requests, served one after the other. -/
def serveAll (σ : Store) (rs : List Request) : Store :=
  rs.foldl serve σ

/-- The cells below `n` refer to cells below `n` only: what a value that
refers to a cell below `n` stands for is decided by the cells below `n`. -/
def DownClosed (n : Nat) (σ : Store) : Prop :=
  ∀ a c, a < n → σ[a]? = some c → ∀ v ∈ cellValues c, ∀ b, v = .ref b → b < n

/-- A value of the store `σ`: a primitive, or a reference to one of its first `n` cells. -/
def Below (n : Nat) (v : SValue) : Prop :=
  ∀ b, v = .ref b → b < n

/-- Objects of a caller, at the addresses 6 to 9 when they are created right
after the module is loaded: `locals`, the member, a `pathOptions` and a
`routerOptions`. -/
def callerCells : List Cell :=
  [ .object [("apiVersion", .string "v2"), ("member", .ref 7)],
    .object [("id", .string "m1")],
    .object [("slug", .string "tech"), ("page", .number 2), ("limit", .number 5)],
    .object [("filter", .string "tag:%s"), ("order", .string "published_at desc")] ]

/-- A request with a filter, an order, a page and a limit, made with the objects of `callerCells`. -/
def taxonomyRequest : Request :=
  { allocated := callerCells
    enableDeveloperExperiments := true
    api := echoApi
    pathOptions := .ref 8
    routerOptions := .ref 9
    locals := .ref 6 }
/-! ## Association lists: basic facts -/

theorem assocGet?_assocSet {α : Type} (j k : String) (v : α) (p : List (String × α)) :
    assocGet? j (assocSet k v p) = if j = k then some v else assocGet? j p := by
  induction p with
  | nil =>
    by_cases h : j = k
    · simp [assocSet, assocGet?, h]
    · have h' : ¬ k = j := fun e => h e.symm
      simp [assocSet, assocGet?, h, h']
  | cons e rest ih =>
    obtain ⟨k', v'⟩ := e
    by_cases hk : k' = k
    · by_cases hj : j = k
      · simp [assocSet, assocGet?, hk, hj]
      · have h' : ¬ k = j := fun e => hj e.symm
        simp [assocSet, assocGet?, hk, hj, h']
    · by_cases hj : j = k
      · subst hj
        simp [assocSet, assocGet?, hk, ih]
      · by_cases hkj : k' = j
        · simp [assocSet, assocGet?, hk, hj, hkj]
        · simp [assocSet, assocGet?, hk, hj, hkj, ih]

theorem propGet_assocSet (j k : String) (v : JSValue) (p : Props) :
    propGet (assocSet k v p) j = if j = k then v else propGet p j := by
  unfold propGet
  rw [assocGet?_assocSet]
  split <;> rfl

theorem mem_assocKeys {α : Type} (k : String) (p : List (String × α)) :
    k ∈ assocKeys p ↔ (assocGet? k p).isSome = true := by
  induction p with
  | nil => simp [assocKeys, assocGet?]
  | cons e rest ih =>
    obtain ⟨k', v'⟩ := e
    by_cases h : k' = k
    · simp [assocKeys, assocGet?, h]
    · have h' : ¬ k = k' := fun e => h e.symm
      simp [assocKeys, assocGet?, h, h', ih]

theorem assocKeys_nodup {α : Type} (p : List (String × α)) : (assocKeys p).Nodup := by
  induction p with
  | nil => simp [assocKeys]
  | cons e rest ih =>
    obtain ⟨k', v'⟩ := e
    simp only [assocKeys, List.nodup_cons]
    refine ⟨?_, ih.filter _⟩
    simp

/-! ## The replacement: facts -/

theorem getSubstitution_no_dollar (matched before after : List Char) (r : List Char)
    (h : '$' ∉ r) : getSubstitution matched before after r = r := by
  induction r with
  | nil => simp [getSubstitution]
  | cons c rest ih =>
    have hc : ¬ c = '$' := fun e => h (by simp [e])
    have hr : '$' ∉ rest := fun e => h (by simp [e])
    cases rest with
    | nil => simp [getSubstitution]
    | cons d rest' => simp [getSubstitution, hc, ih hr]

theorem replaceScan_no_dollar (slug : List Char) (h : '$' ∉ slug) :
    ∀ (n : Nat) (s before : List Char), s.length ≤ n →
      replaceScan slug before s = joinWithSlug slug s := by
  intro n
  induction n with
  | zero =>
    intro s before hs
    have : s = [] := List.length_eq_zero.mp (Nat.le_zero.mp hs)
    subst this
    simp [replaceScan, joinWithSlug]
  | succ n ih =>
    intro s before hs
    match s, hs with
    | [], _ => simp [replaceScan, joinWithSlug]
    | [c], _ => simp [replaceScan, joinWithSlug]
    | c :: d :: after, hs =>
      simp only [List.length_cons] at hs
      by_cases hm : c = '%' ∧ d = 's'
      · simp only [replaceScan, joinWithSlug, hm, and_self, if_true]
        rw [getSubstitution_no_dollar _ _ _ _ h, ih after _ (by omega)]
      · simp only [replaceScan, joinWithSlug, hm, if_false]
        rw [ih (d :: after) _ (by simp only [List.length_cons]; omega)]

/-- With a slug free of dollar signs the code computes the documented text. -/
theorem substituteSlug_no_dollar (slug : String) (h : '$' ∉ slug.data) (option : JSValue) :
    substituteSlug (.string slug) option = substituteDocumented slug option := by
  cases option with
  | string s =>
    simp only [substituteSlug, substituteDocumented, replaceSlug, toStr]
    rw [replaceScan_no_dollar slug.data h s.data.length s.data [] (le_refl _)]
  | _ => rfl

theorem assocSet_of_get {α : Type} (k : String) (v : α) (p : List (String × α))
    (h : assocGet? k p = some v) : assocSet k v p = p := by
  induction p with
  | nil => simp [assocGet?] at h
  | cons e rest ih =>
    obtain ⟨k', v'⟩ := e
    by_cases hk : k' = k
    · simp [assocGet?, hk] at h
      simp [assocSet, hk, h]
    · simp [assocGet?, hk] at h
      simp [assocSet, hk, ih h]

theorem assocGet?_isSome_assocSet {α : Type} (j k : String) (v : α) (p : List (String × α)) :
    (assocGet? j (assocSet k v p)).isSome = (decide (j = k) || (assocGet? j p).isSome) := by
  rw [assocGet?_assocSet]
  by_cases h : j = k <;> simp [h]

/-! ## The substitution loop -/

theorem foldlM_setProp_object (f : JSValue → JSValue) (es : List (String × JSValue)) (p : Props) :
    es.foldlM (fun opts entry => setProp opts entry.1 (f entry.2)) (JSValue.object p)
      = Except.ok (JSValue.object (es.foldl (fun q entry => assocSet entry.1 (f entry.2) q) p)) := by
  induction es generalizing p with
  | nil => rfl
  | cons e rest ih =>
    simp only [List.foldlM, List.foldl, setProp, bind, Except.bind]
    exact ih _

theorem replaceSlugs_object (slugParam : JSValue) (p : Props) :
    replaceSlugs slugParam (.object p) = .ok (.object (substituteProps slugParam p)) := by
  unfold replaceSlugs substituteProps
  exact foldlM_setProp_object _ _ _

theorem propGet_foldl_assocSet (F : String × JSValue → JSValue) (g : String → JSValue)
    (k : String) :
    ∀ (ks : List String) (q : Props),
      propGet ((ks.map (fun j => (j, g j))).foldl
          (fun q entry => assocSet entry.1 (F entry) q) q) k
        = if k ∈ ks then F (k, g k) else propGet q k := by
  intro ks
  induction ks with
  | nil => intro q; simp
  | cons j rest ih =>
    intro q
    simp only [List.map, List.foldl]
    rw [ih, propGet_assocSet]
    by_cases hk : k ∈ rest
    · simp [hk]
    · by_cases hj : k = j
      · simp [hj]
      · simp [hk, hj]

theorem isSome_foldl_assocSet (F : String × JSValue → JSValue) (g : String → JSValue)
    (k : String) :
    ∀ (ks : List String) (q : Props),
      (assocGet? k ((ks.map (fun j => (j, g j))).foldl
          (fun q entry => assocSet entry.1 (F entry) q) q)).isSome
        = (decide (k ∈ ks) || (assocGet? k q).isSome) := by
  intro ks
  induction ks with
  | nil => intro q; simp
  | cons j rest ih =>
    intro q
    simp only [List.map, List.foldl]
    rw [ih, assocGet?_isSome_assocSet]
    by_cases hk : k ∈ rest <;> by_cases hj : k = j <;> simp [hk, hj]

theorem propGet_of_not_mem (p : Props) (k : String) (h : k ∉ assocKeys p) :
    propGet p k = .undefined := by
  rw [mem_assocKeys] at h
  unfold propGet
  cases hg : assocGet? k p with
  | none => rfl
  | some v => simp [hg] at h

theorem substituteSlug_undefined (slugParam : JSValue) :
    substituteSlug slugParam .undefined = .undefined := rfl

/-- Every property of an object that `_.each` walks by key holds the substituted value afterwards. -/
theorem propGet_substituteProps (slugParam : JSValue) (p : Props) (k : String)
    (h : arrayLikeLength (propGet p "length") = none) :
    propGet (substituteProps slugParam p) k = substituteSlug slugParam (propGet p k) := by
  unfold substituteProps eachEntries propEntries
  simp only [h]
  rw [propGet_foldl_assocSet (fun e => substituteSlug slugParam e.2) (propGet p) k
    (assocKeys p) p]
  by_cases hk : k ∈ assocKeys p
  · simp [hk]
  · simp [hk, propGet_of_not_mem p k hk, substituteSlug_undefined]

/-- The loop adds no key to an object that `_.each` walks by key. -/
theorem isSome_substituteProps (slugParam : JSValue) (p : Props) (k : String)
    (h : arrayLikeLength (propGet p "length") = none) :
    (assocGet? k (substituteProps slugParam p)).isSome = (assocGet? k p).isSome := by
  unfold substituteProps eachEntries propEntries
  simp only [h]
  rw [isSome_foldl_assocSet (fun e => substituteSlug slugParam e.2) (propGet p) k
    (assocKeys p) p]
  by_cases hk : k ∈ assocKeys p
  · have := (mem_assocKeys k p).mp hk
    simp [hk, this]
  · simp [hk]

/-! ## Defaulting against `queryDefaults` -/

theorem propGet_applyDefault (key j : String) (d : JSValue) (p : Props) :
    propGet (applyDefault key d p) j
      = if j = key then orDefault (propGet p key) d else propGet p j := by
  unfold applyDefault
  by_cases hj : j = key
  · subst hj
    cases h : propGet p j <;> simp [orDefault, propGet_assocSet, h]
  · cases h : propGet p key <;> simp [orDefault, propGet_assocSet, h, hj]

theorem mergeEntry_string (p : Props) (key s : String) :
    mergeEntry p (key, .string s) = .ok (applyDefault key (.string s) p) := by
  unfold mergeEntry applyDefault
  cases h : propGet p key <;> simp [mergeValue]

theorem mergeEntry_emptyObject (p : Props) (key : String) :
    mergeEntry p (key, .object []) = .ok (applyDefault key (.object []) p) := by
  unfold mergeEntry applyDefault
  cases h : propGet p key with
  | object op =>
    have hg : assocGet? key p = some (.object op) := by
      unfold propGet at h
      cases hg : assocGet? key p with
      | none => simp [hg] at h
      | some v => simp [hg] at h; simp [h]
    simp [mergeValue, mergeDefaults, assocSet_of_get key _ p hg]
  | _ => simp [mergeValue, mergeDefaults]

/-- Defaulting a descriptor object against `queryDefaults` always succeeds. -/
theorem defaultsDeep_queryDefaults (q : Props) :
    defaultsDeep (.object q) queryDefaults = .ok (.object (withDefaults q)) := by
  simp [defaultsDeep, queryDefaults, mergeDefaults, mergeEntry_string, mergeEntry_emptyObject,
    withDefaults, Except.map]

theorem propGet_withDefaults_type (q : Props) :
    propGet (withDefaults q) "type" = orDefault (propGet q "type") (.string "browse") := by
  simp [withDefaults, propGet_applyDefault]

theorem propGet_withDefaults_resource (q : Props) :
    propGet (withDefaults q) "resource" = orDefault (propGet q "resource") (.string "posts") := by
  simp [withDefaults, propGet_applyDefault]

theorem propGet_withDefaults_controller (q : Props) :
    propGet (withDefaults q) "controller"
      = orDefault (propGet q "controller") (.string "posts") := by
  simp [withDefaults, propGet_applyDefault]

theorem propGet_withDefaults_options (q : Props) :
    propGet (withDefaults q) "options" = orDefault (propGet q "options") (.object []) := by
  simp [withDefaults, propGet_applyDefault]

theorem orDefault_ne_undefined (v d : JSValue) (hd : d ≠ .undefined) :
    orDefault v d ≠ .undefined := by
  cases v <;> simp [orDefault, hd]

/-! ## `processQuery` on a descriptor object -/

/-- The options handed to the API for a descriptor whose defaulted `options` are the object `op`. -/
theorem buildCall_object (flag : Bool) (q l op : Props) (slugParam : JSValue)
    (hop : propGet (withDefaults q) "options" = .object op) :
    buildCall flag (.object q) slugParam (.object l)
      = .ok { apiVersion := propGet l "apiVersion"
              controller := propGet (withDefaults q) "controller"
              type := propGet (withDefaults q) "type"
              options :=
                if flag then
                  .object (assocSet "context" (.object [("member", propGet l "member")])
                    (substituteProps slugParam op))
                else .object (substituteProps slugParam op) } := by
  cases flag <;>
    simp [buildCall, getProp, cloneDeep, defaultsDeep_queryDefaults, JSValue.get, hop,
      replaceSlugs_object, setProp, bind, Except.bind, pure, Except.pure]

theorem processQuery_object (flag : Bool) (api : Api) (q l op : Props) (slugParam : JSValue)
    (m : Method)
    (hop : propGet (withDefaults q) "options" = .object op)
    (hapi : api (propGet l "apiVersion") (propGet (withDefaults q) "controller")
      (propGet (withDefaults q) "type") = some m) :
    (processQuery flag api (.object q) slugParam (.object l)).call
      = some { apiVersion := propGet l "apiVersion"
               controller := propGet (withDefaults q) "controller"
               type := propGet (withDefaults q) "type"
               options :=
                 if flag then
                   .object (assocSet "context" (.object [("member", propGet l "member")])
                     (substituteProps slugParam op))
                 else .object (substituteProps slugParam op) } := by
  unfold processQuery
  rw [buildCall_object flag q l op slugParam hop]
  simp only [hapi]

theorem options_of_withDefaults (q : Props)
    (h : propGet q "options" = .undefined ∨ ∃ op, propGet q "options" = .object op) :
    ∃ op, propGet (withDefaults q) "options" = .object op := by
  rw [propGet_withDefaults_options]
  rcases h with h | ⟨op, h⟩
  · exact ⟨[], by rw [h]; rfl⟩
  · exact ⟨op, by rw [h]; rfl⟩

/-! ## The primary query -/

theorem toBoolean_orEmptyObject (v : JSValue) : toBoolean (orEmptyObject v) = true := by
  unfold orEmptyObject
  by_cases h : toBoolean v = true
  · rw [if_pos h]; exact h
  · rw [if_neg h]; rfl

theorem callHasOwnProperty_of_truthy (v : JSValue) (k : String) (ht : toBoolean v = true)
    (hown : ∀ p, v = .object p → assocGet? "hasOwnProperty" p = none) :
    callHasOwnProperty v k = .ok (hasOwnProperty v k) := by
  cases v with
  | undefined => simp [toBoolean] at ht
  | null => simp [toBoolean] at ht
  | object p => simp [callHasOwnProperty, hown p rfl]
  | _ => rfl

theorem readFilter_of_not_array (v : JSValue) (h : ∀ xs, v ≠ .array xs) :
    readFilter v = .ok (v.get "filter") := by
  cases v with
  | array xs => exact absurd rfl (h xs)
  | _ => rfl

theorem buildPostQuery_eq (pathOptions routerOptions : JSValue)
    (hf : readFilter routerOptions = .ok (routerOptions.get "filter"))
    (hp : ∀ k, callHasOwnProperty pathOptions k = .ok (hasOwnProperty pathOptions k)) :
    buildPostQuery pathOptions routerOptions
      = .ok (.object [("type", .string "browse"), ("resource", .string "posts"),
          ("controller", .string "posts"),
          ("options", .object (primaryOptions pathOptions routerOptions))]) := by
  unfold buildPostQuery primaryOptions overlay
  simp only [hf, hp, bind, Except.bind]
  cases toBoolean (routerOptions.get "filter") <;>
  cases toBoolean (routerOptions.get "order") <;>
  cases hasOwnProperty pathOptions "page" <;>
  cases hasOwnProperty pathOptions "limit" <;>
  simp [defaultPostQuery, cloneDeep, queryDefaults, defaultQueryOptions, setOption, getProp,
    setProp, JSValue.get, propGet, assocGet?, assocSet, bind, Except.bind, pure, Except.pure]

theorem buildPostQuery_regular (pathOptions routerOptions : JSValue)
    (h : Regular pathOptions routerOptions) :
    buildPostQuery (orEmptyObject pathOptions) (orEmptyObject routerOptions)
      = .ok (primaryQuery pathOptions routerOptions) :=
  buildPostQuery_eq _ _ (readFilter_of_not_array _ h.2.1)
    (fun k => callHasOwnProperty_of_truthy _ k (toBoolean_orEmptyObject _) h.1)

theorem dataEntries_regular (pathOptions routerOptions : JSValue)
    (h : Regular pathOptions routerOptions) :
    dataEntries ((orEmptyObject routerOptions).get "data")
      = .ok (eachEntries ((orEmptyObject routerOptions).get "data")) := by
  have hs := h.2.2.1
  cases hd : (orEmptyObject routerOptions).get "data" with
  | string s => simp [dataEntries, hs s hd]
  | _ => rfl

theorem builds_of_regular (pathOptions routerOptions : JSValue)
    (h : Regular pathOptions routerOptions) : Builds pathOptions routerOptions :=
  ⟨buildPostQuery_regular _ _ h, dataEntries_regular _ _ h⟩

theorem buildPostQuery_array (pathOptions : JSValue) (xs : List JSValue) :
    buildPostQuery pathOptions (.array xs) = .error .unsupported := rfl

theorem buildPostQuery_shadowed (p : Props) (routerOptions : JSValue)
    (hf : readFilter routerOptions = .ok (routerOptions.get "filter"))
    (hown : (assocGet? "hasOwnProperty" p).isSome = true) :
    buildPostQuery (.object p) routerOptions = .error .typeError := by
  unfold buildPostQuery
  simp only [hf, bind, Except.bind, callHasOwnProperty, hown, if_true]
  cases toBoolean (routerOptions.get "filter") <;>
  cases toBoolean (routerOptions.get "order") <;>
  simp [defaultPostQuery, cloneDeep, queryDefaults, defaultQueryOptions, setOption, getProp,
    setProp, JSValue.get, propGet, assocGet?, assocSet, bind, Except.bind, pure, Except.pure]

/-- Lines 72-89 either give the primary query or stop before any query is dispatched. -/
theorem buildPostQuery_cases (pathOptions routerOptions : JSValue) :
    buildPostQuery (orEmptyObject pathOptions) (orEmptyObject routerOptions)
        = .ok (primaryQuery pathOptions routerOptions)
      ∨ ∃ e, buildPostQuery (orEmptyObject pathOptions) (orEmptyObject routerOptions)
        = .error e := by
  by_cases hr : ∃ xs, orEmptyObject routerOptions = .array xs
  · obtain ⟨xs, hxs⟩ := hr
    rw [hxs]
    exact Or.inr ⟨_, buildPostQuery_array _ xs⟩
  · have hf := readFilter_of_not_array (orEmptyObject routerOptions)
      (fun xs h => hr ⟨xs, h⟩)
    by_cases hs : ∃ p, orEmptyObject pathOptions = .object p
        ∧ (assocGet? "hasOwnProperty" p).isSome = true
    · obtain ⟨p, hp, hown⟩ := hs
      right
      rw [hp]
      exact ⟨_, buildPostQuery_shadowed p _ hf hown⟩
    · left
      refine buildPostQuery_eq _ _ hf
        (fun k => callHasOwnProperty_of_truthy _ k (toBoolean_orEmptyObject _) ?_)
      intro p hp
      cases hg : assocGet? "hasOwnProperty" p with
      | none => rfl
      | some v => exact absurd ⟨p, hp, by simp [hg]⟩ hs

theorem substituteProps_primaryOptions (slugParam pathOptions routerOptions : JSValue) :
    substituteProps slugParam (primaryOptions pathOptions routerOptions)
      = (primaryOptions pathOptions routerOptions).map
          (fun entry => (entry.1, substituteSlug slugParam entry.2)) := by
  unfold primaryOptions overlay
  cases toBoolean (routerOptions.get "filter") <;>
  cases toBoolean (routerOptions.get "order") <;>
  cases hasOwnProperty pathOptions "page" <;>
  cases hasOwnProperty pathOptions "limit" <;>
  simp [substituteProps, eachEntries, propEntries, assocKeys, arrayLikeLength, propGet,
    assocGet?, assocSet]

/-! ## The dispatch loop -/

theorem dispatchAll_calls_append (flag : Bool) (api : Api) (slugParam locals : JSValue) :
    ∀ (es : List (String × JSValue)) (calls : List Call) (props : List (String × Promise)),
      ∃ more, (dispatchAll flag api slugParam locals es calls props).1 = calls ++ more := by
  intro es
  induction es with
  | nil => intro calls props; exact ⟨[], by simp [dispatchAll]⟩
  | cons e rest ih =>
    intro calls props
    obtain ⟨name, query⟩ := e
    simp only [dispatchAll]
    cases hres : (processQuery flag api query slugParam locals).result with
    | error err => exact ⟨_, rfl⟩
    | ok promise =>
      simp only
      split
      · obtain ⟨more, hmore⟩ :=
          ih (calls ++ (processQuery flag api query slugParam locals).call.toList) props
        exact ⟨(processQuery flag api query slugParam locals).call.toList ++ more, by
          simp only [hmore, List.append_assoc]⟩
      · obtain ⟨more, hmore⟩ :=
          ih (calls ++ (processQuery flag api query slugParam locals).call.toList)
            (assocSet name promise props)
        exact ⟨(processQuery flag api query slugParam locals).call.toList ++ more, by
          simp only [hmore, List.append_assoc]⟩

/-- When no run of `processQuery` throws, every query is dispatched, whatever its name is. -/
theorem dispatchAll_calls_of_ok (flag : Bool) (api : Api) (slugParam locals : JSValue) :
    ∀ (es : List (String × JSValue)) (calls : List Call) (props : List (String × Promise)),
      (∀ e ∈ es, ∃ p, (processQuery flag api e.2 slugParam locals).result = .ok p) →
      (dispatchAll flag api slugParam locals es calls props).1
        = calls ++ es.flatMap
            (fun e => (processQuery flag api e.2 slugParam locals).call.toList) := by
  intro es
  induction es with
  | nil => intro calls props _; simp [dispatchAll]
  | cons e rest ih =>
    intro calls props h
    obtain ⟨name, query⟩ := e
    obtain ⟨p, hp⟩ := h (name, query) (by simp)
    have hrest : ∀ e ∈ rest, ∃ p, (processQuery flag api e.2 slugParam locals).result = .ok p :=
      fun e he => h e (by simp [he])
    simp only [dispatchAll, hp, List.flatMap_cons]
    split
    · simp only []
      rw [ih _ _ hrest]
      simp [List.append_assoc]
    · rw [ih _ _ hrest]
      simp [List.append_assoc]

/-- When no run of `processQuery` throws, every query is dispatched and every promise stored. -/
theorem dispatchAll_ok (flag : Bool) (api : Api) (slugParam locals : JSValue) :
    ∀ (es : List (String × JSValue)) (calls : List Call) (props : List (String × Promise)),
      (∀ e ∈ es, ∃ p, (processQuery flag api e.2 slugParam locals).result = .ok p) →
      (∀ e ∈ es, e.1 ≠ "__proto__") →
      dispatchAll flag api slugParam locals es calls props
        = (calls ++ es.flatMap
              (fun e => (processQuery flag api e.2 slugParam locals).call.toList),
           .ok (es.foldl
              (fun ps e => assocSet e.1 (processQuery flag api e.2 slugParam locals).promise ps)
              props)) := by
  intro es
  induction es with
  | nil => intro calls props _ _; simp [dispatchAll]
  | cons e rest ih =>
    intro calls props h hn
    obtain ⟨name, query⟩ := e
    obtain ⟨p, hp⟩ := h (name, query) (by simp)
    have hname : name ≠ "__proto__" := hn (name, query) (by simp)
    have hrest : ∀ e ∈ rest, ∃ p, (processQuery flag api e.2 slugParam locals).result = .ok p :=
      fun e he => h e (by simp [he])
    simp only [dispatchAll, hp, if_neg hname, List.flatMap_cons, List.foldl_cons]
    rw [ih _ _ hrest (fun e he => hn e (by simp [he]))]
    simp [Dispatch.promise, hp, List.append_assoc]

theorem fetchData_eq (flag : Bool) (api : Api) (pathOptions routerOptions locals : JSValue)
    (hb : Builds pathOptions routerOptions) :
    fetchData flag api pathOptions routerOptions locals
      = (let po := orEmptyObject pathOptions
         let ro := orEmptyObject routerOptions
         let submitted := dispatchAll flag api (po.get "slug") locals
            (submittedQueries (.object [("type", .string "browse"), ("resource", .string "posts"),
              ("controller", .string "posts"), ("options", .object (primaryOptions po ro))]) ro)
            [] []
         match submitted.2 with
         | .error e => { calls := submitted.1, result := .error e }
         | .ok props =>
           { calls := submitted.1, result := .ok (thenFormat ro (promiseProps props)) }) := by
  simp only [fetchData, hb.1, hb.2, submittedQueries, primaryQuery]

/-- The call the primary query leads to. -/
theorem processQuery_primary (flag : Bool) (api : Api) (po ro slugParam : JSValue) (l : Props)
    (m : Method)
    (hapi : api (propGet l "apiVersion") (.string "posts") (.string "browse") = some m) :
    (processQuery flag api
        (.object [("type", .string "browse"), ("resource", .string "posts"),
          ("controller", .string "posts"), ("options", .object (primaryOptions po ro))])
        slugParam (.object l)).call
      = some { apiVersion := propGet l "apiVersion"
               controller := .string "posts"
               type := .string "browse"
               options :=
                 if flag then
                   .object (assocSet "context" (.object [("member", propGet l "member")])
                     ((primaryOptions po ro).map
                       (fun entry => (entry.1, substituteSlug slugParam entry.2))))
                 else
                   .object ((primaryOptions po ro).map
                     (fun entry => (entry.1, substituteSlug slugParam entry.2))) } := by
  have hop : propGet (withDefaults [("type", .string "browse"), ("resource", .string "posts"),
      ("controller", .string "posts"), ("options", .object (primaryOptions po ro))]) "options"
      = .object (primaryOptions po ro) := by
    simp [propGet_withDefaults_options, propGet, assocGet?, orDefault]
  have hc : propGet (withDefaults [("type", .string "browse"), ("resource", .string "posts"),
      ("controller", .string "posts"), ("options", .object (primaryOptions po ro))]) "controller"
      = .string "posts" := by
    simp [propGet_withDefaults_controller, propGet, assocGet?, orDefault]
  have ht : propGet (withDefaults [("type", .string "browse"), ("resource", .string "posts"),
      ("controller", .string "posts"), ("options", .object (primaryOptions po ro))]) "type"
      = .string "browse" := by
    simp [propGet_withDefaults_type, propGet, assocGet?, orDefault]
  rw [processQuery_object flag api _ l _ slugParam m hop (by rw [hc, ht]; exact hapi), hc, ht,
    substituteProps_primaryOptions]

theorem dataEntries_ok (data : JSValue) (es : List (String × JSValue))
    (h : dataEntries data = .ok es) : es = eachEntries data := by
  cases data with
  | string s =>
    simp only [dataEntries] at h
    split at h
    · simp only [Except.ok.injEq] at h; exact h.symm
    · cases h
  | _ => simp only [dataEntries, Except.ok.injEq] at h; exact h.symm

/-- The calls of `fetchData` are those of the dispatch loop, or those of the
primary query alone, or there is none. -/
theorem fetchData_calls_cases (flag : Bool) (api : Api)
    (pathOptions routerOptions locals : JSValue) :
    (fetchData flag api pathOptions routerOptions locals).calls = []
      ∨ (fetchData flag api pathOptions routerOptions locals).calls
        = (dispatchAll flag api ((orEmptyObject pathOptions).get "slug") locals
            (submittedQueries (primaryQuery pathOptions routerOptions)
              (orEmptyObject routerOptions)) [] []).1
      ∨ (fetchData flag api pathOptions routerOptions locals).calls
        = (dispatchAll flag api ((orEmptyObject pathOptions).get "slug") locals
            [("posts", primaryQuery pathOptions routerOptions)] [] []).1 := by
  unfold fetchData
  rcases buildPostQuery_cases pathOptions routerOptions with h | ⟨e, h⟩
  · simp only [h]
    cases hd : dataEntries ((orEmptyObject routerOptions).get "data") with
    | error e =>
      right; right
      simp only
      split <;> rfl
    | ok es =>
      right; left
      rw [dataEntries_ok _ es hd]
      simp only [submittedQueries]
      split <;> rfl
  · simp [h]

theorem fetchData_calls (flag : Bool) (api : Api) (pathOptions routerOptions locals : JSValue)
    (hb : Builds pathOptions routerOptions) :
    (fetchData flag api pathOptions routerOptions locals).calls
      = (dispatchAll flag api ((orEmptyObject pathOptions).get "slug") locals
          (submittedQueries (.object [("type", .string "browse"), ("resource", .string "posts"),
            ("controller", .string "posts"),
            ("options", .object (primaryOptions (orEmptyObject pathOptions)
              (orEmptyObject routerOptions)))]) (orEmptyObject routerOptions)) [] []).1 := by
  rw [fetchData_eq flag api pathOptions routerOptions locals hb]
  simp only []
  split <;> rfl

theorem dispatchAll_cons_calls (flag : Bool) (api : Api) (slugParam locals : JSValue)
    (name : String) (query : JSValue) (rest : List (String × JSValue)) (calls : List Call)
    (props : List (String × Promise)) :
    ∃ more, (dispatchAll flag api slugParam locals ((name, query) :: rest) calls props).1
      = calls ++ (processQuery flag api query slugParam locals).call.toList ++ more := by
  simp only [dispatchAll]
  cases hres : (processQuery flag api query slugParam locals).result with
  | error err => exact ⟨[], by simp⟩
  | ok promise =>
    simp only
    split
    · exact dispatchAll_calls_append flag api slugParam locals rest _ _
    · exact dispatchAll_calls_append flag api slugParam locals rest _ _

/-- The first API call of `fetchData` is the primary query: `posts.browse`
with the default options overlaid with `filter`, `order`, `page` and `limit`,
each value passed through the substitution of line 52. -/
theorem fetchData_primary_call (api : Api) (pathOptions routerOptions : JSValue) (l : Props)
    (m : Method) (hb : Builds pathOptions routerOptions)
    (hapi : api (propGet l "apiVersion") (.string "posts") (.string "browse") = some m) :
    (fetchData false api pathOptions routerOptions (.object l)).calls.head?
      = some { apiVersion := propGet l "apiVersion"
               controller := .string "posts"
               type := .string "browse"
               options := .object
                 ((primaryOptions (orEmptyObject pathOptions) (orEmptyObject routerOptions)).map
                   (fun entry =>
                     (entry.1, substituteSlug ((orEmptyObject pathOptions).get "slug") entry.2))) } := by
  have hcall := processQuery_primary false api (orEmptyObject pathOptions)
    (orEmptyObject routerOptions) ((orEmptyObject pathOptions).get "slug") l m hapi
  simp only [Bool.false_eq_true, if_false] at hcall
  rw [fetchData_calls false api pathOptions routerOptions (.object l) hb]
  obtain ⟨more, hmore⟩ := dispatchAll_cons_calls false api
    ((orEmptyObject pathOptions).get "slug") (.object l) "posts"
    (.object [("type", .string "browse"), ("resource", .string "posts"),
      ("controller", .string "posts"),
      ("options", .object (primaryOptions (orEmptyObject pathOptions)
        (orEmptyObject routerOptions)))])
    (eachEntries ((orEmptyObject routerOptions).get "data")) [] []
  simp only [submittedQueries]
  rw [hmore, hcall]
  simp

/-! ## `Promise.props` -/

theorem assocSet_map {α β : Type} (g : α → β) (k : String) (v : α) (p : List (String × α)) :
    assocSet k (g v) (p.map (fun e => (e.1, g e.2)))
      = (assocSet k v p).map (fun e => (e.1, g e.2)) := by
  induction p with
  | nil => simp [assocSet]
  | cons e rest ih =>
    obtain ⟨k', v'⟩ := e
    by_cases h : k' = k
    · simp [assocSet, h]
    · simp [assocSet, h, ih]

theorem foldl_assocSet_fulfilled (P : String × JSValue → Promise) :
    ∀ (es : List (String × JSValue)) (r : Props),
      (∀ e ∈ es, ∃ v, P e = .fulfilled v) →
      es.foldl (fun ps e => assocSet e.1 (P e) ps) (r.map (fun e => (e.1, Promise.fulfilled e.2)))
        = (es.foldl (fun q e => assocSet e.1 (P e).value q) r).map
            (fun e => (e.1, Promise.fulfilled e.2)) := by
  intro es
  induction es with
  | nil => intro r _; rfl
  | cons e rest ih =>
    intro r h
    obtain ⟨v, hv⟩ := h e (by simp)
    simp only [List.foldl_cons]
    rw [← ih (assocSet e.1 (P e).value r) (fun e' he' => h e' (by simp [he']))]
    rw [← assocSet_map Promise.fulfilled, hv]
    rfl

theorem firstRejection_fulfilled (r : Props) :
    firstRejection (r.map (fun e => (e.1, Promise.fulfilled e.2))) = none := by
  induction r with
  | nil => rfl
  | cons e rest ih => simp [firstRejection, ih]

theorem fulfilledValues_fulfilled (r : Props) :
    fulfilledValues (r.map (fun e => (e.1, Promise.fulfilled e.2))) = some r := by
  induction r with
  | nil => rfl
  | cons e rest ih => simp [fulfilledValues, ih]

theorem promiseProps_fulfilled (r : Props) :
    promiseProps (r.map (fun e => (e.1, Promise.fulfilled e.2))) = .fulfilled (.object r) := by
  simp [promiseProps, firstRejection_fulfilled, fulfilledValues_fulfilled]

/-- A rejection among the promises makes `Promise.props` reject. -/
theorem firstRejection_isSome (props : List (String × Promise)) (name : String) (t : Nat)
    (reason : Abort) (h : (name, Promise.rejected t reason) ∈ props) :
    (firstRejection props).isSome = true := by
  induction props with
  | nil => simp at h
  | cons e rest ih =>
    obtain ⟨k, p⟩ := e
    cases p with
    | rejected t' r' =>
      simp only [firstRejection]
      cases firstRejection rest with
      | none => rfl
      | some x => obtain ⟨t2, r2⟩ := x; simp only []; split <;> rfl
    | fulfilled v =>
      simp only [firstRejection]
      apply ih
      simpa using h
    | pending =>
      simp only [firstRejection]
      apply ih
      simpa using h

/-- The rejection `Promise.props` picks is the rejection of one of the promises. -/
theorem firstRejection_mem (props : List (String × Promise)) (t : Nat) (reason : Abort)
    (h : firstRejection props = some (t, reason)) :
    ∃ name, (name, Promise.rejected t reason) ∈ props := by
  induction props generalizing t reason with
  | nil => simp [firstRejection] at h
  | cons e rest ih =>
    obtain ⟨k, p⟩ := e
    cases p with
    | rejected t' r' =>
      simp only [firstRejection] at h
      cases hr : firstRejection rest with
      | none =>
        simp only [hr, Option.some.injEq, Prod.mk.injEq] at h
        exact ⟨k, by simp [h.1, h.2]⟩
      | some x =>
        obtain ⟨t2, r2⟩ := x
        simp only [hr] at h
        by_cases hlt : t2 < t'
        · simp only [hlt, if_true, Option.some.injEq, Prod.mk.injEq] at h
          obtain ⟨name, hn⟩ := ih t2 r2 hr
          exact ⟨name, by rw [← h.1, ← h.2]; simp [hn]⟩
        · simp only [hlt, if_false, Option.some.injEq, Prod.mk.injEq] at h
          exact ⟨k, by simp [h.1, h.2]⟩
    | fulfilled v =>
      simp only [firstRejection] at h
      obtain ⟨name, hn⟩ := ih t reason h
      exact ⟨name, by simp [hn]⟩
    | pending =>
      simp only [firstRejection] at h
      obtain ⟨name, hn⟩ := ih t reason h
      exact ⟨name, by simp [hn]⟩

/-! ## `formatResponse` -/

theorem assocSet_assocSet_same {α : Type} (k : String) (v w : α) (p : List (String × α)) :
    assocSet k v (assocSet k w p) = assocSet k v p := by
  induction p with
  | nil => simp [assocSet]
  | cons e rest ih =>
    obtain ⟨k', v'⟩ := e
    by_cases h : k' = k
    · simp [assocSet, h]
    · simp [assocSet, h, ih]

theorem formatEntry_object (results : JSValue) (rp d : Props) (entry : String × JSValue)
    (v : JSValue) (hd : propGet rp "data" = .object d) (hv : entryValue results entry = .ok v)
    (hname : entry.1 ≠ "__proto__") :
    formatEntry results (.object rp) entry
      = .ok (.object (assocSet "data" (.object (assocSet entry.1 v d)) rp)) := by
  simp [formatEntry, getProp, JSValue.get, hd, hv, hname, setProp, bind, Except.bind]

theorem foldlM_formatEntry (results : JSValue) (W : String × JSValue → JSValue) :
    ∀ (es : List (String × JSValue)) (rp d : Props),
      propGet rp "data" = .object d →
      (∀ e ∈ es, entryValue results e = .ok (W e)) →
      (∀ e ∈ es, e.1 ≠ "__proto__") →
      es.foldlM (formatEntry results) (JSValue.object rp)
        = Except.ok (JSValue.object (assocSet "data"
            (.object (es.foldl (fun q e => assocSet e.1 (W e) q) d)) rp)) := by
  intro es
  induction es with
  | nil =>
    intro rp d hd _ _
    simp only [List.foldlM, List.foldl, pure, Except.pure]
    have hg : assocGet? "data" rp = some (.object d) := by
      unfold propGet at hd
      cases hg : assocGet? "data" rp with
      | none => simp [hg] at hd
      | some v => simp [hg] at hd; simp [hd]
    rw [assocSet_of_get "data" _ rp hg]
  | cons e rest ih =>
    intro rp d hd h hn
    simp only [List.foldlM, List.foldl_cons, bind, Except.bind]
    rw [formatEntry_object results rp d e (W e) hd (h e (by simp)) (hn e (by simp))]
    simp only []
    rw [ih (assocSet "data" (.object (assocSet e.1 (W e) d)) rp) (assocSet e.1 (W e) d)
      (by rw [propGet_assocSet]; simp) (fun e' he' => h e' (by simp [he']))
      (fun e' he' => hn e' (by simp [he']))]
    rw [assocSet_assocSet_same]

/-! ## The run of `fetchData` when every query resolves -/

theorem propGet_foldl_not_mem (F : String × JSValue → JSValue) (name : String) :
    ∀ (es : List (String × JSValue)) (q : Props), name ∉ es.map Prod.fst →
      propGet (es.foldl (fun q e => assocSet e.1 (F e) q) q) name = propGet q name := by
  intro es
  induction es with
  | nil => intro q _; rfl
  | cons e rest ih =>
    intro q h
    simp only [List.map_cons, List.mem_cons, not_or] at h
    simp only [List.foldl_cons]
    rw [ih _ h.2, propGet_assocSet]
    simp [h.1]

theorem propGet_foldl_mem (F : String × JSValue → JSValue) (name : String) :
    ∀ (es : List (String × JSValue)) (q : Props), name ∈ es.map Prod.fst →
      ∃ e ∈ es, e.1 = name ∧
        propGet (es.foldl (fun q e => assocSet e.1 (F e) q) q) name = F e := by
  intro es
  induction es with
  | nil => intro q h; simp at h
  | cons e rest ih =>
    intro q h
    simp only [List.foldl_cons]
    by_cases hr : name ∈ rest.map Prod.fst
    · obtain ⟨e', he', hn, hg⟩ := ih (assocSet e.1 (F e) q) hr
      exact ⟨e', by simp [he'], hn, hg⟩
    · have hname : name = e.1 := by
        simp only [List.map_cons, List.mem_cons] at h
        rcases h with h | h
        · exact h
        · exact absurd h hr
      refine ⟨e, by simp, hname.symm, ?_⟩
      rw [propGet_foldl_not_mem F name rest _ hr, propGet_assocSet]
      simp [hname]

theorem processQuery_nullish_throws (flag : Bool) (api : Api) (query slugParam locals : JSValue)
    (h : query = .undefined ∨ query = .null) :
    ∃ err, (processQuery flag api query slugParam locals).result = .error err := by
  unfold processQuery
  have hb : ∃ err, buildCall flag query slugParam locals = .error err := by
    unfold buildCall
    cases hl : getProp locals "apiVersion" with
    | error err => exact ⟨err, by simp [bind, Except.bind]⟩
    | ok v =>
      rcases h with h | h <;> subst h <;>
        exact ⟨.typeError, by simp [bind, Except.bind, cloneDeep, defaultsDeep, getProp]⟩
  obtain ⟨err, hb⟩ := hb
  exact ⟨err, by rw [hb]⟩

theorem regular_names (pathOptions routerOptions postQuery : JSValue)
    (hreg : Regular pathOptions routerOptions) :
    ∀ e ∈ submittedQueries postQuery (orEmptyObject routerOptions), e.1 ≠ "__proto__" := by
  intro e he
  simp only [submittedQueries, List.mem_cons] at he
  rcases he with he | he
  · rw [he]; simp
  · exact hreg.2.2.2 e he

theorem fetchData_result_resolved (flag : Bool) (api : Api)
    (pathOptions routerOptions locals : JSValue) (hreg : Regular pathOptions routerOptions)
    (hall : ∀ e ∈ submittedQueries
        (.object [("type", .string "browse"), ("resource", .string "posts"),
          ("controller", .string "posts"),
          ("options", .object (primaryOptions (orEmptyObject pathOptions)
            (orEmptyObject routerOptions)))]) (orEmptyObject routerOptions),
      ∃ v, (processQuery flag api e.2 ((orEmptyObject pathOptions).get "slug") locals).result
        = .ok (.fulfilled v)) :
    (fetchData flag api pathOptions routerOptions locals).result
      = .ok (thenFormat (orEmptyObject routerOptions)
          (.fulfilled (.object (resultsOf flag api ((orEmptyObject pathOptions).get "slug") locals
            (submittedQueries
              (.object [("type", .string "browse"), ("resource", .string "posts"),
                ("controller", .string "posts"),
                ("options", .object (primaryOptions (orEmptyObject pathOptions)
                  (orEmptyObject routerOptions)))]) (orEmptyObject routerOptions)))))) := by
  rw [fetchData_eq flag api pathOptions routerOptions locals (builds_of_regular _ _ hreg)]
  simp only []
  rw [dispatchAll_ok flag api _ locals _ [] []
    (fun e he => by obtain ⟨v, hv⟩ := hall e he; exact ⟨_, hv⟩)
    (regular_names pathOptions routerOptions _ hreg)]
  simp only []
  have hP : ∀ e ∈ submittedQueries
        (.object [("type", .string "browse"), ("resource", .string "posts"),
          ("controller", .string "posts"),
          ("options", .object (primaryOptions (orEmptyObject pathOptions)
            (orEmptyObject routerOptions)))]) (orEmptyObject routerOptions),
      ∃ v, (processQuery flag api e.2 ((orEmptyObject pathOptions).get "slug") locals).promise
        = .fulfilled v := by
    intro e he
    obtain ⟨v, hv⟩ := hall e he
    exact ⟨v, by simp [Dispatch.promise, hv]⟩
  have := foldl_assocSet_fulfilled
    (fun e => (processQuery flag api e.2 ((orEmptyObject pathOptions).get "slug") locals).promise)
    _ [] hP
  simp only [List.map_nil] at this
  rw [this, promiseProps_fulfilled]
  rfl

theorem get_object (p : Props) (k : String) : (JSValue.object p).get k = propGet p k := rfl

theorem readKey_object_own (r : Props) (k : String) (v : JSValue)
    (h : propGet r k = v) (hv : v ≠ .undefined) : readKey (.object r) k = .ok v := by
  unfold propGet at h
  cases hg : assocGet? k r with
  | none => rw [hg] at h; exact absurd h.symm hv
  | some x =>
    rw [hg] at h
    simp only [Option.getD_some] at h
    simp only [readKey, hg, h]

theorem readKey_object_plain (o : Props) (k : String) (h : k ∉ objectPrototypeKeys) :
    readKey (.object o) k = .ok (propGet o k) := by
  unfold propGet
  cases hg : assocGet? k o with
  | none => simp only [readKey, hg, if_neg h, Option.getD_none]
  | some x => simp only [readKey, hg, Option.getD_some]

theorem entryValue_ok (r : Props) (entry : String × JSValue) (o : Props)
    (hu : entry.2 ≠ .undefined) (hn : entry.2 ≠ .null) (ho : propGet r entry.1 = .object o)
    (hres : strictEqualsString (entry.2.get "type") "browse" = true
      ∨ toStr (entry.2.get "resource") ∉ objectPrototypeKeys) :
    entryValue (.object r) entry = .ok (mergedValue (.object r) entry) := by
  unfold entryValue mergedValue
  have hget : getProp entry.2 "type" = .ok (entry.2.get "type") := by
    cases h : entry.2 <;> simp_all [getProp]
  simp only [hget, bind, Except.bind, get_object, ho, pure, Except.pure,
    readKey_object_own r entry.1 (.object o) ho (by simp)]
  by_cases hb : strictEqualsString (entry.2.get "type") "browse" = true
  · simp only [hb, if_true]
  · simp only [hb, if_false, Bool.false_eq_true]
    rcases hres with h | h
    · exact absurd h hb
    · exact readKey_object_plain o _ h

theorem formatResponse_objects (routerOptions : JSValue) (r base : Props)
    (hposts : propGet r "posts" = .object base)
    (hdata : dataEntries (routerOptions.get "data") = .ok (eachEntries (routerOptions.get "data")))
    (hentries : ∀ e ∈ eachEntries (routerOptions.get "data"),
      e.2 ≠ .undefined ∧ e.2 ≠ .null ∧ (∃ o, propGet r e.1 = .object o)
        ∧ e.1 ≠ "__proto__"
        ∧ (strictEqualsString (e.2.get "type") "browse" = true
            ∨ toStr (e.2.get "resource") ∉ objectPrototypeKeys)) :
    formatResponse routerOptions (.object r) = .ok (mergedResponse routerOptions (.object r)) := by
  unfold formatResponse mergedResponse
  simp only [cloneDeep, getProp, get_object, hposts, bind, Except.bind]
  by_cases hd : toBoolean (routerOptions.get "data") = true
  · simp only [hd, if_true, setProp, hdata]
    rw [foldlM_formatEntry (.object r) (mergedValue (.object r)) _ _ []
      (by rw [propGet_assocSet]; simp)
      (fun e he => by
        obtain ⟨hu, hn, ⟨o, ho⟩, _, hres⟩ := hentries e he
        exact entryValue_ok r e o hu hn ho hres)
      (fun e he => (hentries e he).2.2.2.1)]
    rw [assocSet_assocSet_same]
    rfl
  · simp only [hd, if_false, Bool.false_eq_true]
    rfl

theorem queryValue_of_result (flag : Bool) (api : Api) (slugParam locals : JSValue)
    (e : String × JSValue) (v : JSValue)
    (h : (processQuery flag api e.2 slugParam locals).result = .ok (.fulfilled v)) :
    queryValue flag api slugParam locals e = v := by
  simp [queryValue, Dispatch.promise, h, Promise.value]

/-- When every query resolves to an object, `fetchData` resolves with the merged response. -/
theorem fetchData_result_merged (flag : Bool) (api : Api)
    (pathOptions routerOptions locals : JSValue) (hreg : Regular pathOptions routerOptions)
    (hplain : PlainResources routerOptions)
    (hall : ∀ e ∈ submittedQueries
        (.object [("type", .string "browse"), ("resource", .string "posts"),
          ("controller", .string "posts"),
          ("options", .object (primaryOptions (orEmptyObject pathOptions)
            (orEmptyObject routerOptions)))]) (orEmptyObject routerOptions),
      ∃ o, (processQuery flag api e.2 ((orEmptyObject pathOptions).get "slug") locals).result
        = .ok (.fulfilled (.object o))) :
    (fetchData flag api pathOptions routerOptions locals).result
      = .ok (.fulfilled (mergedResponse (orEmptyObject routerOptions)
          (.object (resultsOf flag api ((orEmptyObject pathOptions).get "slug") locals
            (submittedQueries
              (.object [("type", .string "browse"), ("resource", .string "posts"),
                ("controller", .string "posts"),
                ("options", .object (primaryOptions (orEmptyObject pathOptions)
                  (orEmptyObject routerOptions)))]) (orEmptyObject routerOptions)))))) := by
  rw [fetchData_result_resolved flag api pathOptions routerOptions locals hreg
    (fun e he => by obtain ⟨o, ho⟩ := hall e he; exact ⟨_, ho⟩)]
  have hobj : ∀ name, name ∈ (submittedQueries
        (.object [("type", .string "browse"), ("resource", .string "posts"),
          ("controller", .string "posts"),
          ("options", .object (primaryOptions (orEmptyObject pathOptions)
            (orEmptyObject routerOptions)))]) (orEmptyObject routerOptions)).map Prod.fst →
      ∃ o, propGet (resultsOf flag api ((orEmptyObject pathOptions).get "slug") locals
        (submittedQueries
          (.object [("type", .string "browse"), ("resource", .string "posts"),
            ("controller", .string "posts"),
            ("options", .object (primaryOptions (orEmptyObject pathOptions)
              (orEmptyObject routerOptions)))]) (orEmptyObject routerOptions))) name
        = .object o := by
    intro name hname
    obtain ⟨e, he, _, hg⟩ := propGet_foldl_mem
      (queryValue flag api ((orEmptyObject pathOptions).get "slug") locals) name _ [] hname
    obtain ⟨o, ho⟩ := hall e he
    exact ⟨o, by unfold resultsOf; rw [hg, queryValue_of_result _ _ _ _ e _ ho]⟩
  obtain ⟨base, hbase⟩ := hobj "posts" (by simp [submittedQueries])
  simp only [thenFormat]
  rw [formatResponse_objects (orEmptyObject routerOptions) _ base hbase
    (dataEntries_regular pathOptions routerOptions hreg)]
  intro e he
  have hmem : e ∈ submittedQueries
        (.object [("type", .string "browse"), ("resource", .string "posts"),
          ("controller", .string "posts"),
          ("options", .object (primaryOptions (orEmptyObject pathOptions)
            (orEmptyObject routerOptions)))]) (orEmptyObject routerOptions) := by
    simp [submittedQueries, he]
  obtain ⟨o, ho⟩ := hall e hmem
  refine ⟨?_, ?_, hobj e.1 (List.mem_map_of_mem Prod.fst hmem), hreg.2.2.2 e he,
    hplain e he⟩
  · intro hu
    obtain ⟨err, herr⟩ := processQuery_nullish_throws flag api e.2
      ((orEmptyObject pathOptions).get "slug") locals (Or.inl hu)
    rw [herr] at ho
    cases ho
  · intro hn
    obtain ⟨err, herr⟩ := processQuery_nullish_throws flag api e.2
      ((orEmptyObject pathOptions).get "slug") locals (Or.inr hn)
    rw [herr] at ho
    cases ho

/-! ## The keys of the `data` object -/

theorem assocKeys_assocSet_of_mem {α : Type} (k : String) (v : α) (p : List (String × α))
    (h : k ∈ assocKeys p) : assocKeys (assocSet k v p) = assocKeys p := by
  induction p with
  | nil => simp [assocKeys] at h
  | cons e rest ih =>
    obtain ⟨k', v'⟩ := e
    by_cases hk : k' = k
    · simp [assocSet, hk, assocKeys]
    · have hk2 : ¬ k = k' := fun e => hk e.symm
      have hr : k ∈ assocKeys rest := by
        simp only [assocKeys, List.mem_cons, List.mem_filter] at h
        rcases h with h | h
        · exact absurd h hk2
        · exact h.1
      simp [assocSet, hk, assocKeys, ih hr]

theorem assocKeys_assocSet_of_not_mem {α : Type} (k : String) (v : α) (p : List (String × α))
    (h : k ∉ assocKeys p) : assocKeys (assocSet k v p) = assocKeys p ++ [k] := by
  induction p with
  | nil => simp [assocSet, assocKeys]
  | cons e rest ih =>
    obtain ⟨k', v'⟩ := e
    have hk2 : ¬ k = k' := by
      intro e; apply h; simp [assocKeys, e]
    have hk : ¬ k' = k := fun e => hk2 e.symm
    have hr : k ∉ assocKeys rest := by
      intro hr; apply h
      simp [assocKeys, hk2, hr]
    simp [assocSet, hk, assocKeys, ih hr, List.filter_append, hk2]

theorem assocKeys_foldl_assocSet (F : String × JSValue → JSValue) (g : String → JSValue) :
    ∀ (ks : List String) (q : Props), ks.Nodup → (∀ k ∈ ks, k ∉ assocKeys q) →
      assocKeys ((ks.map (fun j => (j, g j))).foldl
          (fun q entry => assocSet entry.1 (F entry) q) q)
        = assocKeys q ++ ks := by
  intro ks
  induction ks with
  | nil => intro q _ _; simp
  | cons j rest ih =>
    intro q hnd hq
    simp only [List.map, List.foldl]
    have hj : j ∉ assocKeys q := hq j (by simp)
    have hnd' := List.nodup_cons.mp hnd
    rw [ih _ hnd'.2, assocKeys_assocSet_of_not_mem j _ q hj]
    · simp
    · intro k hk
      rw [assocKeys_assocSet_of_not_mem j _ q hj]
      simp only [List.mem_append, List.mem_singleton, not_or]
      exact ⟨hq k (by simp [hk]), fun e => hnd'.1 (e ▸ hk)⟩

theorem mem_of_assocGet? {α : Type} (k : String) (v : α) (p : List (String × α))
    (h : assocGet? k p = some v) : (k, v) ∈ p := by
  induction p with
  | nil => simp [assocGet?] at h
  | cons e rest ih =>
    obtain ⟨k', v'⟩ := e
    by_cases hk : k' = k
    · simp [assocGet?, hk] at h
      simp [hk, h]
    · simp [assocGet?, hk] at h
      simp [ih h]

theorem propGet_mem (p : Props) (k : String) (h : k ∈ assocKeys p) : (k, propGet p k) ∈ p := by
  have hs := (mem_assocKeys k p).mp h
  cases hg : assocGet? k p with
  | none => simp [hg] at hs
  | some v =>
    have : propGet p k = v := by simp [propGet, hg]
    rw [this]
    exact mem_of_assocGet? k v p hg

/-- A map all of whose values are objects is walked by key, not by index. -/
theorem eachEntries_of_objects (p : Props) (h : ∀ e ∈ p, ∃ q, e.2 = JSValue.object q) :
    eachEntries (.object p) = propEntries p := by
  have hlen : arrayLikeLength (propGet p "length") = none := by
    cases hg : assocGet? "length" p with
    | none => simp [propGet, hg, arrayLikeLength]
    | some v =>
      obtain ⟨q, hq⟩ := h _ (mem_of_assocGet? "length" v p hg)
      simp only at hq
      simp [propGet, hg, hq, arrayLikeLength]
  simp only [eachEntries, hlen]

theorem fetchData_result_of_objects (flag : Bool) (api : Api)
    (pathOptions routerOptions locals : JSValue) (hreg : Regular pathOptions routerOptions)
    (hplain : PlainResources routerOptions)
    (hall : AllResolveToObjects flag api pathOptions routerOptions locals) :
    (fetchData flag api pathOptions routerOptions locals).result
      = .ok (.fulfilled (mergedResponse (orEmptyObject routerOptions)
          (.object (resultsOf flag api (slugOf pathOptions) locals
            (queriesOf pathOptions routerOptions))))) :=
  fetchData_result_merged flag api pathOptions routerOptions locals hreg hplain hall

/-- Each key of the results holds an object when every query resolves to one. -/
theorem resultsOf_object (flag : Bool) (api : Api) (pathOptions routerOptions locals : JSValue)
    (hall : AllResolveToObjects flag api pathOptions routerOptions locals) (name : String)
    (hname : name ∈ (queriesOf pathOptions routerOptions).map Prod.fst) :
    ∃ o, propGet (resultsOf flag api (slugOf pathOptions) locals
      (queriesOf pathOptions routerOptions)) name = .object o := by
  obtain ⟨e, he, _, hg⟩ := propGet_foldl_mem
    (queryValue flag api (slugOf pathOptions) locals) name _ [] hname
  obtain ⟨o, ho⟩ := hall e he
  exact ⟨o, by unfold resultsOf; rw [hg, queryValue_of_result _ _ _ _ e _ ho]⟩

/-- Under a key of `routerOptions.data` the results hold the value of that entry's query. -/
theorem resultsOf_data_entry (flag : Bool) (api : Api)
    (pathOptions routerOptions locals : JSValue) (dataProps : Props)
    (hdata : (orEmptyObject routerOptions).get "data" = .object dataProps)
    (hobjs : ∀ e ∈ dataProps, ∃ q, e.2 = JSValue.object q)
    (name : String) (hname : name ∈ assocKeys dataProps) :
    propGet (resultsOf flag api (slugOf pathOptions) locals
      (queriesOf pathOptions routerOptions)) name
      = queryValue flag api (slugOf pathOptions) locals (name, propGet dataProps name) := by
  unfold resultsOf queriesOf submittedQueries
  rw [hdata, eachEntries_of_objects dataProps hobjs]
  simp only [List.foldl_cons, propEntries]
  rw [propGet_foldl_assocSet (queryValue flag api (slugOf pathOptions) locals)
    (propGet dataProps) name (assocKeys dataProps)]
  simp [hname]

/-! ## Index keys are decimal numerals -/

theorem toDigitsCore_chars (fuel : Nat) : ∀ (n : Nat) (ds : List Char) (c : Char),
    c ∈ Nat.toDigitsCore 10 fuel n ds → c ∈ ds ∨ ∃ k, k < 10 ∧ c = Nat.digitChar k := by
  induction fuel with
  | zero => intro n ds c h; simp [Nat.toDigitsCore] at h; exact Or.inl h
  | succ f ih =>
    intro n ds c h
    simp only [Nat.toDigitsCore] at h
    split at h
    · simp only [List.mem_cons] at h
      rcases h with h | h
      · exact Or.inr ⟨n % 10, Nat.mod_lt _ (by decide), h⟩
      · exact Or.inl h
    · rcases ih _ _ c h with h | h
      · simp only [List.mem_cons] at h
        rcases h with h | h
        · exact Or.inr ⟨n % 10, Nat.mod_lt _ (by decide), h⟩
        · exact Or.inl h
      · exact Or.inr h

theorem digitChar_isDigit (k : Nat) (h : k < 10) : (Nat.digitChar k).isDigit = true := by
  interval_cases k <;> decide

theorem toString_nat_digits (i : Nat) (c : Char) (h : c ∈ (toString i).data) :
    c.isDigit = true := by
  have h' : c ∈ Nat.toDigitsCore 10 (i + 1) i [] := h
  rcases toDigitsCore_chars _ _ _ _ h' with h | ⟨k, hk, rfl⟩
  · simp at h
  · exact digitChar_isDigit k hk

theorem toString_nat_ne (i : Nat) (k : String) (c : Char) (hc : c ∈ k.data)
    (hd : c.isDigit = false) : toString i ≠ k := by
  intro h
  have := toString_nat_digits i c (by rw [h]; exact hc)
  rw [hd] at this
  cases this

theorem isSome_foldl_assocSet_gen (F : String × JSValue → JSValue) (k : String) :
    ∀ (es : List (String × JSValue)) (q : Props),
      (assocGet? k (es.foldl (fun q e => assocSet e.1 (F e) q) q)).isSome
        = (decide (k ∈ es.map Prod.fst) || (assocGet? k q).isSome) := by
  intro es
  induction es with
  | nil => intro q; simp
  | cons e rest ih =>
    intro q
    simp only [List.foldl_cons]
    rw [ih, assocGet?_isSome_assocSet]
    by_cases hk : k ∈ rest.map Prod.fst <;> by_cases hj : k = e.1 <;> simp [hk, hj]

/-- The loop of lines 51-53 leaves a named property of `query.options` in
place: it neither adds nor removes it, and its value is the old one or the
substituted one. -/
theorem substituteProps_named (slugParam : JSValue) (p : Props) (k : String) (c : Char)
    (hc : c ∈ k.data) (hd : c.isDigit = false) :
    (assocGet? k (substituteProps slugParam p)).isSome = (assocGet? k p).isSome
    ∧ (propGet (substituteProps slugParam p) k = substituteSlug slugParam (propGet p k)
        ∨ propGet (substituteProps slugParam p) k = propGet p k) := by
  cases hlen : arrayLikeLength (propGet p "length") with
  | none =>
    exact ⟨isSome_substituteProps slugParam p k hlen,
      Or.inl (propGet_substituteProps slugParam p k hlen)⟩
  | some n =>
    have hnot : k ∉ ((List.range n).map (fun i => (toString i, propGet p (toString i)))).map
        Prod.fst := by
      simp only [List.map_map, List.mem_map, List.mem_range, Function.comp, not_exists, not_and]
      intro i _ h
      exact toString_nat_ne i k c hc hd h
    unfold substituteProps eachEntries
    simp only [hlen]
    refine ⟨?_, Or.inr ?_⟩
    · rw [isSome_foldl_assocSet_gen (fun e => substituteSlug slugParam e.2) k]
      simp only [hnot, decide_False, Bool.false_or]
    · exact propGet_foldl_not_mem (fun e => substituteSlug slugParam e.2) k _ p hnot

theorem substituteSlug_not_string (slugParam v : JSValue) (h : isString v = false) :
    substituteSlug slugParam v = v := by
  cases v <;> simp_all [substituteSlug, isString]

/-! ## The member context -/

theorem getProp_object (p : Props) (k : String) :
    getProp (.object p) k = .ok (propGet p k) := rfl

/-- With the flag on, a call built for a descriptor whose options are an
object carries `context = {member: locals.member}`. -/
theorem buildCall_context_on (q op : Props) (slugParam locals : JSValue) (c : Call)
    (hop : propGet (withDefaults q) "options" = .object op)
    (h : buildCall true (.object q) slugParam locals = .ok c) :
    c.options.get "context" = .object [("member", locals.get "member")] := by
  unfold buildCall at h
  cases hl : getProp locals "apiVersion" with
  | error err => simp [hl, bind, Except.bind] at h
  | ok v =>
    simp only [hl, bind, Except.bind, cloneDeep, defaultsDeep_queryDefaults, getProp_object,
      hop, replaceSlugs_object, if_true, setProp, pure, Except.pure, Except.ok.injEq] at h
    rw [← h]
    simp only [get_object, propGet_assocSet, if_true]

/-- With the flag off, the call built for a descriptor whose options are an
object keeps `context` as the descriptor has it. -/
theorem buildCall_context_off (q op : Props) (slugParam locals : JSValue) (c : Call)
    (hop : propGet (withDefaults q) "options" = .object op)
    (h : buildCall false (.object q) slugParam locals = .ok c) :
    hasOwnProperty c.options "context" = hasOwnProperty (.object op) "context"
    ∧ (isString (propGet op "context") = false → c.options.get "context" = propGet op "context") := by
  unfold buildCall at h
  cases hl : getProp locals "apiVersion" with
  | error err => simp [hl, bind, Except.bind] at h
  | ok v =>
    simp only [hl, bind, Except.bind, cloneDeep, defaultsDeep_queryDefaults, getProp_object,
      hop, replaceSlugs_object, Bool.false_eq_true, if_false, pure, Except.pure,
      Except.ok.injEq] at h
    rw [← h]
    obtain ⟨hsome, hval⟩ := substituteProps_named slugParam op "context" 'c' (by decide)
      (by decide)
    refine ⟨by simp only [hasOwnProperty, hsome], ?_⟩
    intro hs
    simp only [get_object]
    rcases hval with hval | hval
    · rw [hval, substituteSlug_not_string _ _ hs]
    · exact hval

theorem processQuery_call_buildCall (flag : Bool) (api : Api) (query slugParam locals : JSValue)
    (c : Call) (h : (processQuery flag api query slugParam locals).call = some c) :
    buildCall flag query slugParam locals = .ok c := by
  unfold processQuery at h
  cases hb : buildCall flag query slugParam locals with
  | error err => simp [hb] at h
  | ok c' =>
    simp only [hb] at h
    cases ha : api c'.apiVersion c'.controller c'.type with
    | none => simp [ha] at h
    | some m => simp only [ha, Option.some.injEq] at h; rw [h]

theorem dispatchAll_calls_mem (flag : Bool) (api : Api) (slugParam locals : JSValue) (c : Call) :
    ∀ (es : List (String × JSValue)) (calls : List Call) (props : List (String × Promise)),
      c ∈ (dispatchAll flag api slugParam locals es calls props).1 →
      c ∈ calls ∨ ∃ e ∈ es, (processQuery flag api e.2 slugParam locals).call = some c := by
  intro es
  induction es with
  | nil => intro calls props h; exact Or.inl (by simpa [dispatchAll] using h)
  | cons e rest ih =>
    intro calls props h
    obtain ⟨name, query⟩ := e
    simp only [dispatchAll] at h
    have hstep : c ∈ calls ++ (processQuery flag api query slugParam locals).call.toList →
        c ∈ calls ∨ ∃ e ∈ (name, query) :: rest,
          (processQuery flag api e.2 slugParam locals).call = some c := by
      intro hm
      rcases List.mem_append.mp hm with hm | hm
      · exact Or.inl hm
      · exact Or.inr ⟨(name, query), by simp, by simpa [Option.mem_toList] using hm⟩
    cases hres : (processQuery flag api query slugParam locals).result with
    | error err =>
      simp only [hres] at h
      exact hstep h
    | ok promise =>
      simp only [hres] at h
      split at h
      · rcases ih _ _ h with h | ⟨e, he, hc⟩
        · exact hstep h
        · exact Or.inr ⟨e, by simp [he], hc⟩
      · rcases ih _ _ h with h | ⟨e, he, hc⟩
        · exact hstep h
        · exact Or.inr ⟨e, by simp [he], hc⟩

/-- Every API call of `fetchData` is the call of one of its queries. -/
theorem fetchData_calls_mem (flag : Bool) (api : Api) (pathOptions routerOptions locals : JSValue)
    (c : Call) (h : c ∈ (fetchData flag api pathOptions routerOptions locals).calls) :
    ∃ e ∈ queriesOf pathOptions routerOptions,
      (processQuery flag api e.2 (slugOf pathOptions) locals).call = some c := by
  rcases fetchData_calls_cases flag api pathOptions routerOptions locals with h0 | h1 | h2
  · rw [h0] at h
    simp at h
  · rw [h1] at h
    rcases dispatchAll_calls_mem flag api _ locals c _ [] [] h with h | h
    · simp at h
    · exact h
  · rw [h2] at h
    rcases dispatchAll_calls_mem flag api _ locals c _ [] [] h with h | h
    · simp at h
    · obtain ⟨e, he, hc⟩ := h
      simp only [List.mem_singleton] at he
      exact ⟨e, by simp [queriesOf, submittedQueries, he], hc⟩

theorem primaryQuery_options (pathOptions routerOptions : JSValue) :
    ∃ q, primaryQuery pathOptions routerOptions = .object q
      ∧ propGet (withDefaults q) "options"
          = .object (primaryOptions (orEmptyObject pathOptions) (orEmptyObject routerOptions)) :=
  ⟨_, rfl, by simp [propGet_withDefaults_options, propGet, assocGet?, orDefault]⟩

/-! ## Distinct keys: every promise is stored -/

theorem assocSet_of_none {α : Type} (k : String) (v : α) (p : List (String × α))
    (h : assocGet? k p = none) : assocSet k v p = p ++ [(k, v)] := by
  induction p with
  | nil => rfl
  | cons e rest ih =>
    obtain ⟨k', v'⟩ := e
    by_cases hk : k' = k
    · simp [assocGet?, hk] at h
    · simp only [assocGet?, hk, if_false] at h
      simp [assocSet, hk, ih h]

theorem assocGet?_append_singleton {α : Type} (j k : String) (v : α) (p : List (String × α))
    (hjk : j ≠ k) (h : assocGet? j p = none) : assocGet? j (p ++ [(k, v)]) = none := by
  induction p with
  | nil =>
    have : ¬ k = j := fun e => hjk e.symm
    simp [assocGet?, this]
  | cons e rest ih =>
    obtain ⟨k', v'⟩ := e
    by_cases hk : k' = j
    · simp [assocGet?, hk] at h
    · simp only [assocGet?, hk, if_false] at h
      simp [assocGet?, hk, ih h]

/-- With distinct keys, none of them taken, the assignments append one entry each. -/
theorem foldl_assocSet_nodup {α : Type} (P : String × JSValue → α) :
    ∀ (es : List (String × JSValue)) (q : List (String × α)),
      (es.map Prod.fst).Nodup → (∀ e ∈ es, assocGet? e.1 q = none) →
      es.foldl (fun ps e => assocSet e.1 (P e) ps) q = q ++ es.map (fun e => (e.1, P e)) := by
  intro es
  induction es with
  | nil => intro q _ _; simp
  | cons e rest ih =>
    intro q hnd hq
    simp only [List.map_cons, List.nodup_cons] at hnd
    simp only [List.foldl_cons, List.map_cons]
    rw [assocSet_of_none e.1 (P e) q (hq e (by simp))]
    rw [ih _ hnd.2]
    · simp
    · intro e' he'
      apply assocGet?_append_singleton _ _ _ _ _ (hq e' (by simp [he']))
      intro heq
      exact hnd.1 (heq ▸ List.mem_map_of_mem Prod.fst he')

theorem fetchData_unfold (flag : Bool) (api : Api) (pathOptions routerOptions locals : JSValue)
    (hb : Builds pathOptions routerOptions) :
    fetchData flag api pathOptions routerOptions locals
      = (match (dispatchAll flag api (slugOf pathOptions) locals
            (queriesOf pathOptions routerOptions) [] []).2 with
         | .error e =>
           { calls := (dispatchAll flag api (slugOf pathOptions) locals
               (queriesOf pathOptions routerOptions) [] []).1, result := .error e }
         | .ok props =>
           { calls := (dispatchAll flag api (slugOf pathOptions) locals
               (queriesOf pathOptions routerOptions) [] []).1,
             result := .ok (thenFormat (orEmptyObject routerOptions) (promiseProps props)) }) :=
  fetchData_eq flag api pathOptions routerOptions locals hb

theorem fetchData_result_of_no_throw (flag : Bool) (api : Api)
    (pathOptions routerOptions locals : JSValue) (hreg : Regular pathOptions routerOptions)
    (hok : ∀ e ∈ queriesOf pathOptions routerOptions,
      ∃ p, (processQuery flag api e.2 (slugOf pathOptions) locals).result = .ok p) :
    (fetchData flag api pathOptions routerOptions locals).result
      = .ok (thenFormat (orEmptyObject routerOptions)
          (promiseProps ((queriesOf pathOptions routerOptions).foldl
            (fun ps e =>
              assocSet e.1 (processQuery flag api e.2 (slugOf pathOptions) locals).promise ps)
            []))) := by
  rw [fetchData_unfold flag api pathOptions routerOptions locals (builds_of_regular _ _ hreg),
    dispatchAll_ok flag api _ locals _ [] [] hok (regular_names pathOptions routerOptions _ hreg)]

theorem fetchData_calls_of_no_throw (flag : Bool) (api : Api)
    (pathOptions routerOptions locals : JSValue) (hb : Builds pathOptions routerOptions)
    (hok : ∀ e ∈ queriesOf pathOptions routerOptions,
      ∃ p, (processQuery flag api e.2 (slugOf pathOptions) locals).result = .ok p) :
    (fetchData flag api pathOptions routerOptions locals).calls
      = (queriesOf pathOptions routerOptions).flatMap
          (fun e => (processQuery flag api e.2 (slugOf pathOptions) locals).call.toList) := by
  rw [fetchData_calls flag api pathOptions routerOptions locals hb]
  have := dispatchAll_calls_of_ok flag api (slugOf pathOptions) locals
    (queriesOf pathOptions routerOptions) [] [] hok
  simpa using this

theorem buildCall_dispatched (flag : Bool) (q l : Props) (slugParam : JSValue)
    (harr : ∀ xs, propGet q "options" ≠ .array xs)
    (hnull : flag = true → propGet q "options" ≠ .null) :
    buildCall flag (.object q) slugParam (.object l)
      = .ok { apiVersion := propGet l "apiVersion"
              controller := orDefault (propGet q "controller") (.string "posts")
              type := orDefault (propGet q "type") (.string "browse")
              options := dispatchedOptions flag slugParam (propGet l "member")
                (orDefault (propGet q "options") (.object [])) } := by
  have hop := propGet_withDefaults_options q
  have hc := propGet_withDefaults_controller q
  have ht := propGet_withDefaults_type q
  cases hq : propGet q "options" with
  | array xs => exact absurd hq (harr xs)
  | object op =>
    rw [hq] at hop
    rw [buildCall_object flag q l op slugParam hop, hc, ht]
    rfl
  | undefined =>
    rw [hq] at hop
    rw [buildCall_object flag q l [] slugParam hop, hc, ht]
    rfl
  | null =>
    rw [hq] at hop
    cases flag with
    | true => exact absurd hq (hnull rfl)
    | false =>
      simp [buildCall, getProp, cloneDeep, defaultsDeep_queryDefaults, get_object, hop, hc, ht,
        replaceSlugs, eachEntries, orDefault, dispatchedOptions, bind, Except.bind, pure,
        Except.pure]
  | bool b =>
    rw [hq] at hop
    cases flag <;>
      simp [buildCall, getProp, cloneDeep, defaultsDeep_queryDefaults, get_object, hop, hc, ht,
        replaceSlugs, eachEntries, orDefault, dispatchedOptions, setProp, bind, Except.bind, pure,
        Except.pure]
  | number n =>
    rw [hq] at hop
    cases flag <;>
      simp [buildCall, getProp, cloneDeep, defaultsDeep_queryDefaults, get_object, hop, hc, ht,
        replaceSlugs, eachEntries, orDefault, dispatchedOptions, setProp, bind, Except.bind, pure,
        Except.pure]
  | string s =>
    rw [hq] at hop
    cases flag <;>
      simp [buildCall, getProp, cloneDeep, defaultsDeep_queryDefaults, get_object, hop, hc, ht,
        replaceSlugs, orDefault, dispatchedOptions, setProp, bind, Except.bind, pure,
        Except.pure]

/-- When lines 72-89 do not throw and the data can be walked, the primary
query is the one described and the entries are those of `_.each`. -/
theorem builds_of_ok (pathOptions routerOptions : JSValue)
    (hbuild : ∃ postQuery,
      buildPostQuery (orEmptyObject pathOptions) (orEmptyObject routerOptions) = .ok postQuery)
    (hwalk : ∃ entries,
      dataEntries ((orEmptyObject routerOptions).get "data") = .ok entries) :
    Builds pathOptions routerOptions := by
  obtain ⟨pq, hpq⟩ := hbuild
  obtain ⟨es, hes⟩ := hwalk
  refine ⟨?_, ?_⟩
  · rcases buildPostQuery_cases pathOptions routerOptions with h | ⟨e, h⟩
    · exact h
    · rw [h] at hpq
      cases hpq
  · rw [hes, dataEntries_ok _ es hes]

/-! ## Claims -/

/-- C1 (the code at a slug with a replacement pattern): with
`pathOptions = {slug: '$&'}` and `routerOptions = {filter: 'tag:%s'}` the
only API call is `posts.browse` with options `include`, `formats` and
`filter = 'tag:%s'`: the placeholder is not replaced by the slug, which the
documented replacement turns into `tag:$&`. -/
theorem fetchData_primary_dollar_slug :
    (fetchData false echoApi dollarPath (.object [("filter", .string "tag:%s")])
        sampleLocals).calls
      = [{ apiVersion := .string "v2", controller := .string "posts",
           type := .string "browse",
           options := .object [("include", .string "author,authors,tags"),
             ("formats", .string "html"), ("filter", .string "tag:%s")] }]
    ∧ substituteDocumented "$&" (.string "tag:%s") = .string "tag:$&" :=
  ⟨rfl, rfl⟩

/-- The example of the specification: `pathOptions = {page: 2, limit: 5}` and
`routerOptions = {filter: 'tag:news'}` give the options
`{include, formats, filter: 'tag:news', page: 2, limit: 5}`. -/
theorem fetchData_primary_example :
    (fetchData false echoApi (.object [("page", .number 2), ("limit", .number 5)])
        (.object [("filter", .string "tag:news")]) sampleLocals).calls
      = [{ apiVersion := .string "v2", controller := .string "posts",
           type := .string "browse",
           options := .object [("include", .string "author,authors,tags"),
             ("formats", .string "html"), ("filter", .string "tag:news"),
             ("page", .number 2), ("limit", .number 5)] }] :=
  rfl

/-- C2 (the code at a slug with a replacement pattern): the descriptor
`{options: {filter: 'tag:%s'}}` processed with the slug `$&` is sent to
`posts.browse` with `filter` still `tag:%s`, because `$&` in a replacement
string stands for the matched text; the documented result, the option split on
`%s` and joined with the slug, is `tag:$&`. -/
theorem processQuery_dollar_slug :
    (processQuery false echoApi
        (.object [("options", .object [("filter", .string "tag:%s")])])
        (.string "$&") sampleLocals).call
      = some { apiVersion := .string "v2", controller := .string "posts",
               type := .string "browse",
               options := .object [("filter", .string "tag:%s")] }
    ∧ substituteDocumented "$&" (.string "tag:%s") = .string "tag:$&" :=
  ⟨rfl, rfl⟩

/-- For a slug without a dollar sign and options walked by key, every
top-level option reaches the API as the documentation says: strings split on
`%s` and joined with the slug, other values unchanged. -/
theorem processQuery_options_no_dollar (api : Api) (q l op : Props) (slug : String) (m : Method)
    (hop : propGet (withDefaults q) "options" = .object op)
    (hlen : arrayLikeLength (propGet op "length") = none)
    (hslug : '$' ∉ slug.data)
    (hapi : api (propGet l "apiVersion") (propGet (withDefaults q) "controller")
      (propGet (withDefaults q) "type") = some m) :
    ∃ opts c,
      (processQuery false api (.object q) (.string slug) (.object l)).call = some c
      ∧ c.options = .object opts
      ∧ ∀ name, propGet opts name = substituteDocumented slug (propGet op name) := by
  refine ⟨substituteProps (.string slug) op, _,
    processQuery_object false api q l op (.string slug) m hop hapi, by simp, ?_⟩
  intro name
  rw [propGet_substituteProps _ _ _ hlen, substituteSlug_no_dollar slug hslug]

/-- C3 as stated fails when the flag is on and the descriptor supplies
`options: null`: defaulting keeps the `null`, line 56 assigns to a property of
`null` and throws a `TypeError`, and no API method is called. -/
theorem processQuery_null_options_throws :
    defaultsDeep (cloneDeep (.object [("options", .null)])) queryDefaults
      = .ok (.object [("options", .null), ("type", .string "browse"),
          ("resource", .string "posts"), ("controller", .string "posts")])
    ∧ (processQuery true echoApi (.object [("options", .null)]) (.string "tech")
        sampleLocals).call = none
    ∧ (processQuery true echoApi (.object [("options", .null)]) (.string "tech")
        sampleLocals).result = .error .typeError :=
  ⟨rfl, rfl, rfl⟩

/-- C3 amended: for every descriptor object `q`, defaulting against
`queryDefaults` succeeds; each of `type`, `resource`, `controller`, `options`
keeps the value `q` gives it and takes its default (`browse`, `posts`,
`posts`, `{}`) when `q` leaves it `undefined`; all four are defined
afterwards.  When the options are not an array, and not `null` with the flag
on, line 59 is reached with the defaulted controller and type and with the
options computed from the defaulted options (`{}` for a descriptor without
options, flag off); the method looked up is the one under the defaulted
controller and type, and it is called when the API has it. -/
theorem processQuery_applies_defaults (flag : Bool) (api : Api) (q l : Props)
    (slugParam : JSValue)
    (harr : ∀ xs, propGet q "options" ≠ .array xs)
    (hnull : flag = true → propGet q "options" ≠ .null) :
    ∃ q',
      defaultsDeep (cloneDeep (.object q)) queryDefaults = .ok (.object q')
      ∧ propGet q' "type" = orDefault (propGet q "type") (.string "browse")
      ∧ propGet q' "resource" = orDefault (propGet q "resource") (.string "posts")
      ∧ propGet q' "controller" = orDefault (propGet q "controller") (.string "posts")
      ∧ propGet q' "options" = orDefault (propGet q "options") (.object [])
      ∧ propGet q' "type" ≠ .undefined ∧ propGet q' "resource" ≠ .undefined
      ∧ propGet q' "controller" ≠ .undefined ∧ propGet q' "options" ≠ .undefined
      ∧ buildCall flag (.object q) slugParam (.object l)
          = .ok { apiVersion := propGet l "apiVersion"
                  controller := propGet q' "controller"
                  type := propGet q' "type"
                  options := dispatchedOptions flag slugParam (propGet l "member")
                    (propGet q' "options") }
      ∧ (propGet q "options" = .undefined →
          dispatchedOptions false slugParam (propGet l "member") (propGet q' "options")
            = .object [])
      ∧ (processQuery flag api (.object q) slugParam (.object l)).call
          = (api (propGet l "apiVersion") (propGet q' "controller") (propGet q' "type")).map
              (fun _ =>
                { apiVersion := propGet l "apiVersion"
                  controller := propGet q' "controller"
                  type := propGet q' "type"
                  options := dispatchedOptions flag slugParam (propGet l "member")
                    (propGet q' "options") }) := by
  have hb : buildCall flag (.object q) slugParam (.object l)
      = .ok { apiVersion := propGet l "apiVersion"
              controller := propGet (withDefaults q) "controller"
              type := propGet (withDefaults q) "type"
              options := dispatchedOptions flag slugParam (propGet l "member")
                (propGet (withDefaults q) "options") } := by
    rw [buildCall_dispatched flag q l slugParam harr hnull, propGet_withDefaults_controller,
      propGet_withDefaults_type, propGet_withDefaults_options]
  refine ⟨withDefaults q,
    defaultsDeep_queryDefaults q, propGet_withDefaults_type q,
    propGet_withDefaults_resource q, propGet_withDefaults_controller q,
    propGet_withDefaults_options q, ?_, ?_, ?_, ?_, hb, ?_, ?_⟩
  · rw [propGet_withDefaults_type]; exact orDefault_ne_undefined _ _ (by simp)
  · rw [propGet_withDefaults_resource]; exact orDefault_ne_undefined _ _ (by simp)
  · rw [propGet_withDefaults_controller]; exact orDefault_ne_undefined _ _ (by simp)
  · rw [propGet_withDefaults_options]; exact orDefault_ne_undefined _ _ (by simp)
  · intro hu
    rw [propGet_withDefaults_options, hu]
    rfl
  · unfold processQuery
    rw [hb]
    simp only
    cases api (propGet l "apiVersion") (propGet (withDefaults q) "controller")
      (propGet (withDefaults q) "type") <;> rfl

/-- C3 amended, at the empty descriptor `{}` with the flag off: all four
defaults apply and `posts.browse` is called with the options `{}`. -/
theorem processQuery_applies_defaults_witness :
    ∃ q',
      defaultsDeep (cloneDeep (.object [])) queryDefaults = .ok (.object q')
      ∧ propGet q' "type" = orDefault (propGet [] "type") (.string "browse")
      ∧ propGet q' "resource" = orDefault (propGet [] "resource") (.string "posts")
      ∧ propGet q' "controller" = orDefault (propGet [] "controller") (.string "posts")
      ∧ propGet q' "options" = orDefault (propGet [] "options") (.object [])
      ∧ propGet q' "type" ≠ .undefined ∧ propGet q' "resource" ≠ .undefined
      ∧ propGet q' "controller" ≠ .undefined ∧ propGet q' "options" ≠ .undefined
      ∧ buildCall false (.object []) .undefined (.object [("apiVersion", .string "v2")])
          = .ok { apiVersion := propGet [("apiVersion", .string "v2")] "apiVersion"
                  controller := propGet q' "controller"
                  type := propGet q' "type"
                  options := dispatchedOptions false .undefined
                    (propGet [("apiVersion", .string "v2")] "member") (propGet q' "options") }
      ∧ (propGet [] "options" = .undefined →
          dispatchedOptions false .undefined
            (propGet [("apiVersion", .string "v2")] "member") (propGet q' "options")
            = .object [])
      ∧ (processQuery false echoApi (.object []) .undefined
            (.object [("apiVersion", .string "v2")])).call
          = (echoApi (propGet [("apiVersion", .string "v2")] "apiVersion")
              (propGet q' "controller") (propGet q' "type")).map
              (fun _ =>
                { apiVersion := propGet [("apiVersion", .string "v2")] "apiVersion"
                  controller := propGet q' "controller"
                  type := propGet q' "type"
                  options := dispatchedOptions false .undefined
                    (propGet [("apiVersion", .string "v2")] "member")
                    (propGet q' "options") }) :=
  processQuery_applies_defaults false echoApi [] [("apiVersion", .string "v2")] .undefined
    (fun xs h => by cases h) (fun h => by cases h)

theorem indexOfKey_data (n : Nat) : indexOfKey "data" n = none := by
  unfold indexOfKey
  rw [List.find?_eq_none]
  intro i _
  simp only [decide_eq_true_eq]
  exact toString_nat_ne i "data" 'd' (by decide) (by decide)

/-- When `routerOptions.data` is an object, `routerOptions` is not an array
and the walk of the data is covered. -/
theorem regular_of_data (pathOptions routerOptions : JSValue) (dataProps : Props)
    (hdata : (orEmptyObject routerOptions).get "data" = .object dataProps)
    (hpath : ∀ p, orEmptyObject pathOptions = .object p → assocGet? "hasOwnProperty" p = none)
    (hnames : ∀ e ∈ eachEntries (.object dataProps), e.1 ≠ "__proto__") :
    Regular pathOptions routerOptions := by
  refine ⟨hpath, ?_, ?_, ?_⟩
  · intro xs h
    rw [h] at hdata
    simp [JSValue.get, indexOfKey_data] at hdata
  · intro s h
    rw [h] at hdata
    cases hdata
  · rw [hdata]
    exact hnames

/-- C4 as stated fails for an entry of `routerOptions.data` named
`__proto__`: the merge step (lines 101-116) reads `results['__proto__']`,
which is `Object.prototype`, takes its field `tags`, which is `undefined`, and
assigns it to `response.data['__proto__']`, which creates no property: the
`data` field of the response is `{}` and has no key for that entry. -/
theorem formatResponse_drops_proto_entry :
    eachEntries ((JSValue.object [("data", .object [("__proto__", tagQuery)])]).get "data")
      = [("__proto__", tagQuery)]
    ∧ formatResponse (.object [("data", .object [("__proto__", tagQuery)])])
        (.object [("posts", .object [("posts", .array [])])])
      = .ok (.object [("posts", .array []), ("data", .object [])]) :=
  ⟨rfl, rfl⟩

/-- C4 amended: when `routerOptions.data` is a map of descriptors that each
carry a `type` and a `resource`, none of them named `__proto__` and none that
is a read of a `resource` named like a member of `Object.prototype`, when
`pathOptions` has no own property `hasOwnProperty`, and every query resolves
to an object, `fetchData` resolves with a response whose `data` field is an
object with exactly the names of `routerOptions.data` as keys, and under each
name the whole result of that query when its type is `browse`, else the field
of the result named by the descriptor's `resource`. -/
theorem fetchData_data_field (flag : Bool) (api : Api)
    (pathOptions routerOptions locals : JSValue) (dataProps : Props)
    (hpath : ∀ p, orEmptyObject pathOptions = .object p → assocGet? "hasOwnProperty" p = none)
    (hdata : (orEmptyObject routerOptions).get "data" = .object dataProps)
    (hnames : "__proto__" ∉ assocKeys dataProps)
    (hdesc : ∀ e ∈ dataProps, ∃ q t rs, e.2 = JSValue.object q
      ∧ propGet q "type" = .string t ∧ propGet q "resource" = .string rs
      ∧ (t = "browse" ∨ rs ∉ objectPrototypeKeys))
    (hall : AllResolveToObjects flag api pathOptions routerOptions locals) :
    ∃ response d,
      (fetchData flag api pathOptions routerOptions locals).result = .ok (.fulfilled response)
      ∧ response.get "data" = .object d
      ∧ assocKeys d = assocKeys dataProps
      ∧ ∀ name q t rs v, name ∈ assocKeys dataProps →
          propGet dataProps name = .object q →
          propGet q "type" = .string t → propGet q "resource" = .string rs →
          (processQuery flag api (.object q) (slugOf pathOptions) locals).result
            = .ok (.fulfilled v) →
          propGet d name = if t = "browse" then v else v.get rs := by
  have hobjs : ∀ e ∈ dataProps, ∃ q, e.2 = JSValue.object q := by
    intro e he
    obtain ⟨q, _, _, hq, _⟩ := hdesc e he
    exact ⟨q, hq⟩
  have hentries := eachEntries_of_objects dataProps hobjs
  have hreg : Regular pathOptions routerOptions := by
    refine regular_of_data pathOptions routerOptions dataProps hdata hpath ?_
    rw [hentries]
    intro e he heq
    simp only [propEntries, List.mem_map] at he
    obtain ⟨k, hk, rfl⟩ := he
    exact hnames (heq ▸ hk)
  have hplain : PlainResources routerOptions := by
    intro e he
    rw [hdata, hentries] at he
    simp only [propEntries, List.mem_map] at he
    obtain ⟨k, hk, rfl⟩ := he
    obtain ⟨v, hv⟩ := Option.isSome_iff_exists.mp ((mem_assocKeys k dataProps).mp hk)
    obtain ⟨q, t, rs, hq, ht, hrs, hor⟩ := hdesc _ (mem_of_assocGet? k v dataProps hv)
    simp only at hq
    have hpk : propGet dataProps k = .object q := by simp [propGet, hv, hq]
    simp only [hpk, get_object, ht, hrs, strictEqualsString, toStr, decide_eq_true_eq]
    exact hor
  obtain ⟨base, hbase⟩ := resultsOf_object flag api pathOptions routerOptions locals hall "posts"
    (by simp [queriesOf, submittedQueries])
  refine ⟨_, mergedData (.object (resultsOf flag api (slugOf pathOptions) locals
      (queriesOf pathOptions routerOptions))) (propEntries dataProps),
    fetchData_result_of_objects flag api pathOptions routerOptions locals hreg hplain hall,
    ?_, ?_, ?_⟩
  · simp only [mergedResponse, get_object, hbase, hdata, toBoolean, if_true, propGet_assocSet,
      eachEntries_of_objects dataProps hobjs]
  · unfold mergedData propEntries
    rw [assocKeys_foldl_assocSet _ _ _ _ (assocKeys_nodup dataProps) (by simp [assocKeys])]
    simp [assocKeys]
  · intro name q t rs v hname hq ht hrs hv
    unfold mergedData propEntries
    rw [propGet_foldl_assocSet _ (propGet dataProps) name (assocKeys dataProps)]
    simp only [hname, if_true, mergedValue, hq, get_object, ht, hrs, strictEqualsString, toStr]
    rw [resultsOf_data_entry flag api pathOptions routerOptions locals dataProps hdata hobjs
      name hname, hq, queryValue_of_result flag api _ locals (name, .object q) v hv]
    by_cases hb : t = "browse" <;> simp [hb]

theorem taxonomyRouter_entries :
    eachEntries ((orEmptyObject taxonomyRouter).get "data")
      = [("tag", tagQuery), ("authors", authorsQuery)] := rfl

theorem taxonomy_queries :
    queriesOf techPath taxonomyRouter
      = [("posts", primaryQuery techPath taxonomyRouter), ("tag", tagQuery),
         ("authors", authorsQuery)] := rfl

theorem taxonomy_regular : Regular techPath taxonomyRouter := by
  refine ⟨?_, ?_, ?_, ?_⟩
  · intro p hp
    have h : JSValue.object [("slug", .string "tech")] = .object p := hp
    simp only [JSValue.object.injEq] at h
    rw [← h]
    rfl
  · intro xs h
    have h' : JSValue.object [("data", .object [("tag", tagQuery), ("authors", authorsQuery)])]
        = .array xs := h
    cases h'
  · intro s h
    have h' : JSValue.object [("tag", tagQuery), ("authors", authorsQuery)] = .string s := h
    cases h'
  · intro e he
    rw [taxonomyRouter_entries] at he
    simp only [List.mem_cons, List.mem_singleton, List.not_mem_nil, or_false] at he
    rcases he with rfl | rfl <;> decide

theorem taxonomy_plain : PlainResources taxonomyRouter := by
  intro e he
  rw [taxonomyRouter_entries] at he
  simp only [List.mem_cons, List.mem_singleton, List.not_mem_nil, or_false] at he
  rcases he with rfl | rfl
  · exact Or.inr (by decide)
  · exact Or.inl rfl

theorem taxonomy_all_resolve (flag : Bool) :
    AllResolveToObjects flag echoApi techPath taxonomyRouter sampleLocals := by
  intro e he
  rw [taxonomy_queries] at he
  simp only [List.mem_cons, List.mem_singleton, List.not_mem_nil, or_false] at he
  cases flag <;> rcases he with rfl | rfl | rfl <;> exact ⟨_, rfl⟩

/-- C4 amended, on the two examples of the specification: `data.tag` is the
`tags` field of the result of the read, `data.authors` the whole result of the
browse. -/
theorem fetchData_data_field_witness :
    ∃ response d,
      (fetchData false echoApi techPath taxonomyRouter sampleLocals).result
        = .ok (.fulfilled response)
      ∧ response.get "data" = .object d
      ∧ assocKeys d = assocKeys [("tag", tagQuery), ("authors", authorsQuery)]
      ∧ ∀ name q t rs v, name ∈ assocKeys [("tag", tagQuery), ("authors", authorsQuery)] →
          propGet [("tag", tagQuery), ("authors", authorsQuery)] name = .object q →
          propGet q "type" = .string t → propGet q "resource" = .string rs →
          (processQuery false echoApi (.object q) (slugOf techPath) sampleLocals).result
            = .ok (.fulfilled v) →
          propGet d name = if t = "browse" then v else v.get rs :=
  fetchData_data_field false echoApi techPath taxonomyRouter sampleLocals
    [("tag", tagQuery), ("authors", authorsQuery)]
    (by
      intro p hp
      have : p = [("slug", .string "tech")] := by
        simpa [techPath, orEmptyObject, toBoolean] using hp.symm
      rw [this]
      rfl)
    rfl (by decide)
    (by
      intro e he
      simp only [List.mem_cons, List.mem_singleton, List.not_mem_nil, or_false] at he
      rcases he with rfl | rfl
      · exact ⟨_, "read", "tags", rfl, rfl, rfl, Or.inr (by decide)⟩
      · exact ⟨_, "browse", "authors", rfl, rfl, rfl, Or.inl rfl⟩)
    (taxonomy_all_resolve false)

/-- C5 (the code when the data map uses the name `posts`): with
`routerOptions.data = {posts: {type: 'read', resource: 'tags', controller:
'tags'}}` two queries are dispatched, `posts.browse` and `tags.read`; the
promise of `posts.browse` rejects with the error `posts failed`, and
`fetchData` nevertheless resolves, because the promise stored under `posts`
was overwritten by the one of `tags.read`. -/
theorem fetchData_swallows_primary_rejection :
    (fetchData false failingPostsApi .undefined postsNamedRouter sampleLocals).calls.map
        (fun c => (c.controller, c.type))
      = [(.string "posts", .string "browse"), (.string "tags", .string "read")]
    ∧ (processQuery false failingPostsApi (primaryQuery .undefined postsNamedRouter)
        (slugOf .undefined) sampleLocals).result
      = .ok (.rejected 0 (.raised (.string "posts failed")))
    ∧ (fetchData false failingPostsApi .undefined postsNamedRouter sampleLocals).result
      = .ok (.fulfilled (.object
          [("controller", .string "tags"), ("type", .string "read"), ("options", .object []),
           ("posts", .array []), ("tags", .string "tag record"),
           ("authors", .string "author list"),
           ("data", .object [("posts", .string "tag record")])])) :=
  ⟨rfl, rfl, rfl⟩

/-- C6 as stated fails for a descriptor whose options are a primitive: with
the flag on and the data entry `{type: 'read', resource: 'tags', controller:
'tags', options: 5}`, the assignment of line 56 goes to a property of the
number `5` and is ignored, and `tags.read` is called with the options `5`,
which have no `context`; the primary query carries the member. -/
theorem fetchData_primitive_options_no_context :
    (fetchData true echoApi .undefined
        (.object [("data", .object [("tag", .object [("type", .string "read"),
          ("resource", .string "tags"), ("controller", .string "tags"),
          ("options", .number 5)])])])
        sampleLocals).calls
      = [{ apiVersion := .string "v2", controller := .string "posts", type := .string "browse",
           options := .object [("include", .string "author,authors,tags"),
             ("formats", .string "html"),
             ("context", .object [("member", .object [("id", .string "m1")])])] },
         { apiVersion := .string "v2", controller := .string "tags", type := .string "read",
           options := .number 5 }]
    ∧ (JSValue.number 5).get "context" = .undefined :=
  ⟨rfl, rfl⟩

/-- C6 amended: with the flag on, every API call of `fetchData` has
`options.context = {member: locals.member}`, for router data whose
descriptors are objects with `options` absent or an object; with the flag
off, the call `processQuery` makes for a descriptor with an options object
has a `context` property exactly when the descriptor's options have one, and
a context that is not a string reaches the API unchanged. -/
theorem fetchData_member_context (api : Api) (pathOptions routerOptions locals : JSValue)
    (hdesc : ∀ e ∈ eachEntries ((orEmptyObject routerOptions).get "data"),
      ∃ q, e.2 = JSValue.object q
        ∧ (propGet q "options" = .undefined ∨ ∃ op, propGet q "options" = .object op)) :
    (∀ call ∈ (fetchData true api pathOptions routerOptions locals).calls,
      call.options.get "context" = .object [("member", locals.get "member")])
    ∧ (∀ (q op : Props) (slugParam : JSValue) (call : Call),
        propGet q "options" = .object op →
        (processQuery false api (.object q) slugParam locals).call = some call →
        hasOwnProperty call.options "context" = hasOwnProperty (.object op) "context"
        ∧ (isString (propGet op "context") = false →
            call.options.get "context" = propGet op "context")) := by
  constructor
  · intro call hcall
    obtain ⟨e, he, hc⟩ := fetchData_calls_mem true api pathOptions routerOptions locals call hcall
    have hb := processQuery_call_buildCall true api e.2 (slugOf pathOptions) locals call hc
    simp only [queriesOf, submittedQueries, List.mem_cons] at he
    rcases he with he | he
    · obtain ⟨q, hq, hop⟩ := primaryQuery_options pathOptions routerOptions
      rw [he] at hb
      simp only [hq] at hb
      exact buildCall_context_on q _ _ locals call hop hb
    · obtain ⟨q, hq, hopt⟩ := hdesc e he
      obtain ⟨op, hop⟩ := options_of_withDefaults q hopt
      rw [hq] at hb
      exact buildCall_context_on q op _ locals call hop hb
  · intro q op slugParam call hq hc
    have hb := processQuery_call_buildCall false api (.object q) slugParam locals call hc
    have hop : propGet (withDefaults q) "options" = .object op := by
      rw [propGet_withDefaults_options, hq]; rfl
    exact buildCall_context_off q op slugParam locals call hop hb

/-- C6 amended, on the example of the specification: flag on and
`locals.member = {id: 'm1'}`; the three calls made for the taxonomy route all
carry the member. -/
theorem fetchData_member_context_witness :
    (fetchData true echoApi techPath taxonomyRouter sampleLocals).calls.length = 3
    ∧ (∀ call ∈ (fetchData true echoApi techPath taxonomyRouter sampleLocals).calls,
        call.options.get "context"
          = .object [("member", .object [("id", .string "m1")])])
    ∧ (∀ (q op : Props) (slugParam : JSValue) (call : Call),
        propGet q "options" = .object op →
        (processQuery false echoApi (.object q) slugParam sampleLocals).call = some call →
        hasOwnProperty call.options "context" = hasOwnProperty (.object op) "context"
        ∧ (isString (propGet op "context") = false →
            call.options.get "context" = propGet op "context")) :=
  ⟨rfl,
   fetchData_member_context echoApi techPath taxonomyRouter sampleLocals (by
      intro e he
      rw [taxonomyRouter_entries] at he
      simp only [List.mem_cons, List.mem_singleton, List.not_mem_nil, or_false] at he
      rcases he with rfl | rfl
      · exact ⟨_, rfl, Or.inr ⟨_, rfl⟩⟩
      · exact ⟨_, rfl, Or.inl rfl⟩)⟩

/-- C7 (the code at a slug with a replacement pattern): with
`pathOptions.slug = '$&'` the descriptor `{type: 'read', resource: 'tags',
controller: 'tags', options: {slug: '%s'}}` is sent to `tags.read` with
`options.slug` still `%s`, where the documented replacement gives `$&`; with
the slug `tech` the same descriptor is sent with `options.slug = 'tech'`. -/
theorem fetchData_auxiliary_dollar_slug :
    (fetchData false echoApi dollarPath (.object [("data", .object [("tag", tagQuery)])])
        sampleLocals).calls.getLast?
      = some { apiVersion := .string "v2", controller := .string "tags",
               type := .string "read", options := .object [("slug", .string "%s")] }
    ∧ substituteDocumented "$&" (.string "%s") = .string "$&"
    ∧ (fetchData false echoApi techPath (.object [("data", .object [("tag", tagQuery)])])
        sampleLocals).calls.getLast?
      = some { apiVersion := .string "v2", controller := .string "tags",
               type := .string "read", options := .object [("slug", .string "tech")] } :=
  ⟨rfl, rfl, rfl⟩

/-- C8 (the code when the data map uses the name `posts`): with
`routerOptions.data = {posts: {type: 'read', resource: 'tags', controller:
'tags'}}` the primary query resolves to the `posts.browse` envelope, yet the
response carries the fields of the `tags.read` envelope: its `controller`
field is `tags` where the primary result has `posts`. -/
theorem fetchData_response_on_shadowed_posts :
    (processQuery false echoApi (primaryQuery .undefined postsNamedRouter)
        (slugOf .undefined) sampleLocals).result
      = .ok (.fulfilled (.object
          [("controller", .string "posts"), ("type", .string "browse"),
           ("options", .object [("include", .string "author,authors,tags"),
             ("formats", .string "html")]),
           ("posts", .array []), ("tags", .string "tag record"),
           ("authors", .string "author list")]))
    ∧ (fetchData false echoApi .undefined postsNamedRouter sampleLocals).result
      = .ok (.fulfilled (.object
          [("controller", .string "tags"), ("type", .string "read"), ("options", .object []),
           ("posts", .array []), ("tags", .string "tag record"),
           ("authors", .string "author list"),
           ("data", .object [("posts", .string "tag record")])])) :=
  ⟨rfl, rfl⟩

/-- C9 (the code at a descriptor without a type): the descriptor
`{resource: 'authors', controller: 'users'}` is dispatched to `users.browse`,
like the descriptor with `type: 'browse'` filled in, but the merge stores
under `authors` only the `authors` field of the result, where for the
filled-in descriptor it stores the whole result. -/
theorem fetchData_merge_ignores_default_type :
    ((fetchData false echoApi .undefined
        (.object [("data", .object [("authors", authorsQueryNoType)])]) sampleLocals).calls.map
          (fun c => (c.controller, c.type))
      = [(.string "posts", .string "browse"), (.string "users", .string "browse")])
    ∧ (∃ response,
        (fetchData false echoApi .undefined
          (.object [("data", .object [("authors", authorsQueryNoType)])]) sampleLocals).result
          = .ok (.fulfilled response)
        ∧ (response.get "data").get "authors" = .string "author list")
    ∧ (∃ response,
        (fetchData false echoApi .undefined
          (.object [("data", .object [("authors", authorsQuery)])]) sampleLocals).result
          = .ok (.fulfilled response)
        ∧ (response.get "data").get "authors"
          = .object [("controller", .string "users"), ("type", .string "browse"),
              ("options", .object []), ("posts", .array []), ("tags", .string "tag record"),
              ("authors", .string "author list")]) :=
  ⟨rfl, ⟨_, rfl, rfl⟩, ⟨_, rfl, rfl⟩⟩

/-- C10 as stated fails: there are an API and arguments for which every
dispatched query resolves (here to `null`) and `fetchData` does not resolve:
with `routerOptions.data = {}` the merge assigns `data` on `null` and the
promise rejects with a `TypeError`. -/
theorem fetchData_merge_can_fail :
    ¬ (∀ (flag : Bool) (api : Api) (pathOptions routerOptions locals : JSValue),
        AllResolve flag api pathOptions routerOptions locals →
        ∃ response, (fetchData flag api pathOptions routerOptions locals).result
          = .ok (.fulfilled response)) := by
  intro h
  have hall : AllResolve false nullApi .undefined (.object [("data", .object [])])
      sampleLocals := by
    intro e he
    have hq : queriesOf .undefined (.object [("data", .object [])])
        = [("posts", primaryQuery .undefined (.object [("data", .object [])]))] := rfl
    rw [hq] at he
    simp only [List.mem_singleton] at he
    subst he
    exact ⟨.null, rfl⟩
  obtain ⟨response, hr⟩ := h false nullApi .undefined (.object [("data", .object [])])
    sampleLocals hall
  have hrun : (fetchData false nullApi .undefined (.object [("data", .object [])])
      sampleLocals).result = .ok (.rejected .typeError) := rfl
  rw [hrun] at hr
  cases hr

/-- C10 amended: whenever lines 72-89 run to the end (`pathOptions` has no
own property `hasOwnProperty`, so that the calls of lines 83 and 87 do not
throw), the arguments are covered by the embedding (`routerOptions` is not an
array, `routerOptions.data` is not a string with a character beyond U+FFFF
and has no entry named `__proto__`, and no read query names a `resource` like
a member of `Object.prototype`), and every dispatched query resolves to an
object, `fetchData` resolves, and it resolves with the merged response: the
result of the query stored under `posts`, with `data` assigned when
`routerOptions.data` is truthy. -/
theorem fetchData_resolves_when_objects (flag : Bool) (api : Api)
    (pathOptions routerOptions locals : JSValue)
    (hreg : Regular pathOptions routerOptions) (hplain : PlainResources routerOptions)
    (hall : AllResolveToObjects flag api pathOptions routerOptions locals) :
    ∃ base,
      propGet (resultsOf flag api (slugOf pathOptions) locals
        (queriesOf pathOptions routerOptions)) "posts" = .object base
      ∧ (fetchData flag api pathOptions routerOptions locals).result
        = .ok (.fulfilled
            (if toBoolean ((orEmptyObject routerOptions).get "data") then
              .object (assocSet "data"
                (.object (mergedData
                  (.object (resultsOf flag api (slugOf pathOptions) locals
                    (queriesOf pathOptions routerOptions)))
                  (eachEntries ((orEmptyObject routerOptions).get "data")))) base)
             else .object base)) := by
  obtain ⟨base, hbase⟩ := resultsOf_object flag api pathOptions routerOptions locals hall "posts"
    (by simp [queriesOf, submittedQueries])
  refine ⟨base, hbase, ?_⟩
  rw [fetchData_result_of_objects flag api pathOptions routerOptions locals hreg hplain hall]
  simp only [mergedResponse, get_object, hbase]

/-- C10 amended, on the taxonomy route: every query resolves to an object and `fetchData` resolves. -/
theorem fetchData_resolves_when_objects_witness :
    Regular techPath taxonomyRouter ∧ PlainResources taxonomyRouter
    ∧ AllResolveToObjects false echoApi techPath taxonomyRouter sampleLocals
    ∧ ∃ base,
      propGet (resultsOf false echoApi (slugOf techPath) sampleLocals
        (queriesOf techPath taxonomyRouter)) "posts" = .object base
      ∧ (fetchData false echoApi techPath taxonomyRouter sampleLocals).result
        = .ok (.fulfilled
            (if toBoolean ((orEmptyObject taxonomyRouter).get "data") then
              .object (assocSet "data"
                (.object (mergedData
                  (.object (resultsOf false echoApi (slugOf techPath) sampleLocals
                    (queriesOf techPath taxonomyRouter)))
                  (eachEntries ((orEmptyObject taxonomyRouter).get "data")))) base)
             else .object base)) :=
  ⟨taxonomy_regular, taxonomy_plain, taxonomy_all_resolve false,
   fetchData_resolves_when_objects false echoApi techPath taxonomyRouter sampleLocals
    taxonomy_regular taxonomy_plain (taxonomy_all_resolve false)⟩

/-! ## What holds next to the failing claims -/

/-- Next to C5: when no two queries share a key (no entry of
`routerOptions.data` is named `posts`), lines 72-89 run to the end, the
arguments are covered and no call throws, a rejecting query makes `fetchData`
reject, with the reason of a query that rejects. -/
theorem fetchData_rejects_with_query_error (flag : Bool) (api : Api)
    (pathOptions routerOptions locals : JSValue) (hreg : Regular pathOptions routerOptions)
    (hkeys : ((queriesOf pathOptions routerOptions).map Prod.fst).Nodup)
    (hok : ∀ e ∈ queriesOf pathOptions routerOptions,
      ∃ p, (processQuery flag api e.2 (slugOf pathOptions) locals).result = .ok p)
    (e : String × JSValue) (he : e ∈ queriesOf pathOptions routerOptions)
    (t : Nat) (reason : Abort)
    (hrej : (processQuery flag api e.2 (slugOf pathOptions) locals).result
      = .ok (.rejected t reason)) :
    ∃ e' ∈ queriesOf pathOptions routerOptions, ∃ t' reason',
      (processQuery flag api e'.2 (slugOf pathOptions) locals).result
        = .ok (.rejected t' reason')
      ∧ (fetchData flag api pathOptions routerOptions locals).result
        = .ok (.rejected reason') := by
  rw [fetchData_result_of_no_throw flag api pathOptions routerOptions locals hreg hok]
  rw [foldl_assocSet_nodup _ _ [] hkeys (fun _ _ => rfl)]
  simp only [List.nil_append]
  have hmem : (e.1, Promise.rejected t reason) ∈ (queriesOf pathOptions routerOptions).map
      (fun e => (e.1, (processQuery flag api e.2 (slugOf pathOptions) locals).promise)) := by
    refine List.mem_map.mpr ⟨e, he, ?_⟩
    simp [Dispatch.promise, hrej]
  have hsome := firstRejection_isSome _ _ _ _ hmem
  cases hfr : firstRejection ((queriesOf pathOptions routerOptions).map
      (fun e => (e.1, (processQuery flag api e.2 (slugOf pathOptions) locals).promise))) with
  | none => simp [hfr] at hsome
  | some x =>
    obtain ⟨t', reason'⟩ := x
    obtain ⟨name, hn⟩ := firstRejection_mem _ _ _ hfr
    obtain ⟨e', he', heq⟩ := List.mem_map.mp hn
    obtain ⟨p, hp⟩ := hok e' he'
    simp only [Dispatch.promise, hp, Prod.mk.injEq] at heq
    refine ⟨e', he', t', reason', by rw [hp, heq.2], ?_⟩
    simp only [promiseProps, hfr, thenFormat]

/-- Next to C8: when no entry of `routerOptions.data` is named `posts`,
lines 72-89 run to the end, the arguments are covered and every query
resolves to an object, the response carries every field of the primary result
other than `data`, and is the primary result when `routerOptions.data` is not
truthy. -/
theorem fetchData_response_on_primary (flag : Bool) (api : Api)
    (pathOptions routerOptions locals : JSValue)
    (hreg : Regular pathOptions routerOptions) (hplain : PlainResources routerOptions)
    (hall : AllResolveToObjects flag api pathOptions routerOptions locals)
    (hname : "posts" ∉ (eachEntries ((orEmptyObject routerOptions).get "data")).map Prod.fst) :
    ∃ base response,
      (processQuery flag api (primaryQuery pathOptions routerOptions) (slugOf pathOptions)
        locals).result = .ok (.fulfilled (.object base))
      ∧ (fetchData flag api pathOptions routerOptions locals).result = .ok (.fulfilled response)
      ∧ (∀ k, k ≠ "data" → response.get k = propGet base k)
      ∧ (toBoolean ((orEmptyObject routerOptions).get "data") = false →
          response = .object base) := by
  obtain ⟨base, hbase⟩ := hall ("posts", primaryQuery pathOptions routerOptions)
    (by simp [queriesOf, submittedQueries])
  have hposts : propGet (resultsOf flag api (slugOf pathOptions) locals
      (queriesOf pathOptions routerOptions)) "posts" = .object base := by
    unfold resultsOf queriesOf submittedQueries
    simp only [List.foldl_cons]
    rw [propGet_foldl_not_mem _ "posts" _ _ hname, propGet_assocSet]
    simp only [if_true]
    exact queryValue_of_result flag api _ locals ("posts", _) _ hbase
  refine ⟨base, _, hbase,
    fetchData_result_of_objects flag api pathOptions routerOptions locals hreg hplain hall,
    ?_, ?_⟩
  · intro k hk
    simp only [mergedResponse, get_object, hposts]
    split
    · simp only [get_object, propGet_assocSet, hk, if_false]
    · rfl
  · intro hfalse
    simp only [mergedResponse, get_object, hposts, hfalse, Bool.false_eq_true, if_false]

/-- Next to C7: when lines 72-89 run to the end and no call throws, the query of an entry of
`routerOptions.data` that is a descriptor object with an options object goes
to the descriptor's controller and type (the defaults where it leaves them
out) with the options after the substitution loop, run with
`pathOptions.slug`. -/
theorem fetchData_auxiliary_call (api : Api) (pathOptions routerOptions : JSValue)
    (l q op : Props) (name : String) (m : Method) (hb : Builds pathOptions routerOptions)
    (hok : ∀ e ∈ queriesOf pathOptions routerOptions,
      ∃ p, (processQuery false api e.2 (slugOf pathOptions) (.object l)).result = .ok p)
    (hentry : (name, JSValue.object q) ∈ eachEntries ((orEmptyObject routerOptions).get "data"))
    (hop : propGet (withDefaults q) "options" = .object op)
    (hapi : api (propGet l "apiVersion") (propGet (withDefaults q) "controller")
      (propGet (withDefaults q) "type") = some m) :
    { apiVersion := propGet l "apiVersion"
      controller := orDefault (propGet q "controller") (.string "posts")
      type := orDefault (propGet q "type") (.string "browse")
      options := .object (substituteProps (slugOf pathOptions) op) }
      ∈ (fetchData false api pathOptions routerOptions (.object l)).calls := by
  rw [fetchData_calls_of_no_throw false api pathOptions routerOptions (.object l) hb hok]
  refine List.mem_flatMap.mpr ⟨(name, .object q), ?_, ?_⟩
  · simp [queriesOf, submittedQueries, hentry]
  · have := processQuery_object false api q l op (slugOf pathOptions) m hop hapi
    simp only [this, Bool.false_eq_true, if_false, Option.toList, List.mem_singleton,
      propGet_withDefaults_controller, propGet_withDefaults_type]

/-- Next to C1: when lines 72-89 run to the end, for a slug that is a string
without a dollar sign, the primary query reaches `posts.browse` with the default options overlaid with
`filter`, `order`, `page` and `limit`, every string split on `%s` and joined
with the slug, and with no other key. -/
theorem fetchData_primary_call_no_dollar (api : Api) (pathOptions routerOptions : JSValue)
    (l : Props) (m : Method) (slug : String) (hb : Builds pathOptions routerOptions)
    (hslug : slugOf pathOptions = .string slug) (hdollar : '$' ∉ slug.data)
    (hapi : api (propGet l "apiVersion") (.string "posts") (.string "browse") = some m) :
    (fetchData false api pathOptions routerOptions (.object l)).calls.head?
      = some { apiVersion := propGet l "apiVersion"
               controller := .string "posts"
               type := .string "browse"
               options := .object
                 ((primaryOptions (orEmptyObject pathOptions) (orEmptyObject routerOptions)).map
                   (fun entry => (entry.1, substituteDocumented slug entry.2))) } := by
  rw [fetchData_primary_call api pathOptions routerOptions l m hb hapi]
  have hs : (orEmptyObject pathOptions).get "slug" = .string slug := hslug
  simp only [hs, substituteSlug_no_dollar slug hdollar]

/-- Next to C2 and C7: for a slug without a dollar sign, the substitution
loop leaves in every property of an options object walked by key the
documented value. -/
theorem substituteProps_documented (slug : String) (op : Props) (name : String)
    (hdollar : '$' ∉ slug.data) (hlen : arrayLikeLength (propGet op "length") = none) :
    propGet (substituteProps (.string slug) op) name
      = substituteDocumented slug (propGet op name) := by
  rw [propGet_substituteProps _ _ _ hlen, substituteSlug_no_dollar slug hdollar]

/-! ## Idempotence of the defaulting -/

theorem applyDefault_of_defined (key : String) (d : JSValue) (p : Props)
    (h : propGet p key ≠ .undefined) : applyDefault key d p = p := by
  unfold applyDefault
  cases hg : propGet p key <;> simp_all

theorem withDefaults_idempotent (q : Props) : withDefaults (withDefaults q) = withDefaults q := by
  have ht : propGet (withDefaults q) "type" ≠ .undefined := by
    rw [propGet_withDefaults_type]; exact orDefault_ne_undefined _ _ (by simp)
  have hr : propGet (withDefaults q) "resource" ≠ .undefined := by
    rw [propGet_withDefaults_resource]; exact orDefault_ne_undefined _ _ (by simp)
  have hc : propGet (withDefaults q) "controller" ≠ .undefined := by
    rw [propGet_withDefaults_controller]; exact orDefault_ne_undefined _ _ (by simp)
  have ho : propGet (withDefaults q) "options" ≠ .undefined := by
    rw [propGet_withDefaults_options]; exact orDefault_ne_undefined _ _ (by simp)
  have h1 : applyDefault "type" (.string "browse") (withDefaults q) = withDefaults q :=
    applyDefault_of_defined _ _ _ ht
  have h2 : applyDefault "resource" (.string "posts") (withDefaults q) = withDefaults q :=
    applyDefault_of_defined _ _ _ hr
  have h3 : applyDefault "controller" (.string "posts") (withDefaults q) = withDefaults q :=
    applyDefault_of_defined _ _ _ hc
  have h4 : applyDefault "options" (.object []) (withDefaults q) = withDefaults q :=
    applyDefault_of_defined _ _ _ ho
  have hdef : ∀ p, withDefaults p = applyDefault "options" (.object [])
      (applyDefault "controller" (.string "posts")
        (applyDefault "resource" (.string "posts")
          (applyDefault "type" (.string "browse") p))) := fun _ => rfl
  rw [hdef (withDefaults q), h1, h2, h3, h4]

/-- The defaulting is idempotent on every value it accepts, primitives included. -/
theorem defaultsDeep_idempotent_value (v d : JSValue)
    (h : defaultsDeep (cloneDeep v) queryDefaults = .ok d) :
    defaultsDeep (cloneDeep d) queryDefaults = .ok d := by
  cases v with
  | object q =>
    simp only [cloneDeep, defaultsDeep_queryDefaults, Except.ok.injEq] at h
    subst h
    simp only [cloneDeep, defaultsDeep_queryDefaults, withDefaults_idempotent]
  | array xs => simp [cloneDeep, defaultsDeep, queryDefaults] at h
  | undefined => simp only [cloneDeep, defaultsDeep, Except.ok.injEq] at h; subst h; rfl
  | null => simp only [cloneDeep, defaultsDeep, Except.ok.injEq] at h; subst h; rfl
  | bool b => simp only [cloneDeep, defaultsDeep, Except.ok.injEq] at h; subst h; rfl
  | number n => simp only [cloneDeep, defaultsDeep, Except.ok.injEq] at h; subst h; rfl
  | string s => simp only [cloneDeep, defaultsDeep, Except.ok.injEq] at h; subst h; rfl

/-- C11: for every descriptor object `q`, the default-merge `D` of
`processQuery` (a deep copy, then `_.defaultsDeep` against `queryDefaults`)
succeeds and `D(D(q)) = D(q)`; and the default post query, with its options
`include` and `formats`, is left as it is by `D`. -/
theorem defaulting_idempotent (q : Props) :
    ∃ d, defaultsDeep (cloneDeep (.object q)) queryDefaults = .ok (.object d)
      ∧ defaultsDeep (cloneDeep (.object d)) queryDefaults = .ok (.object d)
      ∧ defaultsDeep (cloneDeep defaultPostQuery) queryDefaults = .ok defaultPostQuery
      ∧ defaultPostQuery.get "options"
          = .object [("include", .string "author,authors,tags"), ("formats", .string "html")] :=
  ⟨withDefaults q, defaultsDeep_queryDefaults q,
    by simp only [cloneDeep, defaultsDeep_queryDefaults, withDefaults_idempotent],
    rfl, rfl⟩

/-! ## The number of API calls -/

theorem processQuery_call_of_ok (flag : Bool) (api : Api) (query slugParam locals : JSValue)
    (p : Promise) (h : (processQuery flag api query slugParam locals).result = .ok p) :
    ∃ c, (processQuery flag api query slugParam locals).call = some c := by
  unfold processQuery at h ⊢
  cases hb : buildCall flag query slugParam locals with
  | error err => simp [hb] at h
  | ok c =>
    simp only [hb] at h ⊢
    cases ha : api c.apiVersion c.controller c.type with
    | none => simp [ha] at h
    | some m => exact ⟨c, by simp⟩

theorem flatMap_toList_of_some {α β : Type} (f : α → Option β) :
    ∀ (l : List α), (∀ x ∈ l, ∃ y, f x = some y) →
      (l.flatMap (fun x => (f x).toList)).map some = l.map f := by
  intro l
  induction l with
  | nil => intro _; rfl
  | cons x rest ih =>
    intro h
    obtain ⟨y, hy⟩ := h x (by simp)
    simp only [List.flatMap_cons, List.map_append, List.map_cons]
    rw [ih (fun x' hx' => h x' (by simp [hx'])), hy]
    rfl

/-- C13 as stated fails: against an API that has the controller `posts`
only, `fetchData` with the two data entries `tag` and `authors` makes one API
call, not three: looking up the method of the `tags` controller throws a
`TypeError`, which ends the loop before the `authors` query is dispatched. -/
theorem fetchData_stops_at_throw :
    (fetchData false postsOnlyApi techPath taxonomyRouter sampleLocals).calls.map
        (fun c => (c.controller, c.type)) = [(.string "posts", .string "browse")]
    ∧ 1 + (eachEntries ((orEmptyObject taxonomyRouter).get "data")).length = 3
    ∧ (fetchData false postsOnlyApi techPath taxonomyRouter sampleLocals).result
        = .error .typeError :=
  ⟨rfl, rfl, rfl⟩

/-- C13 amended: when lines 72-89 run to the end (in particular the calls
`pathOptions.hasOwnProperty(...)` of lines 83 and 87 do not throw), the
entries of `routerOptions.data` can be walked, and no run of `processQuery`
throws, `fetchData` makes exactly one API call per query, in order: the
primary query first, then one call per entry of `routerOptions.data`,
`1 + |data|` calls in all, whatever promises the calls return (rejected and
pending ones included). -/
theorem fetchData_calls_one_per_query (flag : Bool) (api : Api)
    (pathOptions routerOptions locals : JSValue)
    (hbuild : ∃ postQuery,
      buildPostQuery (orEmptyObject pathOptions) (orEmptyObject routerOptions) = .ok postQuery)
    (hwalk : ∃ entries,
      dataEntries ((orEmptyObject routerOptions).get "data") = .ok entries)
    (hok : ∀ e ∈ queriesOf pathOptions routerOptions,
      ∃ p, (processQuery flag api e.2 (slugOf pathOptions) locals).result = .ok p) :
    (fetchData flag api pathOptions routerOptions locals).calls.length
        = 1 + (eachEntries ((orEmptyObject routerOptions).get "data")).length
    ∧ (fetchData flag api pathOptions routerOptions locals).calls.map some
        = (queriesOf pathOptions routerOptions).map
            (fun e => (processQuery flag api e.2 (slugOf pathOptions) locals).call)
    ∧ (queriesOf pathOptions routerOptions).map Prod.snd
        = primaryQuery pathOptions routerOptions
            :: (eachEntries ((orEmptyObject routerOptions).get "data")).map Prod.snd := by
  have hmap : (fetchData flag api pathOptions routerOptions locals).calls.map some
      = (queriesOf pathOptions routerOptions).map
          (fun e => (processQuery flag api e.2 (slugOf pathOptions) locals).call) := by
    rw [fetchData_calls_of_no_throw flag api pathOptions routerOptions locals
      (builds_of_ok pathOptions routerOptions hbuild hwalk) hok]
    exact flatMap_toList_of_some _ _ (fun e he => by
      obtain ⟨p, hp⟩ := hok e he
      exact processQuery_call_of_ok flag api e.2 _ locals p hp)
  refine ⟨?_, hmap, rfl⟩
  have hlen := congrArg List.length hmap
  simp only [List.length_map] at hlen
  rw [hlen]
  simp [queriesOf, submittedQueries, Nat.add_comm]

theorem taxonomy_queries_return_failing :
    ∀ e ∈ queriesOf techPath taxonomyRouter,
      ∃ p, (processQuery false failingPostsApi e.2 (slugOf techPath) sampleLocals).result
        = .ok p := by
  intro e he
  rw [taxonomy_queries] at he
  simp only [List.mem_cons, List.mem_singleton, List.not_mem_nil, or_false] at he
  rcases he with rfl | rfl | rfl <;> exact ⟨_, rfl⟩

/-- C13 amended, on the taxonomy route against an API whose `posts.browse`
returns a rejected promise: the two data queries are dispatched all the same. -/
theorem fetchData_calls_one_per_query_witness :
    (processQuery false failingPostsApi (primaryQuery techPath taxonomyRouter)
        (slugOf techPath) sampleLocals).result
      = .ok (.rejected 0 (.raised (.string "posts failed")))
    ∧ (fetchData false failingPostsApi techPath taxonomyRouter sampleLocals).calls.length
        = 1 + (eachEntries ((orEmptyObject taxonomyRouter).get "data")).length
    ∧ (fetchData false failingPostsApi techPath taxonomyRouter sampleLocals).calls.map some
        = (queriesOf techPath taxonomyRouter).map
            (fun e => (processQuery false failingPostsApi e.2 (slugOf techPath)
              sampleLocals).call)
    ∧ (queriesOf techPath taxonomyRouter).map Prod.snd
        = primaryQuery techPath taxonomyRouter
            :: (eachEntries ((orEmptyObject taxonomyRouter).get "data")).map Prod.snd :=
  ⟨rfl, fetchData_calls_one_per_query false failingPostsApi techPath taxonomyRouter
    sampleLocals ⟨_, rfl⟩ ⟨_, rfl⟩ taxonomy_queries_return_failing⟩

/-! ## Options without a placeholder -/

theorem replaceScan_no_placeholder (replacement : List Char) :
    ∀ (n : Nat) (s before : List Char), s.length ≤ n → containsPlaceholder s = false →
      replaceScan replacement before s = s := by
  intro n
  induction n with
  | zero =>
    intro s before hs _
    have : s = [] := List.length_eq_zero.mp (Nat.le_zero.mp hs)
    subst this
    simp [replaceScan]
  | succ n ih =>
    intro s before hs hno
    match s, hs, hno with
    | [], _, _ => simp [replaceScan]
    | [c], _, _ => simp [replaceScan]
    | c :: d :: after, hs, hno =>
      simp only [List.length_cons] at hs
      simp only [containsPlaceholder, Bool.or_eq_false_iff, decide_eq_false_iff_not] at hno
      simp only [replaceScan, hno.1, if_false]
      rw [ih (d :: after) _ (by simp only [List.length_cons]; omega) hno.2]

/-- The substitution of line 52 leaves a value without a placeholder as it is, for every slug. -/
theorem substituteSlug_no_placeholder (slugParam v : JSValue)
    (h : ∀ s, v = .string s → containsPlaceholder s.data = false) :
    substituteSlug slugParam v = v := by
  cases v with
  | string s =>
    simp only [substituteSlug, replaceSlug]
    rw [replaceScan_no_placeholder _ s.data.length s.data [] (le_refl _) (h s rfl)]
  | _ => rfl

theorem foldl_assocSet_own (p : Props) :
    ∀ (ks : List String), (∀ k ∈ ks, k ∈ assocKeys p) →
      (ks.map (fun k => (k, propGet p k))).foldl (fun q e => assocSet e.1 e.2 q) p = p := by
  intro ks
  induction ks with
  | nil => intro _; rfl
  | cons k rest ih =>
    intro h
    simp only [List.map_cons, List.foldl_cons]
    have hk := (mem_assocKeys k p).mp (h k (by simp))
    have hset : assocSet k (propGet p k) p = p := by
      cases hg : assocGet? k p with
      | none => simp [hg] at hk
      | some v =>
        have : propGet p k = v := by simp [propGet, hg]
        rw [this]
        exact assocSet_of_get k v p hg
    rw [hset]
    exact ih (fun k' hk' => h k' (by simp [hk']))

/-- The loop of lines 51-53 leaves an options object walked by key as it is
when none of its strings contains the placeholder. -/
theorem substituteProps_no_placeholder (slugParam : JSValue) (op : Props)
    (hlen : arrayLikeLength (propGet op "length") = none)
    (hno : ∀ k s, propGet op k = .string s → containsPlaceholder s.data = false) :
    substituteProps slugParam op = op := by
  unfold substituteProps eachEntries propEntries
  simp only [hlen]
  have hcongr : ((assocKeys op).map (fun k => (k, propGet op k))).foldl
      (fun q entry => assocSet entry.1 (substituteSlug slugParam entry.2) q) op
      = ((assocKeys op).map (fun k => (k, propGet op k))).foldl
      (fun q entry => assocSet entry.1 entry.2 q) op := by
    apply List.foldl_ext
    intro q e he
    obtain ⟨k, _, hk⟩ := List.mem_map.mp he
    subst hk
    simp only
    rw [substituteSlug_no_placeholder slugParam (propGet op k) (fun s hs => hno k s hs)]
  rw [hcongr]
  exact foldl_assocSet_own op (assocKeys op) (fun _ h => h)

/-- C14 as stated fails at two descriptors: the descriptor `{}` has no
options and `posts.browse` is passed `{}`; the descriptor
`{options: {length: 1}}` has no string option at all and `posts.browse` is
passed `{length: 1, 0: undefined}`, because `_.each` walks an object with a
numeric `length` by index. -/
theorem processQuery_options_altered :
    (JSValue.object []).get "options" = .undefined
    ∧ (processQuery false echoApi (.object []) .undefined sampleLocals).call
      = some { apiVersion := .string "v2", controller := .string "posts",
               type := .string "browse", options := .object [] }
    ∧ (processQuery false echoApi
          (.object [("options", .object [("length", .number 1)])]) .undefined sampleLocals).call
      = some { apiVersion := .string "v2", controller := .string "posts",
               type := .string "browse",
               options := .object [("length", .number 1), ("0", .undefined)] } :=
  ⟨rfl, rfl, rfl⟩

/-- C14 amended: for every descriptor whose options are an object walked by
key (no numeric `length` property) with no `%s` in its top-level strings, or
are absent, and for every slug, with the flag off the options passed to the
API are the descriptor's own options, and `{}` when it has none. -/
theorem processQuery_options_unchanged (api : Api) (q l op : Props) (slugParam : JSValue)
    (m : Method)
    (hopt : propGet q "options" = .object op ∨ (propGet q "options" = .undefined ∧ op = []))
    (hlen : arrayLikeLength (propGet op "length") = none)
    (hno : ∀ k s, propGet op k = .string s → containsPlaceholder s.data = false)
    (hapi : api (propGet l "apiVersion")
      (orDefault (propGet q "controller") (.string "posts"))
      (orDefault (propGet q "type") (.string "browse")) = some m) :
    (processQuery false api (.object q) slugParam (.object l)).call
      = some { apiVersion := propGet l "apiVersion"
               controller := orDefault (propGet q "controller") (.string "posts")
               type := orDefault (propGet q "type") (.string "browse")
               options := .object op } := by
  have hop : propGet (withDefaults q) "options" = .object op := by
    rw [propGet_withDefaults_options]
    rcases hopt with h | ⟨h, he⟩
    · rw [h]; rfl
    · rw [h, he]; rfl
  have hapi' : api (propGet l "apiVersion") (propGet (withDefaults q) "controller")
      (propGet (withDefaults q) "type") = some m := by
    rw [propGet_withDefaults_controller, propGet_withDefaults_type]; exact hapi
  rw [processQuery_object false api q l op slugParam m hop hapi',
    propGet_withDefaults_controller, propGet_withDefaults_type,
    substituteProps_no_placeholder slugParam op hlen hno]
  simp

/-- C14 amended, on a descriptor with the options `{filter: 'featured:true',
limit: 3}` and a slug that contains both `%s` and a dollar pattern. -/
theorem processQuery_options_unchanged_witness :
    (processQuery false echoApi
        (.object [("options", .object [("filter", .string "featured:true"),
          ("limit", .number 3)])])
        (.string "%s$&") (.object [("apiVersion", .string "v2")])).call
      = some { apiVersion := propGet [("apiVersion", .string "v2")] "apiVersion"
               controller := orDefault (propGet
                 [("options", .object [("filter", .string "featured:true"),
                   ("limit", .number 3)])] "controller") (.string "posts")
               type := orDefault (propGet
                 [("options", .object [("filter", .string "featured:true"),
                   ("limit", .number 3)])] "type") (.string "browse")
               options := .object [("filter", .string "featured:true"),
                 ("limit", .number 3)] } :=
  processQuery_options_unchanged echoApi
    [("options", .object [("filter", .string "featured:true"), ("limit", .number 3)])]
    [("apiVersion", .string "v2")]
    [("filter", .string "featured:true"), ("limit", .number 3)]
    (.string "%s$&") (echoMethod (.string "posts") (.string "browse"))
    (Or.inl rfl) rfl
    (by
      intro k s hs
      by_cases hk : k = "filter"
      · subst hk
        have : s = "featured:true" := by
          simp [propGet, assocGet?] at hs; exact hs.symm
        subst this
        rfl
      · by_cases hk2 : k = "limit"
        · subst hk2; simp [propGet, assocGet?] at hs
        · have hk' : ¬ "filter" = k := fun e => hk e.symm
          have hk2' : ¬ "limit" = k := fun e => hk2 e.symm
          simp [propGet, assocGet?, hk', hk2'] at hs)
    rfl

/-! ## The store: what a call leaves untouched -/

theorem keeps_refl (n : Nat) (σ : Store) : Keeps n σ σ :=
  ⟨le_refl _, fun _ _ => rfl⟩

theorem keeps_trans {n : Nat} {σ₁ σ₂ σ₃ : Store} (h₁ : Keeps n σ₁ σ₂) (h₂ : Keeps n σ₂ σ₃) :
    Keeps n σ₁ σ₃ :=
  ⟨le_trans h₁.1 h₂.1, fun a ha => by rw [h₂.2 a ha, h₁.2 a ha]⟩

theorem keeps_mono {n m : Nat} {σ σ' : Store} (h : Keeps n σ σ') (hm : m ≤ n) : Keeps m σ σ' :=
  ⟨h.1, fun a ha => h.2 a (lt_of_lt_of_le ha hm)⟩

theorem keeps_append (n : Nat) (σ extra : Store) (hn : n ≤ σ.length) :
    Keeps n σ (σ ++ extra) :=
  ⟨by simp, fun a ha => List.getElem?_append_left (lt_of_lt_of_le ha hn)⟩

theorem keeps_set (n a : Nat) (σ : Store) (c : Cell) (ha : n ≤ a) : Keeps n σ (σ.set a c) :=
  ⟨by simp, fun b hb => by
    rw [List.getElem?_set_ne]
    omega⟩

theorem valFresh_mono {n m : Nat} {v : SValue} (h : ValFresh n v) (hm : m ≤ n) : ValFresh m v :=
  fun a ha => le_trans hm (h a ha)

theorem cellFresh_mono {n m : Nat} {c : Cell} (h : CellFresh n c) (hm : m ≤ n) : CellFresh m c :=
  fun v hv => valFresh_mono (h v hv) hm

/-- An assignment through a value that refers to no cell below `n` keeps the cells below `n`. -/
theorem keeps_sWrite (n : Nat) (σ : Store) (v : SValue) (k : String) (x : SValue)
    (hv : ValFresh n v) : Keeps n σ (sWrite σ v k x).1 := by
  unfold sWrite
  cases v with
  | ref a =>
    have ha := hv a rfl
    simp only
    cases hc : σ[a]? with
    | none => exact keeps_refl n σ
    | some c =>
      cases c with
      | object props => exact keeps_set n a σ _ ha
      | array xs =>
        simp only
        cases indexOfKey k xs.length with
        | none => exact keeps_refl n σ
        | some i => exact keeps_set n a σ _ ha
  | _ => exact keeps_refl n σ

/-- A loop keeps what its body keeps. -/
theorem forEachKey_invariant (P : Store → Prop)
    (step : Store → String → Store × Except Abort Unit)
    (hstep : ∀ σ k, P σ → P (step σ k).1) :
    ∀ (ks : List String) (σ : Store), P σ → P (forEachKey step σ ks).1 := by
  intro ks
  induction ks with
  | nil => intro σ h; exact h
  | cons k rest ih =>
    intro σ h
    simp only [forEachKey]
    have hs := hstep σ k h
    cases hr : step σ k with
    | mk σ' r =>
      rw [hr] at hs
      cases r with
      | ok u => exact ih σ' hs
      | error e => exact hs

/-! ### Copies -/

theorem cloneList_grows (clone : Store → SValue → Option (Store × SValue))
    (hclone : ∀ σ v σ' v', clone σ v = some (σ', v') → Grows σ σ' v') :
    ∀ (xs : List SValue) (σ σ' : Store) (vs : List SValue),
      cloneList clone σ xs = some (σ', vs) →
      ∃ extra, σ' = σ ++ extra ∧ (∀ c ∈ extra, CellFresh σ.length c)
        ∧ (∀ v ∈ vs, ValFresh σ.length v) := by
  intro xs
  induction xs with
  | nil =>
    intro σ σ' vs h
    simp only [cloneList, Option.some.injEq, Prod.mk.injEq] at h
    exact ⟨[], by simp [h.1], by simp, by simp [← h.2]⟩
  | cons x rest ih =>
    intro σ σ' vs h
    simp only [cloneList] at h
    cases hx : clone σ x with
    | none => simp [hx] at h
    | some r =>
      obtain ⟨σ₁, x'⟩ := r
      simp only [hx] at h
      cases hr : cloneList clone σ₁ rest with
      | none => simp [hr] at h
      | some r₂ =>
        obtain ⟨σ₂, rest'⟩ := r₂
        simp only [hr, Option.some.injEq, Prod.mk.injEq] at h
        obtain ⟨e₁, he₁, hc₁, hv₁, _⟩ := hclone σ x σ₁ x' hx
        obtain ⟨e₂, he₂, hc₂, hv₂⟩ := ih σ₁ σ₂ rest' hr
        have hlen : σ.length ≤ σ₁.length := by rw [he₁]; simp
        refine ⟨e₁ ++ e₂, ?_, ?_, ?_⟩
        · rw [← h.1, he₂, he₁, List.append_assoc]
        · intro c hc
          rcases List.mem_append.mp hc with hc | hc
          · exact hc₁ c hc
          · exact cellFresh_mono (hc₂ c hc) hlen
        · intro v hv
          rw [← h.2] at hv
          rcases List.mem_cons.mp hv with hv | hv
          · rw [hv]; exact hv₁
          · exact valFresh_mono (hv₂ v hv) hlen

theorem valFresh_of_not_ref (n : Nat) (v : SValue) (h : ∀ a, v ≠ .ref a) : ValFresh n v :=
  fun a ha => absurd ha (h a)

theorem grows_same (σ : Store) (v : SValue) (h : ∀ a, v ≠ .ref a) : Grows σ σ v :=
  ⟨[], by simp, by simp, valFresh_of_not_ref _ v h, fun a ha => absurd ha (h a)⟩

theorem grows_alloc (σ σ₁ : Store) (e₁ : Store) (cell : Cell) (he : σ₁ = σ ++ e₁)
    (hc : ∀ c ∈ e₁, CellFresh σ.length c) (hcell : CellFresh σ.length cell) :
    Grows σ (σ₁ ++ [cell]) (.ref σ₁.length) := by
  refine ⟨e₁ ++ [cell], by rw [he, List.append_assoc], ?_, ?_, ?_⟩
  · intro c hcm
    rcases List.mem_append.mp hcm with h | h
    · exact hc c h
    · rw [List.mem_singleton.mp h]; exact hcell
  · intro a ha
    simp only [SValue.ref.injEq] at ha
    rw [← ha, he]; simp
  · intro a ha
    simp only [SValue.ref.injEq] at ha
    rw [← ha]; simp

/-- A deep copy only adds cells, and the cells it adds refer to added cells only. -/
theorem sCloneDeep_grows : ∀ (fuel : Nat) (σ : Store) (v : SValue) (σ' : Store) (v' : SValue),
    sCloneDeep fuel σ v = some (σ', v') → Grows σ σ' v' := by
  intro fuel
  induction fuel with
  | zero =>
    intro σ v σ' v' h
    cases v <;> simp only [sCloneDeep, Option.some.injEq, Prod.mk.injEq] at h <;>
      first
      | (obtain ⟨h₁, h₂⟩ := h; subst h₁; subst h₂; exact grows_same _ _ (by simp))
      | exact absurd h (by simp)
  | succ fuel ih =>
    intro σ v σ' v' h
    cases v with
    | ref a =>
      simp only [sCloneDeep] at h
      cases hc : σ[a]? with
      | none => simp [hc] at h
      | some c =>
        cases c with
        | object props =>
          simp only [hc] at h
          cases hl : cloneList (sCloneDeep fuel) σ (props.map Prod.snd) with
          | none => simp [hl] at h
          | some r =>
            obtain ⟨σ₁, vals⟩ := r
            simp only [hl, Option.some.injEq, Prod.mk.injEq] at h
            obtain ⟨e₁, he₁, hc₁, hv₁⟩ := cloneList_grows _ (ih) _ σ σ₁ vals hl
            rw [← h.1, ← h.2]
            refine grows_alloc σ σ₁ e₁ _ he₁ hc₁ ?_
            intro v hv
            simp only [cellValues, List.mem_map] at hv
            obtain ⟨p, hp, hpv⟩ := hv
            rw [← hpv]
            exact hv₁ p.2 (List.of_mem_zip hp).2
        | array xs =>
          simp only [hc] at h
          cases hl : cloneList (sCloneDeep fuel) σ xs with
          | none => simp [hl] at h
          | some r =>
            obtain ⟨σ₁, vals⟩ := r
            simp only [hl, Option.some.injEq, Prod.mk.injEq] at h
            obtain ⟨e₁, he₁, hc₁, hv₁⟩ := cloneList_grows _ (ih) _ σ σ₁ vals hl
            rw [← h.1, ← h.2]
            exact grows_alloc σ σ₁ e₁ _ he₁ hc₁ (fun v hv => hv₁ v hv)
    | undefined =>
      simp only [sCloneDeep, Option.some.injEq, Prod.mk.injEq] at h
      obtain ⟨h₁, h₂⟩ := h; subst h₁; subst h₂; exact grows_same _ _ (by simp)
    | null =>
      simp only [sCloneDeep, Option.some.injEq, Prod.mk.injEq] at h
      obtain ⟨h₁, h₂⟩ := h; subst h₁; subst h₂; exact grows_same _ _ (by simp)
    | bool b =>
      simp only [sCloneDeep, Option.some.injEq, Prod.mk.injEq] at h
      obtain ⟨h₁, h₂⟩ := h; subst h₁; subst h₂; exact grows_same _ _ (by simp)
    | number m =>
      simp only [sCloneDeep, Option.some.injEq, Prod.mk.injEq] at h
      obtain ⟨h₁, h₂⟩ := h; subst h₁; subst h₂; exact grows_same _ _ (by simp)
    | string s =>
      simp only [sCloneDeep, Option.some.injEq, Prod.mk.injEq] at h
      obtain ⟨h₁, h₂⟩ := h; subst h₁; subst h₂; exact grows_same _ _ (by simp)

theorem keeps_of_grows {σ σ' : Store} {v : SValue} (h : Grows σ σ' v) (n : Nat)
    (hn : n ≤ σ.length) : Keeps n σ σ' := by
  obtain ⟨extra, he, _⟩ := h
  rw [he]
  exact keeps_append n σ extra hn

theorem closed_of_grows {σ σ' : Store} {v : SValue} (h : Grows σ σ' v) (n : Nat)
    (hn : n ≤ σ.length) (hcl : Closed n σ) : Closed n σ' := by
  obtain ⟨extra, he, hc, _⟩ := h
  intro a c ha hac
  rw [he] at hac
  by_cases hlt : a < σ.length
  · rw [List.getElem?_append_left hlt] at hac
    exact hcl a c ha hac
  · rw [List.getElem?_append_right (by omega)] at hac
    exact cellFresh_mono (hc c (List.getElem?_mem hac)) hn

theorem closed_at_length (σ : Store) : Closed σ.length σ := by
  intro a c ha hac
  have := List.getElem?_eq_none_iff.mpr ha
  rw [this] at hac
  cases hac

/-- The statement `x = _.cloneDeep(v)` keeps every cell, and the copy is new. -/
theorem sClone_spec (σ : Store) (v : SValue) :
    (∀ copy, (sClone σ v).2 = .ok copy → Grows σ (sClone σ v).1 copy)
    ∧ (∀ e, (sClone σ v).2 = .error e → (sClone σ v).1 = σ) := by
  unfold sClone
  cases h : sCloneDeep σ.length σ v with
  | none => exact And.intro (fun _ hc => by cases hc) (fun _ _ => rfl)
  | some r =>
    obtain ⟨σ', copy⟩ := r
    refine And.intro (fun c hc => ?_) (fun _ he => by cases he)
    simp only [Except.ok.injEq] at hc
    rw [← hc]
    exact sCloneDeep_grows _ σ v σ' copy h

theorem keeps_sClone (n : Nat) (σ : Store) (v : SValue) (hn : n ≤ σ.length) :
    Keeps n σ (sClone σ v).1 := by
  have hs := sClone_spec σ v
  cases hr : (sClone σ v).2 with
  | ok copy => exact keeps_of_grows (hs.1 copy hr) n hn
  | error e => rw [hs.2 e hr]; exact keeps_refl n σ

theorem mem_values_assocSet (k : String) (x : SValue) (props : List (String × SValue))
    (v : SValue) (h : v ∈ (assocSet k x props).map Prod.snd) :
    v = x ∨ v ∈ props.map Prod.snd := by
  induction props with
  | nil => simp [assocSet] at h; exact Or.inl h
  | cons e rest ih =>
    obtain ⟨k', v'⟩ := e
    by_cases hk : k' = k
    · simp only [assocSet, hk, if_true, List.map_cons, List.mem_cons] at h
      rcases h with h | h
      · exact Or.inl h
      · exact Or.inr (by simp [h])
    · simp only [assocSet, hk, if_false, List.map_cons, List.mem_cons] at h
      rcases h with h | h
      · exact Or.inr (by simp [h])
      · rcases ih h with h | h
        · exact Or.inl h
        · exact Or.inr (by simp [h])

theorem valFresh_assocGet (n : Nat) (k : String) (props : List (String × SValue))
    (h : ∀ v ∈ props.map Prod.snd, ValFresh n v) :
    ValFresh n ((assocGet? k props).getD .undefined) := by
  cases hg : assocGet? k props with
  | none => exact valFresh_of_not_ref n _ (by simp)
  | some v =>
    have := mem_of_assocGet? k v props hg
    exact h v (List.mem_map.mpr ⟨(k, v), this, rfl⟩)

/-- A property read from a cell of a closed region refers to that region. -/
theorem valFresh_sLookup (n : Nat) (σ : Store) (v : SValue) (k : String) (hcl : Closed n σ)
    (hv : ValFresh n v) : ValFresh n (sLookup σ v k) := by
  unfold sLookup
  cases v with
  | ref a =>
    have ha := hv a rfl
    simp only
    cases hc : σ[a]? with
    | none => exact valFresh_of_not_ref n _ (by simp)
    | some c =>
      have hcf := hcl a c ha hc
      cases c with
      | object props => exact valFresh_assocGet n k props hcf
      | array xs =>
        simp only
        split
        · exact valFresh_of_not_ref n _ (by simp)
        · cases hi : indexOfKey k xs.length with
          | none => exact valFresh_of_not_ref n _ (by simp)
          | some i =>
            simp only
            by_cases hlt : i < xs.length
            · have : xs.getD i .undefined = xs[i] := by simp [List.getD, hlt]
              rw [this]
              exact hcf _ (List.getElem_mem hlt)
            · have : xs.getD i .undefined = .undefined := by
                simp [List.getD_eq_getElem?_getD,
                  List.getElem?_eq_none_iff.mpr (Nat.le_of_not_lt hlt)]
              rw [this]
              exact valFresh_of_not_ref n _ (by simp)
  | string s =>
    simp only
    split
    · exact valFresh_of_not_ref n _ (by simp)
    · cases indexOfKey k (jsLength s) with
      | none => exact valFresh_of_not_ref n _ (by simp)
      | some i =>
        simp only
        cases unitAt s.data i <;> exact valFresh_of_not_ref n _ (by simp)
  | undefined => exact valFresh_of_not_ref n _ (by simp)
  | null => exact valFresh_of_not_ref n _ (by simp)
  | bool b => exact valFresh_of_not_ref n _ (by simp)
  | number m => exact valFresh_of_not_ref n _ (by simp)

theorem closed_set (n a : Nat) (σ : Store) (c : Cell) (hcl : Closed n σ) (hc : CellFresh n c) :
    Closed n (σ.set a c) := by
  intro b c' hb hbc
  by_cases hab : a = b
  · subst hab
    by_cases hlt : a < σ.length
    · rw [List.getElem?_set_self hlt] at hbc
      simp only [Option.some.injEq] at hbc
      rw [← hbc]; exact hc
    · rw [List.getElem?_eq_none_iff.mpr (by simp; omega)] at hbc
      cases hbc
  · rw [List.getElem?_set_ne hab] at hbc
    exact hcl b c' hb hbc

/-- Storing a value of the closed region keeps the region closed. -/
theorem closed_sWrite (n : Nat) (σ : Store) (v : SValue) (k : String) (x : SValue)
    (hcl : Closed n σ) (hv : ValFresh n v) (hx : ValFresh n x) :
    Closed n (sWrite σ v k x).1 := by
  unfold sWrite
  cases v with
  | ref a =>
    have ha := hv a rfl
    simp only
    cases hc : σ[a]? with
    | none => exact hcl
    | some c =>
      have hcf := hcl a c ha hc
      cases c with
      | object props =>
        apply closed_set n a σ _ hcl
        intro w hw
        rcases mem_values_assocSet k x props w hw with h | h
        · rw [h]; exact hx
        · exact hcf w h
      | array xs =>
        simp only
        cases indexOfKey k xs.length with
        | none => exact hcl
        | some i =>
          apply closed_set n a σ _ hcl
          intro w hw
          simp only [cellValues] at hw
          rcases List.mem_or_eq_of_mem_set hw with h | h
          · exact hcf w h
          · rw [h]; exact hx
  | _ => exact hcl

/-! ### Defaults -/

theorem sMergeStep_invariant (n : Nat) (σ₀ : Store) (hn : n ≤ σ₀.length)
    (merge : Store → Nat → Nat → Store × Except Abort Unit)
    (hmerge : ∀ σ o s, n ≤ o → Keeps n σ₀ σ → Closed n σ →
      Keeps n σ₀ (merge σ o s).1 ∧ Closed n (merge σ o s).1)
    (object source : Nat) (ho : n ≤ object) (σ : Store) (key : String)
    (hk : Keeps n σ₀ σ) (hcl : Closed n σ) :
    Keeps n σ₀ (sMergeStep merge object source σ key).1
      ∧ Closed n (sMergeStep merge object source σ key).1 := by
  have hlen : n ≤ σ.length := le_trans hn hk.1
  have hobj : ValFresh n (SValue.ref object) := fun a ha => by
    simp only [SValue.ref.injEq] at ha; omega
  have hwrite : ∀ (σ' : Store) (x : SValue), Keeps n σ₀ σ' → Closed n σ' → ValFresh n x →
      Keeps n σ₀ (sWrite σ' (.ref object) key x).1
        ∧ Closed n (sWrite σ' (.ref object) key x).1 :=
    fun σ' x hk' hcl' hx =>
      ⟨keeps_trans hk' (keeps_sWrite n σ' _ key x hobj), closed_sWrite n σ' _ key x hcl' hobj hx⟩
  unfold sMergeStep
  cases hsrc : sLookup σ (.ref source) key with
  | ref s =>
    simp only
    cases hov : sLookup σ (.ref object) key with
    | undefined =>
      simp only
      have hs := sClone_spec σ (.ref s)
      cases hc : sClone σ (.ref s) with
      | mk σ' r =>
        rw [hc] at hs
        cases r with
        | ok copy =>
          simp only
          have hg := hs.1 copy rfl
          exact hwrite σ' copy (keeps_trans hk (keeps_of_grows hg n hlen))
            (closed_of_grows hg n hlen hcl) (valFresh_mono hg.choose_spec.2.2.1 hlen)
        | error e =>
          simp only
          have := hs.2 e rfl
          simp only at this
          rw [this]
          exact ⟨hk, hcl⟩
    | ref o =>
      simp only
      split
      · exact ⟨hk, hcl⟩
      · have hfresh : n ≤ o := by
          have := valFresh_sLookup n σ (.ref object) key hcl hobj
          rw [hov] at this
          exact this o rfl
        split
        · exact hmerge σ o s hfresh hk hcl
        · exact ⟨hk, hcl⟩
        · exact ⟨hk, hcl⟩
        · exact ⟨hk, hcl⟩
    | null => exact ⟨hk, hcl⟩
    | bool b => exact ⟨hk, hcl⟩
    | number m => exact ⟨hk, hcl⟩
    | string t => exact ⟨hk, hcl⟩
  | undefined =>
    simp only
    split
    · exact ⟨hk, hcl⟩
    · exact hwrite σ _ hk hcl (valFresh_of_not_ref n _ (by simp))
  | null =>
    simp only
    split
    · exact hwrite σ _ hk hcl (valFresh_of_not_ref n _ (by simp))
    · exact ⟨hk, hcl⟩
  | bool b =>
    simp only
    split
    · exact hwrite σ _ hk hcl (valFresh_of_not_ref n _ (by simp))
    · exact ⟨hk, hcl⟩
  | number m =>
    simp only
    split
    · exact hwrite σ _ hk hcl (valFresh_of_not_ref n _ (by simp))
    · exact ⟨hk, hcl⟩
  | string t =>
    simp only
    split
    · exact hwrite σ _ hk hcl (valFresh_of_not_ref n _ (by simp))
    · exact ⟨hk, hcl⟩

/-- The defaults written into an object of a closed region keep the cells
below the region and keep the region closed. -/
theorem sMergeDefaults_invariant (n : Nat) (σ₀ : Store) (hn : n ≤ σ₀.length) :
    ∀ (fuel : Nat) (σ : Store) (o s : Nat), n ≤ o → Keeps n σ₀ σ → Closed n σ →
      Keeps n σ₀ (sMergeDefaults fuel σ o s).1 ∧ Closed n (sMergeDefaults fuel σ o s).1 := by
  intro fuel
  induction fuel with
  | zero => intro σ o s _ hk hcl; exact ⟨hk, hcl⟩
  | succ fuel ih =>
    intro σ o s ho hk hcl
    simp only [sMergeDefaults]
    exact forEachKey_invariant (fun σ => Keeps n σ₀ σ ∧ Closed n σ) _
      (fun σ' k h => sMergeStep_invariant n σ₀ hn _ ih o s ho σ' k h.1 h.2) _ σ ⟨hk, hcl⟩

theorem sDefaultsDeep_invariant (n : Nat) (σ : Store) (object source : SValue)
    (hn : n ≤ σ.length) (hcl : Closed n σ) (ho : ValFresh n object) :
    Keeps n σ (sDefaultsDeep σ object source).1
      ∧ Closed n (sDefaultsDeep σ object source).1 := by
  unfold sDefaultsDeep
  cases object with
  | ref o =>
    cases source with
    | ref s =>
      simp only
      split
      · exact ⟨keeps_refl n σ, hcl⟩
      · split
        · exact sMergeDefaults_invariant n σ hn _ σ o s (ho o rfl) (keeps_refl n σ) hcl
        · split <;> exact ⟨keeps_refl n σ, hcl⟩
        · exact ⟨keeps_refl n σ, hcl⟩
    | _ => exact ⟨keeps_refl n σ, hcl⟩
  | _ => exact ⟨keeps_refl n σ, hcl⟩

/-! ### `processQuery` changes no object that exists before the call -/

theorem keeps_sReplaceSlugs (n : Nat) (σ : Store) (slugParam options : SValue)
    (ho : ValFresh n options) : Keeps n σ (sReplaceSlugs σ slugParam options).1 := by
  unfold sReplaceSlugs
  exact forEachKey_invariant (fun σ' => Keeps n σ σ') _
    (fun σ' k h => keeps_trans h (keeps_sWrite n σ' options k _ ho)) _ σ (keeps_refl n σ)

theorem keeps_allocCell (n : Nat) (σ : Store) (c : Cell) (hn : n ≤ σ.length) :
    Keeps n σ (allocCell σ c).1 :=
  keeps_append n σ [c] hn

theorem keeps_sBuildCall (flag : Bool) (mod : Module) (σ : Store)
    (query slugParam locals : SValue) :
    Keeps σ.length σ (sBuildCall flag mod σ query slugParam locals).1 := by
  unfold sBuildCall
  split
  · exact keeps_refl _ σ
  · rename_i apiVersion _
    have hs := sClone_spec σ query
    split
    · rename_i σ₁ e h₁
      rw [h₁] at hs
      rw [hs.2 e rfl]
      exact keeps_refl _ _
    · rename_i σ₁ q h₁
      rw [h₁] at hs
      have hg : Grows σ σ₁ q := hs.1 q rfl
      have hk₁ : Keeps σ.length σ σ₁ := keeps_of_grows hg _ (le_refl _)
      have hcl₁ : Closed σ.length σ₁ := closed_of_grows hg _ (le_refl _) (closed_at_length σ)
      have hq : ValFresh σ.length q := hg.choose_spec.2.2.1
      have hd := sDefaultsDeep_invariant σ.length σ₁ q (.ref mod.queryDefaults) hk₁.1 hcl₁ hq
      have hk₂ : Keeps σ.length σ (sDefaultsDeep σ₁ q (.ref mod.queryDefaults)).1 :=
        keeps_trans hk₁ hd.1
      split
      · rename_i σ₂ e h₂
        rw [h₂] at hk₂
        exact hk₂
      · rename_i σ₂ u h₂
        rw [h₂] at hk₂ hd
        split
        · exact hk₂
        · rename_i options hopt
          have hov : ValFresh σ.length options := by
            have := valFresh_sLookup σ.length σ₂ q "options" hd.2 hq
            unfold sRead at hopt
            split at hopt
            · cases hopt
            · cases hopt
            · simp only [Except.ok.injEq] at hopt
              rw [← hopt]
              exact this
          have hk₃ : Keeps σ.length σ (sReplaceSlugs σ₂ slugParam options).1 :=
            keeps_trans hk₂ (keeps_sReplaceSlugs _ σ₂ slugParam options hov)
          split
          · rename_i σ₃ e h₃
            rw [h₃] at hk₃
            exact hk₃
          · rename_i σ₃ u₃ h₃
            rw [h₃] at hk₃
            cases flag with
            | false =>
              simp only [Bool.false_eq_true, if_false]
              exact hk₃
            | true =>
              simp only [if_true]
              have hk₅ : Keeps σ.length σ
                  (sWrite (allocCell σ₃ (.object [("member", sLookup σ₃ locals "member")])).1
                    options "context"
                    (allocCell σ₃ (.object [("member", sLookup σ₃ locals "member")])).2).1 :=
                keeps_trans (keeps_trans hk₃ (keeps_allocCell _ σ₃ _ hk₃.1))
                  (keeps_sWrite _ _ options "context" _ hov)
              split
              · rename_i σ₅ e h₅
                rw [h₅] at hk₅
                exact hk₅
              · rename_i σ₅ u₅ h₅
                rw [h₅] at hk₅
                exact hk₅

/-- Every cell of the store before `processQuery` is the same after it. -/
theorem keeps_sProcessQuery (flag : Bool) (api : Api) (mod : Module) (σ : Store)
    (query slugParam locals : SValue) :
    Keeps σ.length σ (sProcessQuery flag api mod σ query slugParam locals).1 := by
  have hb := keeps_sBuildCall flag mod σ query slugParam locals
  unfold sProcessQuery
  split
  · rename_i σ' e h
    rw [h] at hb
    exact hb
  · rename_i σ' call h
    rw [h] at hb
    split <;> exact hb

/-! ### Reads after an assignment -/

theorem indexOfKey_eq (k : String) (n i : Nat) (h : indexOfKey k n = some i) : toString i = k := by
  unfold indexOfKey at h
  have := List.find?_some h
  simpa using this

/-- An assignment to the key `k` does not change what a read of another key gives. -/
theorem sLookup_sWrite_ne (σ : Store) (t : SValue) (k : String) (x : SValue) (v : SValue)
    (j : String) (hjk : j ≠ k) : sLookup (sWrite σ t k x).1 v j = sLookup σ v j := by
  cases v with
  | ref b =>
    cases t with
    | ref a =>
      unfold sWrite
      simp only
      cases hc : σ[a]? with
      | none => rfl
      | some c =>
        have halt : a < σ.length := by
          by_contra hge
          rw [List.getElem?_eq_none_iff.mpr (Nat.le_of_not_lt hge)] at hc
          cases hc
        cases c with
        | object props =>
          simp only
          unfold sLookup
          simp only
          by_cases hab : a = b
          · subst hab
            rw [List.getElem?_set_self halt, hc]
            simp only [assocGet?_assocSet, if_neg hjk]
          · rw [List.getElem?_set_ne hab]
        | array xs =>
          simp only
          cases hi : indexOfKey k xs.length with
          | none => rfl
          | some i =>
            simp only
            unfold sLookup
            simp only
            by_cases hab : a = b
            · subst hab
              rw [List.getElem?_set_self halt, hc]
              simp only [List.length_set]
              split
              · rfl
              · cases hj : indexOfKey j xs.length with
                | none => rfl
                | some i' =>
                  simp only
                  have hne : i ≠ i' := by
                    intro h
                    apply hjk
                    rw [← indexOfKey_eq j _ i' hj, ← indexOfKey_eq k _ i hi, h]
                  simp [List.getD_eq_getElem?_getD, List.getElem?_set_ne hne]
            · rw [List.getElem?_set_ne hab]
    | _ => rfl
  | _ => rfl

/-! ### `fetchData` changes no object that exists before the call -/

theorem sSetOption_invariant (n : Nat) (σ : Store) (postQuery : SValue) (name : String)
    (value : SValue) (hname : "options" ≠ name)
    (ho : ValFresh n (sLookup σ postQuery "options")) :
    Keeps n σ (sSetOption σ postQuery name value).1
      ∧ ValFresh n (sLookup (sSetOption σ postQuery name value).1 postQuery "options") := by
  have hw : Keeps n σ (sWrite σ (sLookup σ postQuery "options") name value).1
      ∧ ValFresh n (sLookup (sWrite σ (sLookup σ postQuery "options") name value).1
          postQuery "options") := by
    refine ⟨keeps_sWrite n σ _ name value ho, ?_⟩
    rw [sLookup_sWrite_ne σ _ name value postQuery "options" hname]
    exact ho
  unfold sSetOption sRead
  cases postQuery with
  | undefined => exact ⟨keeps_refl n σ, ho⟩
  | null => exact ⟨keeps_refl n σ, ho⟩
  | bool b => exact hw
  | number m => exact hw
  | string s => exact hw
  | ref a => exact hw

theorem sSetOptionIf_invariant (n : Nat) (condition : Bool) (σ : Store) (postQuery : SValue)
    (name : String) (value : SValue) (hname : "options" ≠ name)
    (ho : ValFresh n (sLookup σ postQuery "options")) :
    Keeps n σ (sSetOptionIf condition σ postQuery name value).1
      ∧ ValFresh n (sLookup (sSetOptionIf condition σ postQuery name value).1 postQuery "options") := by
  unfold sSetOptionIf
  split
  · exact sSetOption_invariant n σ postQuery name value hname ho
  · exact ⟨keeps_refl n σ, ho⟩

theorem sSetOptionWhen_invariant (n : Nat) (condition : Except Abort Bool) (σ : Store)
    (postQuery : SValue) (name : String) (value : SValue) (hname : "options" ≠ name)
    (ho : ValFresh n (sLookup σ postQuery "options")) :
    Keeps n σ (sSetOptionWhen condition σ postQuery name value).1
      ∧ ValFresh n
          (sLookup (sSetOptionWhen condition σ postQuery name value).1 postQuery "options") := by
  unfold sSetOptionWhen
  cases condition with
  | error e => exact ⟨keeps_refl n σ, ho⟩
  | ok c => exact sSetOptionIf_invariant n c σ postQuery name value hname ho

theorem keeps_sBuildPostQuery (mod : Module) (σ : Store) (pathOptions routerOptions : SValue) :
    Keeps σ.length σ (sBuildPostQuery mod σ pathOptions routerOptions).1 := by
  unfold sBuildPostQuery
  have hs := sClone_spec σ (.ref mod.defaultPostQuery)
  split
  · rename_i σ₁ e h₁
    rw [h₁] at hs
    rw [hs.2 e rfl]
    exact keeps_refl _ _
  · rename_i σ₁ pq h₁
    rw [h₁] at hs
    have hg : Grows σ σ₁ pq := hs.1 pq rfl
    have hk₁ : Keeps σ.length σ σ₁ := keeps_of_grows hg _ (le_refl _)
    have ho₁ : ValFresh σ.length (sLookup σ₁ pq "options") :=
      valFresh_sLookup _ σ₁ pq "options"
        (closed_of_grows hg _ (le_refl _) (closed_at_length σ)) hg.choose_spec.2.2.1
    have h₂ := sSetOptionWhen_invariant σ.length
      ((sReadFilter σ₁ routerOptions).map sToBoolean)
      σ₁ pq "filter" (sLookup σ₁ routerOptions "filter") (by decide) ho₁
    split
    · rename_i σ₂ e he
      rw [he] at h₂
      exact keeps_trans hk₁ h₂.1
    · rename_i σ₂ u he
      rw [he] at h₂
      have hk₂ : Keeps σ.length σ σ₂ := keeps_trans hk₁ h₂.1
      have h₃ := sSetOptionIf_invariant σ.length (sToBoolean (sLookup σ₂ routerOptions "order"))
        σ₂ pq "order" (sLookup σ₂ routerOptions "order") (by decide) h₂.2
      split
      · rename_i σ₃ e he
        rw [he] at h₃
        exact keeps_trans hk₂ h₃.1
      · rename_i σ₃ u he
        rw [he] at h₃
        have hk₃ : Keeps σ.length σ σ₃ := keeps_trans hk₂ h₃.1
        have h₄ := sSetOptionWhen_invariant σ.length (sCallHasOwnProperty σ₃ pathOptions "page")
          σ₃ pq "page" (sLookup σ₃ pathOptions "page") (by decide) h₃.2
        split
        · rename_i σ₄ e he
          rw [he] at h₄
          exact keeps_trans hk₃ h₄.1
        · rename_i σ₄ u he
          rw [he] at h₄
          have hk₄ : Keeps σ.length σ σ₄ := keeps_trans hk₃ h₄.1
          have h₅ := sSetOptionWhen_invariant σ.length
            (sCallHasOwnProperty σ₄ pathOptions "limit")
            σ₄ pq "limit" (sLookup σ₄ pathOptions "limit") (by decide) h₄.2
          split
          · rename_i σ₅ e he
            rw [he] at h₅
            exact keeps_trans hk₄ h₅.1
          · rename_i σ₅ u he
            rw [he] at h₅
            exact keeps_trans hk₄ h₅.1

theorem keeps_sDispatchAll (flag : Bool) (api : Api) (mod : Module)
    (data pathOptions locals : SValue) (n : Nat) :
    ∀ (names : List String) (σ : Store) (calls : List Call) (props : List (String × Promise)),
      n ≤ σ.length →
      Keeps n σ (sDispatchAll flag api mod data pathOptions locals σ names calls props).1 := by
  intro names
  induction names with
  | nil => intro σ calls props _; exact keeps_refl n σ
  | cons name rest ih =>
    intro σ calls props hn
    simp only [sDispatchAll]
    have hp := keeps_sProcessQuery flag api mod σ (sLookup σ data name)
      (sLookup σ pathOptions "slug") locals
    have hp' := keeps_mono hp hn
    split
    · exact hp'
    · split
      · have hrest := ih (sProcessQuery flag api mod σ (sLookup σ data name)
          (sLookup σ pathOptions "slug") locals).1
          (calls ++ (sProcessQuery flag api mod σ (sLookup σ data name)
            (sLookup σ pathOptions "slug") locals).2.call.toList) props (le_trans hn hp.1)
        split
        · rename_i heq
          rw [heq] at hrest
          exact keeps_trans hp' hrest
        · rename_i heq
          rw [heq] at hrest
          exact keeps_trans hp' hrest
      · exact keeps_trans hp' (ih _ _ _ (le_trans hn hp.1))

/-! ### Values returned by the API -/

mutual
theorem importValue_grows : ∀ (v : JSValue) (σ : Store),
    Grows σ (importValue σ v).1 (importValue σ v).2
  | .undefined, σ => by simp only [importValue]; exact grows_same σ _ (by simp)
  | .null, σ => by simp only [importValue]; exact grows_same σ _ (by simp)
  | .bool b, σ => by simp only [importValue]; exact grows_same σ _ (by simp)
  | .number n, σ => by simp only [importValue]; exact grows_same σ _ (by simp)
  | .string s, σ => by simp only [importValue]; exact grows_same σ _ (by simp)
  | .array xs, σ => by
    obtain ⟨extra, he, hc, hv⟩ := importList_grows xs σ
    simp only [importValue]
    exact grows_alloc σ _ extra _ he hc (fun v hm => hv v hm)
  | .object props, σ => by
    obtain ⟨extra, he, hc, hv⟩ := importProps_grows props σ
    simp only [importValue]
    refine grows_alloc σ _ extra _ he hc (fun v hm => ?_)
    simp only [cellValues, List.mem_map] at hm
    obtain ⟨e, hem, hev⟩ := hm
    rw [← hev]
    exact hv e hem
theorem importList_grows : ∀ (xs : List JSValue) (σ : Store),
    ∃ extra, (importList σ xs).1 = σ ++ extra ∧ (∀ c ∈ extra, CellFresh σ.length c)
      ∧ (∀ v ∈ (importList σ xs).2, ValFresh σ.length v)
  | [], σ => ⟨[], by simp [importList], by simp, by simp [importList]⟩
  | x :: rest, σ => by
    obtain ⟨e₁, he₁, hc₁, hv₁, _⟩ := importValue_grows x σ
    obtain ⟨e₂, he₂, hc₂, hv₂⟩ := importList_grows rest (importValue σ x).1
    have hlen : σ.length ≤ (importValue σ x).1.length := by rw [he₁]; simp
    simp only [importList]
    refine ⟨e₁ ++ e₂, ?_, ?_, ?_⟩
    · rw [he₂, he₁, List.append_assoc]
    · intro c hc
      rcases List.mem_append.mp hc with hc | hc
      · exact hc₁ c hc
      · exact cellFresh_mono (hc₂ c hc) hlen
    · intro v hv
      rcases List.mem_cons.mp hv with hv | hv
      · rw [hv]; exact hv₁
      · exact valFresh_mono (hv₂ v hv) hlen
theorem importProps_grows : ∀ (ps : List (String × JSValue)) (σ : Store),
    ∃ extra, (importProps σ ps).1 = σ ++ extra ∧ (∀ c ∈ extra, CellFresh σ.length c)
      ∧ (∀ e ∈ (importProps σ ps).2, ValFresh σ.length e.2)
  | [], σ => ⟨[], by simp [importProps], by simp, by simp [importProps]⟩
  | p :: rest, σ => by
    obtain ⟨e₁, he₁, hc₁, hv₁, _⟩ := importEntry_grows p σ
    obtain ⟨e₂, he₂, hc₂, hv₂⟩ := importProps_grows rest (importEntry σ p).1
    have hlen : σ.length ≤ (importEntry σ p).1.length := by rw [he₁]; simp
    simp only [importProps]
    refine ⟨e₁ ++ e₂, ?_, ?_, ?_⟩
    · rw [he₂, he₁, List.append_assoc]
    · intro c hc
      rcases List.mem_append.mp hc with hc | hc
      · exact hc₁ c hc
      · exact cellFresh_mono (hc₂ c hc) hlen
    · intro v hv
      rcases List.mem_cons.mp hv with hv | hv
      · rw [hv]; exact hv₁
      · exact valFresh_mono (hv₂ v hv) hlen
theorem importEntry_grows : ∀ (e : String × JSValue) (σ : Store),
    Grows σ (importEntry σ e).1 (importEntry σ e).2.2
  | (k, v), σ => by
    have h := importValue_grows v σ
    simp only [importEntry]
    exact h
end

theorem closed_allocCell (n : Nat) (σ : Store) (c : Cell)
    (hcl : Closed n σ) (hc : CellFresh n c) : Closed n (allocCell σ c).1 := by
  intro a c' ha hac
  simp only [allocCell] at hac
  by_cases hlt : a < σ.length
  · rw [List.getElem?_append_left hlt] at hac
    exact hcl a c' ha hac
  · rw [List.getElem?_append_right (by omega)] at hac
    have := List.getElem?_mem hac
    rw [List.mem_singleton.mp this]
    exact hc

theorem sFormatEntry_invariant (n : Nat) (σ₀ : Store) (hn : n ≤ σ₀.length) (results : JSValue)
    (data response : SValue) (hr : ValFresh n response) (σ : Store) (name : String)
    (hk : Keeps n σ₀ σ) (hcl : Closed n σ) :
    Keeps n σ₀ (sFormatEntry results data response σ name).1
      ∧ Closed n (sFormatEntry results data response σ name).1 := by
  have hlen : n ≤ σ.length := le_trans hn hk.1
  unfold sFormatEntry
  split
  · exact ⟨hk, hcl⟩
  · rename_i target htarget
    have ht : ValFresh n target := by
      have := valFresh_sLookup n σ response "data" hcl hr
      unfold sRead at htarget
      split at htarget
      · cases htarget
      · cases htarget
      · simp only [Except.ok.injEq] at htarget
        rw [← htarget]
        exact this
    have key : ∀ value : Except Abort JSValue,
        Keeps n σ₀
            (match value with
              | .error e => (σ, Except.error e)
              | .ok v =>
                match importValue σ v with
                | (σ', stored) => sWrite σ' target name stored).1
          ∧ Closed n
            (match value with
              | .error e => (σ, Except.error e)
              | .ok v =>
                match importValue σ v with
                | (σ', stored) => sWrite σ' target name stored).1 := by
      intro value
      cases value with
      | error e => exact ⟨hk, hcl⟩
      | ok v =>
        have hg := importValue_grows v σ
        have hk₁ : Keeps n σ₀ (importValue σ v).1 := keeps_trans hk (keeps_of_grows hg n hlen)
        have hcl₁ : Closed n (importValue σ v).1 := closed_of_grows hg n hlen hcl
        have hv : ValFresh n (importValue σ v).2 := valFresh_mono hg.choose_spec.2.2.1 hlen
        exact ⟨keeps_trans hk₁ (keeps_sWrite n _ target name _ ht),
          closed_sWrite n _ target name _ hcl₁ ht hv⟩
    split
    · exact ⟨hk, hcl⟩
    · split
      · exact ⟨hk, hcl⟩
      · exact key _

theorem keeps_sFormatResponse (σ : Store) (routerOptions : SValue) (results : JSValue) :
    Keeps σ.length σ (sFormatResponse σ routerOptions results).1 := by
  unfold sFormatResponse
  cases getProp results "posts" with
  | error e => exact keeps_refl _ σ
  | ok posts =>
  simp only
  have hg := importValue_grows (cloneDeep posts) σ
  generalize importValue σ (cloneDeep posts) = r at hg
  obtain ⟨σ₁, response⟩ := r
  simp only at hg ⊢
  have hk₁ : Keeps σ.length σ σ₁ := keeps_of_grows hg _ (le_refl _)
  have hcl₁ : Closed σ.length σ₁ := closed_of_grows hg _ (le_refl _) (closed_at_length σ)
  have hr : ValFresh σ.length response := hg.choose_spec.2.2.1
  split
  · have hk₂ : Keeps σ.length σ (allocCell σ₁ (.object [])).1 :=
      keeps_trans hk₁ (keeps_allocCell _ σ₁ _ hk₁.1)
    have hcl₂ : Closed σ.length (allocCell σ₁ (.object [])).1 :=
      closed_allocCell _ σ₁ _ hcl₁ (fun v hv => by simp [cellValues] at hv)
    have hf : ValFresh σ.length (allocCell σ₁ (.object [])).2 := by
      intro a ha
      simp only [allocCell, SValue.ref.injEq] at ha
      rw [← ha]
      exact hk₁.1
    generalize allocCell σ₁ (.object []) = r₂ at hk₂ hcl₂ hf
    obtain ⟨σ₂, fresh⟩ := r₂
    simp only at hk₂ hcl₂ hf ⊢
    have hk₃ : Keeps σ.length σ (sWrite σ₂ response "data" fresh).1 :=
      keeps_trans hk₂ (keeps_sWrite _ σ₂ response "data" fresh hr)
    have hcl₃ : Closed σ.length (sWrite σ₂ response "data" fresh).1 :=
      closed_sWrite _ σ₂ response "data" fresh hcl₂ hr hf
    split
    · rename_i σ₃ e h₃
      rw [h₃] at hk₃
      exact hk₃
    · rename_i σ₃ u h₃
      rw [h₃] at hk₃ hcl₃
      have hloop := forEachKey_invariant (fun σ' => Keeps σ.length σ σ' ∧ Closed σ.length σ')
        (sFormatEntry results (sLookup σ₃ routerOptions "data") response)
        (fun σ' k h => sFormatEntry_invariant σ.length σ (le_refl _) results _ response hr σ' k
          h.1 h.2)
        (sEachKeys σ₃ (sLookup σ₃ routerOptions "data")) σ₃ ⟨hk₃, hcl₃⟩
      split
      · split
        · rename_i σ₄ e h₄
          rw [h₄] at hloop
          exact hloop.1
        · rename_i σ₄ u₄ h₄
          rw [h₄] at hloop
          exact hloop.1
      · exact hk₃
  · exact hk₁

theorem keeps_sThenFormat (σ : Store) (routerOptions : SValue) (s : Settlement) :
    Keeps σ.length σ (sThenFormat σ routerOptions s).1 := by
  cases s with
  | fulfilled results =>
    have h := keeps_sFormatResponse σ routerOptions results
    simp only [sThenFormat]
    split
    · rename_i σ' r h'
      rw [h'] at h
      exact h
    · rename_i σ' e h'
      rw [h'] at h
      exact h
  | rejected reason => exact keeps_refl _ σ
  | pending => exact keeps_refl _ σ

theorem keeps_sOrEmptyObject (σ : Store) (value : SValue) :
    Keeps σ.length σ (sOrEmptyObject σ value).1 := by
  unfold sOrEmptyObject
  split
  · exact keeps_refl _ σ
  · exact keeps_allocCell _ σ _ (le_refl _)

/-- Every cell of the store before `fetchData` is the same after it. -/
theorem keeps_sFetchData (flag : Bool) (api : Api) (mod : Module) (σ : Store)
    (pathOptions routerOptions locals : SValue) :
    Keeps σ.length σ (sFetchData flag api mod σ pathOptions routerOptions locals).1 := by
  unfold sFetchData
  have h₁ := keeps_sOrEmptyObject σ pathOptions
  generalize sOrEmptyObject σ pathOptions = r₁ at h₁
  obtain ⟨σ₁, po⟩ := r₁
  simp only at h₁ ⊢
  have h₂ := keeps_trans h₁ (keeps_mono (keeps_sOrEmptyObject σ₁ routerOptions) h₁.1)
  generalize sOrEmptyObject σ₁ routerOptions = r₂ at h₂
  obtain ⟨σ₂, ro⟩ := r₂
  simp only at h₂ ⊢
  have h₃ := keeps_trans h₂ (keeps_mono (keeps_sBuildPostQuery mod σ₂ po ro) h₂.1)
  split
  · rename_i σ₃ e he
    rw [he] at h₃
    exact h₃
  · rename_i σ₃ pq he
    rw [he] at h₃
    simp only at h₃
    have h₄ := keeps_trans h₃ (keeps_mono
      (keeps_sProcessQuery flag api mod σ₃ pq (sLookup σ₃ po "slug") locals) h₃.1)
    by_cases hw : sWalkable (sLookup σ₃ ro "data") = true
    case neg =>
      rw [if_neg hw]
      generalize sProcessQuery flag api mod σ₃ pq (sLookup σ₃ po "slug") locals = r₄ at h₄
      obtain ⟨σ₄, d⟩ := r₄
      simp only at h₄ ⊢
      split <;> exact h₄
    rw [if_pos hw]
    generalize sProcessQuery flag api mod σ₃ pq (sLookup σ₃ po "slug") locals = r₄ at h₄
    obtain ⟨σ₄, d⟩ := r₄
    simp only at h₄ ⊢
    split
    · exact h₄
    · rename_i promise _
      have h₅ := keeps_trans h₄ (keeps_sDispatchAll flag api mod (sLookup σ₄ ro "data") po locals
        σ.length (sEachKeys σ₄ (sLookup σ₄ ro "data")) σ₄ d.call.toList [("posts", promise)] h₄.1)
      split
      · rename_i σ₅ calls e he₅
        rw [he₅] at h₅
        exact h₅
      · rename_i σ₅ calls props he₅
        rw [he₅] at h₅
        simp only at h₅
        exact keeps_trans h₅ (keeps_mono (keeps_sThenFormat σ₅ ro (promiseProps props)) h₅.1)

/-! ### A call with empty arguments, on a store whose module constants are intact -/

theorem getElem?_append_zero (σ : Store) (c : Cell) (rest : Store) :
    (σ ++ c :: rest)[σ.length]? = some c := by
  rw [List.getElem?_append_right (le_refl _)]
  simp

theorem getElem?_append_one (σ : Store) (c d : Cell) (rest : Store) :
    (σ ++ c :: d :: rest)[σ.length + 1]? = some d := by
  rw [List.getElem?_append_right (by omega)]
  simp

theorem getElem?_append_old (σ extra : Store) (a : Nat) (c : Cell) (h : σ[a]? = some c) :
    (σ ++ extra)[a]? = some c := by
  have halt : a < σ.length := by
    by_contra hge
    rw [List.getElem?_eq_none_iff.mpr (Nat.le_of_not_lt hge)] at h
    cases h
  rw [List.getElem?_append_left halt, h]

theorem lt_length_of_getElem? (σ : Store) (a : Nat) (c : Cell) (h : σ[a]? = some c) :
    a < σ.length := by
  by_contra hge
  rw [List.getElem?_eq_none_iff.mpr (Nat.le_of_not_lt hge)] at h
  cases h

theorem sCloneDeep_prim (fuel : Nat) (σ : Store) (v : SValue) (h : ∀ a, v ≠ .ref a) :
    sCloneDeep fuel σ v = some (σ, v) := by
  cases fuel <;> cases v <;> first | rfl | exact absurd rfl (h _)

theorem cloneList_prims (fuel : Nat) (σ : Store) :
    ∀ (vals : List SValue), (∀ v ∈ vals, ∀ a, v ≠ .ref a) →
      cloneList (sCloneDeep fuel) σ vals = some (σ, vals) := by
  intro vals
  induction vals with
  | nil => intro _; rfl
  | cons v rest ih =>
    intro h
    simp only [cloneList, sCloneDeep_prim fuel σ v (h v (List.mem_cons_self _ _)),
      ih (fun w hw => h w (List.mem_cons_of_mem _ hw))]

theorem zip_fst_snd {α β : Type} : ∀ (l : List (α × β)), (l.map Prod.fst).zip (l.map Prod.snd) = l
  | [] => rfl
  | e :: rest => by simp [zip_fst_snd rest]

/-- The copy of an object whose properties are primitives. -/
theorem sCloneDeep_flat (fuel : Nat) (σ : Store) (a : Nat) (props : List (String × SValue))
    (ha : σ[a]? = some (.object props)) (hp : ∀ v ∈ props.map Prod.snd, ∀ b, v ≠ .ref b) :
    sCloneDeep (fuel + 1) σ (.ref a) = some (σ ++ [.object props], .ref σ.length) := by
  simp only [sCloneDeep, ha, cloneList_prims fuel σ _ hp, zip_fst_snd]

theorem sCloneDeep_step (fuel : Nat) (σ σ' : Store) (a : Nat) (props : List (String × SValue))
    (vals : List SValue) (ha : σ[a]? = some (.object props))
    (h : cloneList (sCloneDeep fuel) σ (props.map Prod.snd) = some (σ', vals)) :
    sCloneDeep (fuel + 1) σ (.ref a)
      = some (σ' ++ [.object ((props.map Prod.fst).zip vals)], .ref σ'.length) := by
  simp only [sCloneDeep, ha, h]

/-- The copy of a post query whose options are primitives. -/
theorem sClone_postQuery (σ : Store) (a b : Nat) (ops : List (String × SValue))
    (ha : σ[a]? = some (postQueryCell b)) (hb : σ[b]? = some (.object ops))
    (hp : ∀ v ∈ ops.map Prod.snd, ∀ c, v ≠ .ref c) :
    sClone σ (.ref a)
      = (σ ++ [.object ops, postQueryCell σ.length], .ok (.ref (σ.length + 1))) := by
  have h2 : 2 ≤ σ.length := by
    have h₁ := lt_length_of_getElem? σ a _ ha
    have h₂ := lt_length_of_getElem? σ b _ hb
    by_contra hlt
    have hab : a = b := by omega
    rw [hab, hb] at ha
    simp only [postQueryCell, Option.some.injEq, Cell.object.injEq] at ha
    subst ha
    exact hp (.ref b) (by simp) b rfl
  obtain ⟨f, hf⟩ : ∃ f, σ.length = f + 2 := ⟨σ.length - 2, by omega⟩
  have hs : ∀ s, sCloneDeep (f + 1) σ (.string s) = some (σ, .string s) :=
    fun s => sCloneDeep_prim _ _ _ (by simp)
  have hl : cloneList (sCloneDeep (f + 1)) σ
      ([("type", SValue.string "browse"), ("resource", .string "posts"),
        ("controller", .string "posts"), ("options", .ref b)].map Prod.snd)
      = some (σ ++ [.object ops],
          [.string "browse", .string "posts", .string "posts", .ref σ.length]) := by
    simp only [List.map_cons, List.map_nil, cloneList, hs, sCloneDeep_flat f σ b ops hb hp]
  have hstep := sCloneDeep_step (f + 1) σ _ a _ _ ha hl
  unfold sClone
  rw [hf, hstep]
  simp [postQueryCell, hf]

theorem set_same (σ : Store) (a : Nat) (c : Cell) (h : σ[a]? = some c) : σ.set a c = σ := by
  apply List.ext_getElem?
  intro i
  by_cases hi : a = i
  · subst hi
    rw [List.getElem?_set_self (lt_length_of_getElem? σ a c h), h]
  · rw [List.getElem?_set_ne hi]

theorem sLookup_object (σ : Store) (a : Nat) (props : List (String × SValue)) (k : String)
    (h : σ[a]? = some (.object props)) :
    sLookup σ (.ref a) k = (assocGet? k props).getD .undefined := by
  simp only [sLookup, h]

theorem sMergeStep_string (merge : Store → Nat → Nat → Store × Except Abort Unit)
    (object source : Nat) (σ : Store) (key x y : String)
    (hs : sLookup σ (.ref source) key = .string x)
    (ho : sLookup σ (.ref object) key = .string y) :
    sMergeStep merge object source σ key = (σ, .ok ()) := by
  simp only [sMergeStep, hs, ho]

theorem sMergeDefaults_empty (fuel : Nat) (σ : Store) (object source : Nat)
    (hs : σ[source]? = some (.object [])) :
    sMergeDefaults (fuel + 1) σ object source = (σ, .ok ()) := by
  simp only [sMergeDefaults, sOwnKeys, hs, assocKeys, forEachKey]

/-- Defaulting a post query that has all four properties changes nothing. -/
theorem sDefaultsDeep_postQuery (σ : Store) (q o : Nat) (ops : List (String × SValue))
    (h0 : σ[0]? = some (.object [])) (h1 : σ[1]? = some (postQueryCell 0))
    (hq : σ[q]? = some (postQueryCell o)) (ho : σ[o]? = some (.object ops))
    (hq1 : q ≠ 1) (ho0 : o ≠ 0) :
    sDefaultsDeep σ (.ref q) (.ref 1) = (σ, .ok ()) := by
  have h2 : 2 ≤ σ.length := by
    have := lt_length_of_getElem? σ 1 _ h1
    omega
  obtain ⟨f, hf⟩ : ∃ f, σ.length = f + 2 := ⟨σ.length - 2, by omega⟩
  have hkeys : sOwnKeys σ 1 = ["type", "resource", "controller", "options"] := by
    simp only [sOwnKeys, h1, postQueryCell]
    decide
  have hstr : ∀ key x, (assocGet? key [("type", SValue.string "browse"),
        ("resource", .string "posts"), ("controller", .string "posts")]) = some (.string x) →
      sMergeStep (sMergeDefaults (f + 1)) q 1 σ key = (σ, .ok ()) := by
    intro key x hkey
    have hne : key ≠ "options" := by
      intro h
      rw [h] at hkey
      simp [assocGet?] at hkey
    have hget : ∀ b, (assocGet? key [("type", SValue.string "browse"),
        ("resource", .string "posts"), ("controller", .string "posts"),
        ("options", .ref b)]).getD .undefined = .string x := by
      intro b
      simp only [assocGet?] at hkey ⊢
      split_ifs at hkey ⊢ <;> simp_all
    exact sMergeStep_string _ q 1 σ key x x
      (by rw [sLookup_object σ 1 _ key h1]; exact hget 0)
      (by rw [sLookup_object σ q _ key hq]; exact hget o)
  have hopt : sMergeStep (sMergeDefaults (f + 1)) q 1 σ "options" = (σ, .ok ()) := by
    have hs : sLookup σ (.ref 1) "options" = .ref 0 := by
      rw [sLookup_object σ 1 _ _ h1]; rfl
    have hob : sLookup σ (.ref q) "options" = .ref o := by
      rw [sLookup_object σ q _ _ hq]; rfl
    simp only [sMergeStep, hs, hob, if_neg ho0, h0, ho, sMergeDefaults_empty f σ o 0 h0]
  unfold sDefaultsDeep
  simp only [if_neg hq1, hq, postQueryCell, hf]
  have hsucc : sMergeDefaults (f + 2) σ q 1
      = forEachKey (sMergeStep (sMergeDefaults (f + 1)) q 1) σ (sOwnKeys σ 1) := rfl
  rw [hsucc, hkeys]
  simp only [forEachKey, hstr "type" "browse" rfl,
    hstr "resource" "posts" rfl, hstr "controller" "posts" rfl, hopt]

theorem replaceSlug_no_placeholder (s : String) (slugParam : JSValue)
    (h : containsPlaceholder s.data = false) : replaceSlug s slugParam = s := by
  simp only [replaceSlug]
  rw [replaceScan_no_placeholder _ s.data.length s.data [] (le_refl _) h]

theorem sWrite_same (σ : Store) (o : Nat) (props : List (String × SValue)) (key : String)
    (x : SValue) (ho : σ[o]? = some (.object props)) (hx : assocGet? key props = some x) :
    sWrite σ (.ref o) key x = (σ, .ok ()) := by
  simp only [sWrite, ho, assocSet_of_get key x props hx, set_same σ o _ ho]

/-- The substitution loop leaves the default options as they are, for every slug. -/
theorem sReplaceSlugs_defaultOptions (σ : Store) (slugParam : SValue) (o : Nat)
    (ho : σ[o]? = some defaultOptionsCell) :
    sReplaceSlugs σ slugParam (.ref o) = (σ, .ok ()) := by
  have hkeys : sEachKeys σ (.ref o) = ["include", "formats"] := by
    simp only [sEachKeys, ho, defaultOptionsCell]
    decide
  have hstep : ∀ key s,
      assocGet? key [("include", SValue.string "author,authors,tags"),
        ("formats", .string "html")] = some (.string s) →
      containsPlaceholder s.data = false →
      sWrite σ (.ref o) key
        (sSubstituteSlug (reifyValue σ slugParam) (sLookup σ (.ref o) key)) = (σ, .ok ()) := by
    intro key s hkey hno
    rw [sLookup_object σ o _ key ho]
    simp only [defaultOptionsCell, hkey, Option.getD_some, sSubstituteSlug,
      replaceSlug_no_placeholder s _ hno]
    exact sWrite_same σ o _ key _ ho hkey
  unfold sReplaceSlugs
  rw [hkeys]
  simp only [forEachKey, hstep "include" "author,authors,tags" rfl rfl,
    hstep "formats" "html" rfl rfl]

theorem reify_string (fuel : Nat) (σ : Store) (s : String) :
    reify fuel σ (.string s) = .string s := by
  cases fuel <;> rfl

theorem reify_object (fuel : Nat) (σ : Store) (a : Nat) (props : List (String × SValue))
    (h : σ[a]? = some (.object props)) :
    reify (fuel + 1) σ (.ref a) = .object (props.map (fun e => (e.1, reify fuel σ e.2))) := by
  simp only [reify, h]

/-- Lines 44-57 on a post query that carries the default options, with the
flag off: the call is `posts.browse` with the default options. -/
theorem sBuildCall_postQuery (σ : Store) (q o : Nat) (slugParam locals apiVersion : SValue)
    (h0 : σ[0]? = some (.object [])) (h1 : σ[1]? = some (postQueryCell 0))
    (hq : σ[q]? = some (postQueryCell o)) (ho : σ[o]? = some defaultOptionsCell)
    (hl : sRead σ locals "apiVersion" = .ok apiVersion) :
    ∃ σ' version, sBuildCall false moduleRefs σ (.ref q) slugParam locals
      = (σ', .ok
          { apiVersion := version
            controller := .string "posts"
            type := .string "browse"
            options := .object [("include", .string "author,authors,tags"),
              ("formats", .string "html")] }) := by
  have h2 : 2 ≤ σ.length := by
    have := lt_length_of_getElem? σ 1 _ h1
    omega
  have hclone := sClone_postQuery σ q o _ hq ho (by simp)
  have h0' := getElem?_append_old σ [defaultOptionsCell, postQueryCell σ.length] 0 _ h0
  have h1' := getElem?_append_old σ [defaultOptionsCell, postQueryCell σ.length] 1 _ h1
  have ho' := getElem?_append_zero σ defaultOptionsCell [postQueryCell σ.length]
  have hq' := getElem?_append_one σ defaultOptionsCell (postQueryCell σ.length) []
  have hdef := sDefaultsDeep_postQuery _ (σ.length + 1) σ.length _ h0' h1' hq' ho'
    (by omega) (by omega)
  have hread : sRead (σ ++ [defaultOptionsCell, postQueryCell σ.length])
      (.ref (σ.length + 1)) "options" = .ok (.ref σ.length) := by
    simp only [sRead, sLookup_object _ _ _ _ hq']
    rfl
  have hrep := sReplaceSlugs_defaultOptions _ slugParam σ.length ho'
  have hlen : (σ ++ [defaultOptionsCell, postQueryCell σ.length]).length
      = (σ.length + 1) + 1 := by simp
  have hclone' : sClone σ (.ref q)
      = (σ ++ [defaultOptionsCell, postQueryCell σ.length], .ok (.ref (σ.length + 1))) := hclone
  generalize σ ++ [defaultOptionsCell, postQueryCell σ.length] = τ at *
  have hctl : sLookup τ (.ref (σ.length + 1)) "controller" = .string "posts" := by
    rw [sLookup_object _ _ _ _ hq']; rfl
  have htyp : sLookup τ (.ref (σ.length + 1)) "type" = .string "browse" := by
    rw [sLookup_object _ _ _ _ hq']; rfl
  have hopt : sLookup τ (.ref (σ.length + 1)) "options" = .ref σ.length := by
    rw [sLookup_object _ _ _ _ hq']; rfl
  have hre : reify (σ.length + 1 + 1) τ (.ref σ.length)
      = .object [("include", .string "author,authors,tags"), ("formats", .string "html")] := by
    rw [reify_object _ _ _ _ ho']
    simp only [List.map_cons, List.map_nil, reify_string]
  refine ⟨τ, reifyValue τ apiVersion, ?_⟩
  unfold sBuildCall
  simp only [hl, moduleRefs, hclone', hdef, hread, hrep, Bool.false_eq_true, if_false,
    reifyValue, hlen, hctl, htyp, hopt, reify_string, hre]

theorem sRead_cases (σ : Store) (v : SValue) (k : String) :
    ((v = .undefined ∨ v = .null) ∧ sRead σ v k = .error .typeError)
      ∨ (v ≠ .undefined ∧ v ≠ .null ∧ sRead σ v k = .ok (sLookup σ v k)) := by
  cases v <;> simp [sRead]

/-- The function `processQuery` on a post query that carries the default
options, with the flag off: a call it makes is `posts.browse` with the default
options, and it makes the call when `locals` can be read and the API has the method. -/
theorem sProcessQuery_postQuery (api : Api) (σ : Store) (q o : Nat) (slugParam locals : SValue)
    (h0 : σ[0]? = some (.object [])) (h1 : σ[1]? = some (postQueryCell 0))
    (hq : σ[q]? = some (postQueryCell o)) (ho : σ[o]? = some defaultOptionsCell) :
    (∀ c, (sProcessQuery false api moduleRefs σ (.ref q) slugParam locals).2.call = some c →
        c.controller = .string "posts" ∧ c.type = .string "browse"
          ∧ c.options = .object [("include", .string "author,authors,tags"),
              ("formats", .string "html")])
      ∧ (locals ≠ .undefined → locals ≠ .null →
          (∀ version, api version (.string "posts") (.string "browse") ≠ none) →
          (sProcessQuery false api moduleRefs σ (.ref q) slugParam locals).2.call ≠ none) := by
  rcases sRead_cases σ locals "apiVersion" with ⟨hbad, herr⟩ | ⟨hu, hn, hok⟩
  · have hb : sBuildCall false moduleRefs σ (.ref q) slugParam locals
        = (σ, .error .typeError) := by
      unfold sBuildCall
      simp only [herr]
    unfold sProcessQuery
    simp only [hb]
    refine And.intro (fun c hc => by cases hc) (fun hu hn _ => ?_)
    rcases hbad with h | h
    · exact absurd h hu
    · exact absurd h hn
  · obtain ⟨σ', version, hb⟩ := sBuildCall_postQuery σ q o slugParam locals _ h0 h1 hq ho hok
    unfold sProcessQuery
    simp only [hb]
    cases hm : api version (.string "posts") (.string "browse") with
    | none =>
      simp only
      exact And.intro (fun c hc => by cases hc) (fun _ _ hapi => absurd hm (hapi version))
    | some m =>
      simp only
      refine And.intro (fun c hc => ?_) (fun _ _ _ => by simp)
      simp only [Option.some.injEq] at hc
      rw [← hc]
      exact ⟨rfl, rfl, rfl⟩

theorem sOrEmptyObject_emptyArg (σ : Store) (v : SValue) (h : EmptyArg σ v) :
    ∃ extra a, sOrEmptyObject σ v = (σ ++ extra, .ref a)
      ∧ (σ ++ extra)[a]? = some (.object []) := by
  rcases h with h | ⟨a, hv, ha⟩
  · subst h
    refine ⟨[.object []], σ.length, rfl, ?_⟩
    exact getElem?_append_zero σ _ []
  · subst hv
    exact ⟨[], a, by simp [sOrEmptyObject, sToBoolean], by simpa using ha⟩

/-- Lines 72-89 with empty arguments: the post query is a new object with the default options. -/
theorem sBuildPostQuery_empty (σ : Store) (p r : Nat)
    (h5 : σ[5]? = some (postQueryCell 2)) (h2 : σ[2]? = some defaultOptionsCell)
    (hp : σ[p]? = some (.object [])) (hr : σ[r]? = some (.object [])) :
    sBuildPostQuery moduleRefs σ (.ref p) (.ref r)
      = (σ ++ [defaultOptionsCell, postQueryCell σ.length], .ok (.ref (σ.length + 1))) := by
  have hclone : sClone σ (.ref 5)
      = (σ ++ [defaultOptionsCell, postQueryCell σ.length], .ok (.ref (σ.length + 1))) :=
    sClone_postQuery σ 5 2 _ h5 h2 (by simp)
  have hp' := getElem?_append_old σ [defaultOptionsCell, postQueryCell σ.length] p _ hp
  have hr' := getElem?_append_old σ [defaultOptionsCell, postQueryCell σ.length] r _ hr
  generalize σ ++ [defaultOptionsCell, postQueryCell σ.length] = τ at *
  have hlr : ∀ k, sLookup τ (.ref r) k = .undefined := fun k => by
    rw [sLookup_object τ r _ k hr']; rfl
  have hhp : ∀ k, sCallHasOwnProperty τ (.ref p) k = .ok false := fun k => by
    simp only [sCallHasOwnProperty, sHasOwnProperty, hp']; rfl
  have hrf : sReadFilter τ (.ref r) = .ok .undefined := by
    simp only [sReadFilter, hr', hlr]
  unfold sBuildPostQuery
  simp only [moduleRefs, hclone, hlr, hhp, hrf, Except.map, sToBoolean, sSetOptionWhen,
    sSetOptionIf, Bool.false_eq_true, if_false]

theorem sEachKeys_undefined (σ : Store) : sEachKeys σ .undefined = [] := rfl

/-- The run of `fetchData` with references to two empty objects, flag off. -/
theorem sFetchData_empty_refs (api : Api) (σ : Store) (p r : Nat) (locals : SValue)
    (hmod : ModuleIntact σ)
    (hp : σ[p]? = some (.object [])) (hr : σ[r]? = some (.object [])) :
    (∀ c ∈ (sFetchData false api moduleRefs σ (.ref p) (.ref r) locals).2.calls,
        c.controller = .string "posts" ∧ c.type = .string "browse"
          ∧ c.options = .object [("include", .string "author,authors,tags"),
              ("formats", .string "html")])
      ∧ (locals ≠ .undefined → locals ≠ .null →
          (∀ version, api version (.string "posts") (.string "browse") ≠ none) →
          (sFetchData false api moduleRefs σ (.ref p) (.ref r) locals).2.calls.length = 1) := by
  have h0 : σ[0]? = some (.object []) := hmod 0 (by decide)
  have h1 : σ[1]? = some (postQueryCell 0) := hmod 1 (by decide)
  have h2 : σ[2]? = some defaultOptionsCell := hmod 2 (by decide)
  have h5 : σ[5]? = some (postQueryCell 2) := hmod 5 (by decide)
  have hbuild := sBuildPostQuery_empty σ p r h5 h2 hp hr
  have h0' := getElem?_append_old σ [defaultOptionsCell, postQueryCell σ.length] 0 _ h0
  have h1' := getElem?_append_old σ [defaultOptionsCell, postQueryCell σ.length] 1 _ h1
  have hr' := getElem?_append_old σ [defaultOptionsCell, postQueryCell σ.length] r _ hr
  have ho' := getElem?_append_zero σ defaultOptionsCell [postQueryCell σ.length]
  have hq' := getElem?_append_one σ defaultOptionsCell (postQueryCell σ.length) []
  generalize σ ++ [defaultOptionsCell, postQueryCell σ.length] = τ at *
  have hproc := sProcessQuery_postQuery api τ (σ.length + 1) σ.length
    (sLookup τ (.ref p) "slug") locals h0' h1' hq' ho'
  have hkeep := keeps_sProcessQuery false api moduleRefs τ (.ref (σ.length + 1))
    (sLookup τ (.ref p) "slug") locals
  rcases hpq : sProcessQuery false api moduleRefs τ (.ref (σ.length + 1))
    (sLookup τ (.ref p) "slug") locals with ⟨σ₄, d⟩
  rw [hpq] at hproc hkeep
  simp only at hproc hkeep
  have hr₄ : σ₄[r]? = some (.object []) := by
    rw [hkeep.2 r (lt_length_of_getElem? τ r _ hr'), hr']
  have hdata : sLookup σ₄ (.ref r) "data" = .undefined := by
    rw [sLookup_object σ₄ r _ _ hr₄]; rfl
  have hcalls : (sFetchData false api moduleRefs σ (.ref p) (.ref r) locals).2.calls
      = d.call.toList := by
    have hdataτ : sLookup τ (.ref r) "data" = .undefined := by
      rw [sLookup_object τ r _ _ hr']; rfl
    unfold sFetchData
    simp only [sOrEmptyObject, sToBoolean, if_true, hbuild, hpq, hdataτ, sWalkable]
    cases hres : d.result with
    | error e => rfl
    | ok promise =>
      simp only [hdata, sEachKeys_undefined, sDispatchAll]
  rw [hcalls]
  refine And.intro (fun c hc => ?_) (fun hu hn hapi => ?_)
  · exact hproc.1 c (by simpa using hc)
  · have := hproc.2 hu hn hapi
    cases hcall : d.call with
    | none => exact absurd hcall this
    | some c => rfl

/-! ### What the values stand for -/

/-- When the first `n` cells are kept and refer to each other only, a value
that refers to one of them stands for the same data as before. -/
theorem reify_keeps (n : Nat) (σ σ' : Store) (hk : Keeps n σ σ') (hd : DownClosed n σ) :
    ∀ (fuel : Nat) (v : SValue), Below n v → reify fuel σ' v = reify fuel σ v := by
  intro fuel
  induction fuel with
  | zero => intro v _; cases v <;> rfl
  | succ fuel ih =>
    intro v hv
    cases v with
    | ref a =>
      have ha : a < n := hv a rfl
      simp only [reify, hk.2 a ha]
      cases hc : σ[a]? with
      | none => rfl
      | some c =>
        cases c with
        | object props =>
          simp only [JSValue.object.injEq]
          apply List.map_congr_left
          intro e he
          rw [ih e.2 (hd a _ ha hc e.2 (List.mem_map_of_mem Prod.snd he))]
        | array xs =>
          simp only [JSValue.array.injEq]
          apply List.map_congr_left
          intro x hx
          exact ih x (hd a _ ha hc x hx)
    | _ => rfl

/-! ### Sequences of calls -/

theorem moduleIntact_of_keeps (σ σ' : Store) (n : Nat) (hn : moduleStore.length ≤ n)
    (hk : Keeps n σ σ') (h : ModuleIntact σ) : ModuleIntact σ' :=
  fun a ha => by rw [hk.2 a (lt_of_lt_of_le ha hn)]; exact h a ha

theorem length_of_moduleIntact (σ : Store) (h : ModuleIntact σ) : moduleStore.length ≤ σ.length := by
  have h5 := h 5 (by decide)
  have := lt_length_of_getElem? σ 5 _ h5
  exact this

theorem keeps_serve (σ : Store) (r : Request) : Keeps σ.length σ (serve σ r) := by
  unfold serve
  have h₁ := keeps_append σ.length σ r.allocated (le_refl _)
  exact keeps_trans h₁ (keeps_mono (keeps_sFetchData _ _ _ _ _ _ _) h₁.1)

theorem keeps_serveAll : ∀ (rs : List Request) (σ : Store), Keeps σ.length σ (serveAll σ rs) := by
  intro rs
  induction rs with
  | nil => intro σ; exact keeps_refl _ σ
  | cons r rest ih =>
    intro σ
    have h₁ := keeps_serve σ r
    exact keeps_trans h₁ (keeps_mono (ih (serve σ r)) h₁.1)

theorem moduleIntact_moduleStore : ModuleIntact moduleStore := fun _ _ => rfl

theorem downClosed_moduleStore : DownClosed moduleStore.length moduleStore := by
  intro a c ha hc v hv b hb
  have h6 : a < 6 := ha
  subst hb
  interval_cases a <;> simp [moduleStore] at hc <;> subst hc <;>
    simp [cellValues] at hv <;> simp [moduleStore, hv]

theorem sFetchData_normalize (flag : Bool) (api : Api) (mod : Module) (σ σ₁ σ₂ : Store)
    (pathOptions routerOptions locals : SValue) (a b : Nat)
    (h₁ : sOrEmptyObject σ pathOptions = (σ₁, .ref a))
    (h₂ : sOrEmptyObject σ₁ routerOptions = (σ₂, .ref b)) :
    (sFetchData flag api mod σ pathOptions routerOptions locals).2
      = (sFetchData flag api mod σ₂ (.ref a) (.ref b) locals).2 := by
  have href : ∀ (τ : Store) (c : Nat), sOrEmptyObject τ (.ref c) = (τ, .ref c) := fun _ _ => rfl
  unfold sFetchData
  simp only [h₁, h₂, href]

/-- The run of `fetchData` with empty arguments, flag off, on a store whose
module constants are intact. -/
theorem sFetchData_empty (api : Api) (σ : Store) (pathOptions routerOptions locals : SValue)
    (hmod : ModuleIntact σ) (hp : EmptyArg σ pathOptions) (hr : EmptyArg σ routerOptions) :
    (∀ c ∈ (sFetchData false api moduleRefs σ pathOptions routerOptions locals).2.calls,
        c.controller = .string "posts" ∧ c.type = .string "browse"
          ∧ c.options = .object [("include", .string "author,authors,tags"),
              ("formats", .string "html")])
      ∧ (locals ≠ .undefined → locals ≠ .null →
          (∀ version, api version (.string "posts") (.string "browse") ≠ none) →
          (sFetchData false api moduleRefs σ pathOptions routerOptions locals).2.calls.length
            = 1) := by
  obtain ⟨e₁, a, h₁, ha⟩ := sOrEmptyObject_emptyArg σ pathOptions hp
  have hr₁ : EmptyArg (σ ++ e₁) routerOptions := by
    rcases hr with h | ⟨b, hb, hcell⟩
    · exact Or.inl h
    · exact Or.inr ⟨b, hb, getElem?_append_old σ e₁ b _ hcell⟩
  obtain ⟨e₂, b, h₂, hb⟩ := sOrEmptyObject_emptyArg (σ ++ e₁) routerOptions hr₁
  rw [sFetchData_normalize false api moduleRefs σ _ _ pathOptions routerOptions locals a b h₁ h₂]
  have hlen := length_of_moduleIntact σ hmod
  have hmod₂ : ModuleIntact (σ ++ e₁ ++ e₂) := by
    intro i hi
    rw [List.append_assoc, List.getElem?_append_left (lt_of_lt_of_le hi hlen)]
    exact hmod i hi
  exact sFetchData_empty_refs api (σ ++ e₁ ++ e₂) a b locals hmod₂
    (getElem?_append_old (σ ++ e₁) e₂ a _ ha) hb

/-! ## C12: what a call leaves unchanged -/

/-- C12 as stated fails when the developer-experiments flag is on: right
after the module is loaded, `fetchData(undefined, undefined, locals)` with
`locals = {apiVersion: 'v2', member: {id: 'm1'}}` dispatches `posts.browse`
with the options `{include, formats, context: {member: {id: 'm1'}}}`, which
are not exactly `{include: 'author,authors,tags', formats: 'html'}`. -/
theorem fetchData_empty_call_with_context :
    (sFetchData true echoApi moduleRefs (serveAll moduleStore [] ++ callerCells)
        .undefined .undefined (.ref 6)).2.calls.map Call.options
      = [.object [("include", .string "author,authors,tags"), ("formats", .string "html"),
          ("context", .object [("member", .object [("id", .string "m1")])])]]
    ∧ (sFetchData true echoApi moduleRefs (serveAll moduleStore [] ++ callerCells)
        .undefined .undefined (.ref 6)).2.calls.map Call.options
      ≠ [.object [("include", .string "author,authors,tags"), ("formats", .string "html")]] := by
  have h : (sFetchData true echoApi moduleRefs (serveAll moduleStore [] ++ callerCells)
        .undefined .undefined (.ref 6)).2.calls.map Call.options
      = [.object [("include", .string "author,authors,tags"), ("formats", .string "html"),
          ("context", .object [("member", .object [("id", .string "m1")])])]] := rfl
  refine ⟨h, ?_⟩
  rw [h]
  simp

/-- C12, amended: `processQuery` and `fetchData` change no object that exists
when they are called: every cell of the store is the same after the call as
before it, whatever the flag, the API and the arguments are, and so a value
of the caller (the descriptor, `routerOptions` with the descriptors of its
data map, `pathOptions`) and the module-level default post query stand for
the same data after the call as before it.  Consequently, after any sequence
of earlier `fetchData` calls, the constants of the module are as they were
when the module was loaded, and a `fetchData` call with empty `pathOptions`
and `routerOptions` (each `undefined` or an object without properties) and
the flag off makes no call other than `posts.browse` with the options exactly
`{include: 'author,authors,tags', formats: 'html'}`; it makes exactly that one
call when `locals` is neither `undefined` nor `null` and the API has
`posts.browse`. -/
theorem calls_keep_existing_objects :
    (∀ (flag : Bool) (api : Api) (mod : Module) (σ : Store) (query slugParam locals : SValue),
        Keeps σ.length σ (sProcessQuery flag api mod σ query slugParam locals).1
          ∧ ∀ (fuel : Nat) (v : SValue), DownClosed σ.length σ → Below σ.length v →
              reify fuel (sProcessQuery flag api mod σ query slugParam locals).1 v
                = reify fuel σ v)
    ∧ (∀ (flag : Bool) (api : Api) (mod : Module) (σ : Store)
          (pathOptions routerOptions locals : SValue),
        Keeps σ.length σ (sFetchData flag api mod σ pathOptions routerOptions locals).1
          ∧ ∀ (fuel : Nat) (v : SValue), DownClosed σ.length σ → Below σ.length v →
              reify fuel (sFetchData flag api mod σ pathOptions routerOptions locals).1 v
                = reify fuel σ v)
    ∧ (∀ (rs : List Request),
        ModuleIntact (serveAll moduleStore rs)
          ∧ ∀ (fuel : Nat),
              reify fuel (serveAll moduleStore rs) (.ref moduleRefs.defaultPostQuery)
                = reify fuel moduleStore (.ref moduleRefs.defaultPostQuery))
    ∧ (∀ (rs : List Request) (allocated : List Cell) (api : Api)
          (pathOptions routerOptions locals : SValue),
        EmptyArg (serveAll moduleStore rs ++ allocated) pathOptions →
        EmptyArg (serveAll moduleStore rs ++ allocated) routerOptions →
        (∀ c ∈ (sFetchData false api moduleRefs (serveAll moduleStore rs ++ allocated)
              pathOptions routerOptions locals).2.calls,
            c.controller = .string "posts" ∧ c.type = .string "browse"
              ∧ c.options = .object [("include", .string "author,authors,tags"),
                  ("formats", .string "html")])
          ∧ (locals ≠ .undefined → locals ≠ .null →
              (∀ version, api version (.string "posts") (.string "browse") ≠ none) →
              (sFetchData false api moduleRefs (serveAll moduleStore rs ++ allocated)
                pathOptions routerOptions locals).2.calls.length = 1)) := by
  refine ⟨fun flag api mod σ query slugParam locals => ?_,
    fun flag api mod σ pathOptions routerOptions locals => ?_, fun rs => ?_,
    fun rs allocated api pathOptions routerOptions locals hp hr => ?_⟩
  · have hk := keeps_sProcessQuery flag api mod σ query slugParam locals
    exact ⟨hk, fun fuel v hd hv => reify_keeps _ σ _ hk hd fuel v hv⟩
  · have hk := keeps_sFetchData flag api mod σ pathOptions routerOptions locals
    exact ⟨hk, fun fuel v hd hv => reify_keeps _ σ _ hk hd fuel v hv⟩
  · have hk := keeps_serveAll rs moduleStore
    refine ⟨moduleIntact_of_keeps _ _ _ (le_refl _) hk moduleIntact_moduleStore, fun fuel => ?_⟩
    exact reify_keeps _ moduleStore _ hk downClosed_moduleStore fuel _
      (fun b hb => by
        simp only [SValue.ref.injEq] at hb
        rw [← hb]
        decide)
  · have hk := keeps_serveAll rs moduleStore
    have hmod : ModuleIntact (serveAll moduleStore rs ++ allocated) :=
      moduleIntact_of_keeps _ _ _ (le_refl _)
        (keeps_trans hk (keeps_append _ _ allocated hk.1)) moduleIntact_moduleStore
    exact sFetchData_empty api _ pathOptions routerOptions locals hmod hp hr

/-- C12 at a store with the objects of a caller: the request with the filter
`tag:%s`, an order, a page and a limit leaves the caller's cells as they
were, and the call with `undefined` arguments that follows it dispatches once,
with the default options. -/
theorem calls_keep_existing_objects_witness :
    Keeps (moduleStore ++ callerCells).length (moduleStore ++ callerCells)
        (sFetchData true echoApi moduleRefs (moduleStore ++ callerCells)
          (.ref 8) (.ref 9) (.ref 6)).1
    ∧ ModuleIntact (serveAll moduleStore [taxonomyRequest])
    ∧ (∀ c ∈ (sFetchData false echoApi moduleRefs (serveAll moduleStore [taxonomyRequest] ++ [])
            .undefined .undefined (.ref 6)).2.calls,
          c.options = .object [("include", .string "author,authors,tags"),
            ("formats", .string "html")])
    ∧ (sFetchData false echoApi moduleRefs (serveAll moduleStore [taxonomyRequest] ++ [])
          .undefined .undefined (.ref 6)).2.calls.length = 1 :=
  ⟨(calls_keep_existing_objects.2.1 true echoApi moduleRefs (moduleStore ++ callerCells)
      (.ref 8) (.ref 9) (.ref 6)).1,
    (calls_keep_existing_objects.2.2.1 [taxonomyRequest]).1,
    fun c hc =>
      ((calls_keep_existing_objects.2.2.2 [taxonomyRequest] [] echoApi .undefined .undefined
        (.ref 6) (Or.inl rfl) (Or.inl rfl)).1 c hc).2.2,
    (calls_keep_existing_objects.2.2.2 [taxonomyRequest] [] echoApi .undefined .undefined
      (.ref 6) (Or.inl rfl) (Or.inl rfl)).2 (by simp) (by simp) (fun _ => by simp [echoApi])⟩

end FetchData
